import Mathlib

set_option maxRecDepth 16000

/-!
# Verification of the CWBudde/wav WAV container codec

Shallow embedding of the repository's Go sources in Lean 4.

Conventions used throughout this development:

* Go `float32`/`float64` arithmetic is modelled exactly over `ℚ`.  Every
  numeric tolerance appearing in the claims (1e-4, one quantization step,
  …) exceeds the IEEE-754 rounding error of the modelled expressions by
  several orders of magnitude, so the rational model decides each claim
  the same way the floating-point program does.
* Machine integers are modelled as `ℤ` (or `ℕ` for unsigned quantities)
  with wrap-around or saturation made explicit at the operations where Go
  performs them.
* Bytes are `ℕ` values `< 256`; byte streams are `List ℕ`.
* Fallible operations return `Option`/`Except` or an explicit error flag.
-/

namespace Wav

/-! ## Numeric helpers (Go standard library semantics)

`math.Round` rounds half away from zero; integer conversion of the
already-rounded value is exact. -/

/-- Go `math.Round`: round to the nearest integer, halves away from zero. -/
def goRound (x : ℚ) : ℤ :=
  if 0 ≤ x then ⌊x + 1/2⌋ else -⌊-x + 1/2⌋

/-! ## pcm_float.go -/

/-- `clampFloat32` from pcm_float.go (also used for `clampFloat64`, whose
body is identical). -/
def clampFloat32 (value mn mx : ℚ) : ℚ :=
  if value < mn then mn else if value > mx then mx else value

/-- `normalizePCMInt` from pcm_float.go: normalize an integer PCM sample to
a float given the storage bit depth.  `floatPCM8Center = scalePCMInt8 =
127.5 = 255/2`. -/
def normalizePCMInt (sample : ℤ) (bitDepth : ℕ) : ℚ :=
  if bitDepth = 8 then ((sample : ℚ) - 255/2) / (255/2)
  else if bitDepth = 16 then (sample : ℚ) / 32768
  else if bitDepth = 24 then (sample : ℚ) / 8388608
  else if bitDepth = 32 then (sample : ℚ) / 2147483648
  else 0

/-- `float32ToPCMUint8` from pcm_float.go. -/
def float32ToPCMUint8 (value : ℚ) : ℕ :=
  let v := clampFloat32 value (-1) 1
  let scaled := goRound ((v + 1) * (255/2))
  if scaled < 0 then 0
  else if scaled > 255 then 255
  else scaled.toNat

/-- `float32ToPCMInt32` from pcm_float.go: clamp to [-1,1], scale by
`2^(bitDepth-1)`, round, clamp to the signed range. -/
def float32ToPCMInt32 (value : ℚ) (bitDepth : ℕ) : ℤ :=
  let v := clampFloat32 value (-1) 1
  if bitDepth = 16 then
    let sample := min (goRound (v * 32768)) 32767
    if sample < -32768 then -32768 else sample
  else if bitDepth = 24 then
    let sample := min (goRound (v * 8388608)) 8388607
    if sample < -8388608 then -8388608 else sample
  else if bitDepth = 32 then
    let sample := min (goRound (v * 2147483648)) 2147483647
    if sample < -2147483648 then -2147483648 else sample
  else 0

/-! ## A-law / mu-law companding (G.711 file of the repository)

Direct transcription.  Go `byte` values are `ℕ < 256`; Go `int` is `ℤ`;
Go `>>` on a negative `int` is an arithmetic shift, i.e. `Int.fdiv` by the
power of two. -/

/-- `searchSegment`: index of the first segment end `≥ value`, or the
table length when the value is beyond every segment. -/
def searchSegment (value : ℤ) : List ℤ → ℕ
  | [] => 0
  | e :: rest => if value ≤ e then 0 else searchSegment value rest + 1

/-- `muLawSegmentEnd` table. -/
def muLawSegmentEnd : List ℤ := [0x3F, 0x7F, 0xFF, 0x1FF, 0x3FF, 0x7FF, 0xFFF, 0x1FFF]

/-- `aLawSegmentEnd` table. -/
def aLawSegmentEnd : List ℤ := [0x1F, 0x3F, 0x7F, 0xFF, 0x1FF, 0x3FF, 0x7FF, 0xFFF]

/-- `decodeMuLawSample`: `^sample` complements the byte; the decoded value
is `((mantissa<<3)+132)<<exponent - 132`, negated when the sign bit is set. -/
def decodeMuLawSample (sample : ℕ) : ℤ :=
  let value := 255 - sample % 256
  let sign := value &&& 0x80
  let exponent := (value >>> 4) &&& 0x07
  let mantissa := value &&& 0x0F
  let decoded : ℤ := (((mantissa <<< 3) + 132) <<< exponent : ℕ) - 132
  if sign ≠ 0 then -decoded else decoded

/-- `decodeALawSample`. -/
def decodeALawSample (sample : ℕ) : ℤ :=
  let value := (sample % 256) ^^^ 0x55
  let sign := value &&& 0x80
  let exponent := (value >>> 4) &&& 0x07
  let mantissa := value &&& 0x0F
  let d0 := mantissa <<< 4
  let decoded : ℕ :=
    if exponent = 0 then d0 + 8
    else if exponent = 1 then d0 + 0x108
    else (d0 + 0x108) <<< (exponent - 1)
  if sign = 0 then -(decoded : ℤ) else (decoded : ℤ)

/-- `encodeMuLawSample`: bias/clip then segment search; the mask is
`0xFF` for non-negative input and `0x7F` for negative input. -/
def encodeMuLawSample (pcm : ℤ) : ℕ :=
  let value := Int.fdiv pcm 4
  let value' := if value < 0 then -value else value
  let mask : ℕ := if value < 0 then 0x7F else 0xFF
  let value'' := if value' > 8159 then 8159 else value'
  let v : ℕ := (value'' + 33).toNat
  let segment := searchSegment (v : ℤ) muLawSegmentEnd
  if segment ≥ 8 then 0x7F ^^^ mask
  else ((segment <<< 4) ||| ((v >>> (segment + 1)) &&& 0x0F)) ^^^ mask

/-- `encodeALawSample`: note the negative branch maps `value` to
`-value - 1` and the mask differs per sign. -/
def encodeALawSample (pcm : ℤ) : ℕ :=
  let value := Int.fdiv pcm 8
  let value' := if value < 0 then -value - 1 else value
  let mask : ℕ := if value < 0 then 0x55 else 0xD5
  let value'' := if value' > 4095 then 4095 else value'
  let v : ℕ := value''.toNat
  let segment := searchSegment (v : ℤ) aLawSegmentEnd
  if segment ≥ 8 then 0x7F ^^^ mask
  else
    let encoded := segment <<< 4
    let encoded :=
      if segment < 2 then encoded ||| ((v >>> 1) &&& 0x0F)
      else encoded ||| ((v >>> segment) &&& 0x0F)
    encoded ^^^ mask

/-! ## Little-endian integer serialization

`encoding/binary` little-endian semantics together with the 24-bit
helpers `audio.Int24LETo32` / `audio.Int32toInt24LEBytes` of the
`go-audio/audio` dependency (sign-extended 24-bit little-endian). -/

/-- Two's-complement little-endian bytes of an `int16`. -/
def le16Bytes (v : ℤ) : List ℕ :=
  let u := (v % 65536).toNat
  [u % 256, u / 256 % 256]

/-- Low three little-endian bytes of an `int32` (`audio.Int32toInt24LEBytes`). -/
def le24Bytes (v : ℤ) : List ℕ :=
  let u := (v % 16777216).toNat
  [u % 256, u / 256 % 256, u / 65536 % 256]

/-- Two's-complement little-endian bytes of an `int32`. -/
def le32Bytes (v : ℤ) : List ℕ :=
  let u := (v % 4294967296).toNat
  [u % 256, u / 256 % 256, u / 65536 % 256, u / 16777216 % 256]

/-- `int16(binary.LittleEndian.Uint16 ...)`: sign-extended 16-bit read. -/
def int16OfBytes (bs : List ℕ) : ℤ :=
  let u := bs.getD 0 0 + 256 * bs.getD 1 0
  if 32768 ≤ u then (u : ℤ) - 65536 else (u : ℤ)

/-- `audio.Int24LETo32`: sign-extended 24-bit little-endian read. -/
def int24OfBytes (bs : List ℕ) : ℤ :=
  let u := bs.getD 0 0 + 256 * bs.getD 1 0 + 65536 * bs.getD 2 0
  if 8388608 ≤ u then (u : ℤ) - 16777216 else (u : ℤ)

/-- `int32(binary.LittleEndian.Uint32 ...)`: sign-extended 32-bit read. -/
def int32OfBytes (bs : List ℕ) : ℤ :=
  let u := bs.getD 0 0 + 256 * bs.getD 1 0 + 65536 * bs.getD 2 0 + 16777216 * bs.getD 3 0
  if 2147483648 ≤ u then (u : ℤ) - 4294967296 else (u : ℤ)

/-! ## The paired sample codecs (claim C2)

`Codec` enumerates the (bit-depth, format) pairs that have both an encode
direction (encoder `addBuffer`/`WriteFrame`) and a decode direction
(`sampleDecodeFloat32Func`).  For the integer codecs the round trip goes
through the actual encoded bytes; for the IEEE-float codecs the byte store
and load are value-preserving and are modelled as the identity, leaving
the two clamps the code performs. -/

inductive Codec
  | pcm8 | pcm16 | pcm24 | pcm32 | ieee32 | ieee64 | alaw | mulaw
deriving DecidableEq

/-- The bytes the encoder (`Encoder.addBuffer` / `Encoder.WriteFrame`)
produces for one normalized sample, per codec.  (IEEE codecs store the
clamped value itself; byte packing is modelled as the identity.) -/
def encodeSampleBytes : Codec → ℚ → List ℕ
  | .pcm8, x => [float32ToPCMUint8 x]
  | .pcm16, x => le16Bytes (float32ToPCMInt32 x 16)
  | .pcm24, x => le24Bytes (float32ToPCMInt32 x 24)
  | .pcm32, x => le32Bytes (float32ToPCMInt32 x 32)
  | .alaw, x => [encodeALawSample (float32ToPCMInt32 x 16)]
  | .mulaw, x => [encodeMuLawSample (float32ToPCMInt32 x 16)]
  | _, _ => []

/-- The decoded normalized value `sampleDecodeFloat32Func` computes from
one sample's bytes, per codec. -/
def decodeSampleQ : Codec → List ℕ → ℚ
  | .pcm8, bs => normalizePCMInt (bs.getD 0 0 : ℤ) 8
  | .pcm16, bs => normalizePCMInt (int16OfBytes bs) 16
  | .pcm24, bs => normalizePCMInt (int24OfBytes bs) 24
  | .pcm32, bs => normalizePCMInt (int32OfBytes bs) 32
  | .alaw, bs => normalizePCMInt (decodeALawSample (bs.getD 0 0)) 16
  | .mulaw, bs => normalizePCMInt (decodeMuLawSample (bs.getD 0 0)) 16
  | _, _ => 0

/-- Decode-after-encode composition for one sample.  For the IEEE float
codecs the store and load preserve the value, so the composition is the
encoder clamp followed by the decoder clamp. -/
def encDecQ (c : Codec) (x : ℚ) : ℚ :=
  match c with
  | .ieee32 => clampFloat32 (clampFloat32 x (-1) 1) (-1) 1
  | .ieee64 => clampFloat32 (clampFloat32 x (-1) 1) (-1) 1
  | _ => decodeSampleQ c (encodeSampleBytes c x)

/-- Distance between adjacent decoder output levels at a mu-law byte:
`8 <<< exponent` in 16-bit units. -/
def muLawStepOfByte (b : ℕ) : ℕ :=
  8 <<< (((255 - b % 256) >>> 4) &&& 0x07)

/-- Distance between adjacent decoder output levels at an A-law byte:
`16` in segments 0 and 1, else `16 <<< (exponent - 1)`, in 16-bit units. -/
def aLawStepOfByte (b : ℕ) : ℕ :=
  let e := (((b % 256) ^^^ 0x55) >>> 4) &&& 0x07
  if e ≤ 1 then 16 else 16 <<< (e - 1)

/-- One quantization step of a codec at input `x`, in normalized units:
the spacing of adjacent decoder outputs around the value `x` encodes to. -/
def quantStep (c : Codec) (x : ℚ) : ℚ :=
  match c with
  | .pcm8 => 2/255
  | .pcm16 => 1/32768
  | .pcm24 => 1/8388608
  | .pcm32 => 1/2147483648
  | .ieee32 => 0
  | .ieee64 => 0
  | .alaw => (aLawStepOfByte (encodeALawSample (float32ToPCMInt32 x 16)) : ℚ) / 32768
  | .mulaw => (muLawStepOfByte (encodeMuLawSample (float32ToPCMInt32 x 16)) : ℚ) / 32768

/-! ## Companding round-trip analysis

`muPre`/`aPre` compute the pre-mask encoded byte as a function of the
biased/clipped magnitude, mirroring the tail of `encodeMuLawSample` /
`encodeALawSample`; shape lemmas connect them to the source functions. -/

/-- Flat form of `searchSegment` over `muLawSegmentEnd`. -/
def muSegN (w : ℕ) : ℕ :=
  if w ≤ 63 then 0 else if w ≤ 127 then 1 else if w ≤ 255 then 2 else if w ≤ 511 then 3
  else if w ≤ 1023 then 4 else if w ≤ 2047 then 5 else if w ≤ 4095 then 6
  else if w ≤ 8191 then 7 else 8

/-- Flat form of `searchSegment` over `aLawSegmentEnd`. -/
def aSegN (q : ℕ) : ℕ :=
  if q ≤ 31 then 0 else if q ≤ 63 then 1 else if q ≤ 127 then 2 else if q ≤ 255 then 3
  else if q ≤ 511 then 4 else if q ≤ 1023 then 5 else if q ≤ 2047 then 6
  else if q ≤ 4095 then 7 else 8

/-- Pre-mask mu-law byte computed from the magnitude `Int.fdiv |pcm| 4`
(before bias and clip). -/
def muPre (q0 : ℕ) : ℕ :=
  let q := if 8159 < q0 then 8159 else q0
  let w := q + 33
  let s := muSegN w
  if 8 ≤ s then 127 else (s <<< 4) ||| ((w >>> (s + 1)) &&& 15)

/-- Pre-mask A-law byte computed from the magnitude (before clip). -/
def aPre (q0 : ℕ) : ℕ :=
  let q := if 4095 < q0 then 4095 else q0
  let s := aSegN q
  if 8 ≤ s then 127 else (s <<< 4) ||| ((q >>> (if s < 2 then 1 else s)) &&& 15)

theorem searchSegment_mu_eq (w : ℕ) :
    searchSegment (w : ℤ) muLawSegmentEnd = muSegN w := by
  simp only [searchSegment, muLawSegmentEnd, muSegN]
  norm_cast
  split_ifs <;> rfl

theorem searchSegment_a_eq (q : ℕ) :
    searchSegment (q : ℤ) aLawSegmentEnd = aSegN q := by
  simp only [searchSegment, aLawSegmentEnd, aSegN]
  norm_cast
  split_ifs <;> rfl

/-- Shape of the mu-law encoder on non-negative input. -/
theorem encodeMu_shape_pos (u : ℕ) :
    encodeMuLawSample (u : ℤ) = muPre (u / 4) ^^^ 0xFF := by
  have hdiv : (u : ℤ).fdiv 4 = ((u / 4 : ℕ) : ℤ) := by
    rw [Int.fdiv_eq_ediv _ (by norm_num)]; omega
  have hnn : ¬ ((u / 4 : ℕ) : ℤ) < 0 := by omega
  simp only [encodeMuLawSample, muPre, hdiv, hnn, if_false]
  by_cases hc : 8159 < u / 4
  · have hc' : ((u / 4 : ℕ) : ℤ) > 8159 := by exact_mod_cast hc
    simp only [hc, hc', if_true]
    decide
  · have hc' : ¬ ((u / 4 : ℕ) : ℤ) > 8159 := by
      simp only [gt_iff_lt, not_lt] at hc ⊢; exact_mod_cast hc
    simp only [hc, hc', if_false]
    have ht : (((u / 4 : ℕ) : ℤ) + 33).toNat = u / 4 + 33 := by omega
    rw [ht, searchSegment_mu_eq]
    simp only [ge_iff_le]
    split_ifs <;> rfl

/-- Shape of the mu-law encoder on negative input. -/
theorem encodeMu_shape_neg (m : ℕ) (hm : 1 ≤ m) :
    encodeMuLawSample (-(m : ℤ)) = muPre ((m + 3) / 4) ^^^ 0x7F := by
  have hdiv : (-(m : ℤ)).fdiv 4 = -(((m + 3) / 4 : ℕ) : ℤ) := by
    rw [Int.fdiv_eq_ediv _ (by norm_num)]; omega
  have hneg : -(((m + 3) / 4 : ℕ) : ℤ) < 0 := by
    have : 1 ≤ (m + 3) / 4 := by omega
    omega
  simp only [encodeMuLawSample, muPre, hdiv, hneg, if_true, neg_neg]
  by_cases hc : 8159 < (m + 3) / 4
  · have hc' : (((m + 3) / 4 : ℕ) : ℤ) > 8159 := by exact_mod_cast hc
    simp only [hc, hc', if_true]
    decide
  · have hc' : ¬ (((m + 3) / 4 : ℕ) : ℤ) > 8159 := by
      simp only [gt_iff_lt, not_lt] at hc ⊢; exact_mod_cast hc
    simp only [hc, hc', if_false]
    have ht : ((((m + 3) / 4 : ℕ) : ℤ) + 33).toNat = (m + 3) / 4 + 33 := by omega
    rw [ht, searchSegment_mu_eq]
    simp only [ge_iff_le]
    split_ifs <;> rfl

/-- Shape of the A-law encoder on non-negative input. -/
theorem encodeA_shape_pos (u : ℕ) :
    encodeALawSample (u : ℤ) = aPre (u / 8) ^^^ 0xD5 := by
  have hdiv : (u : ℤ).fdiv 8 = ((u / 8 : ℕ) : ℤ) := by
    rw [Int.fdiv_eq_ediv _ (by norm_num)]; omega
  have hnn : ¬ ((u / 8 : ℕ) : ℤ) < 0 := by omega
  simp only [encodeALawSample, aPre, hdiv, hnn, if_false]
  by_cases hc : 4095 < u / 8
  · have hc' : ((u / 8 : ℕ) : ℤ) > 4095 := by exact_mod_cast hc
    simp only [hc, hc', if_true]
    decide
  · have hc' : ¬ ((u / 8 : ℕ) : ℤ) > 4095 := by
      simp only [gt_iff_lt, not_lt] at hc ⊢; exact_mod_cast hc
    simp only [hc, hc', if_false]
    rw [Int.toNat_ofNat, searchSegment_a_eq]
    simp only [ge_iff_le]
    split_ifs <;> rfl

/-- Shape of the A-law encoder on negative input. -/
theorem encodeA_shape_neg (m : ℕ) (hm : 1 ≤ m) :
    encodeALawSample (-(m : ℤ)) = aPre ((m + 7) / 8 - 1) ^^^ 0x55 := by
  have hdiv : (-(m : ℤ)).fdiv 8 = -(((m + 7) / 8 : ℕ) : ℤ) := by
    rw [Int.fdiv_eq_ediv _ (by norm_num)]; omega
  have hneg : -(((m + 7) / 8 : ℕ) : ℤ) < 0 := by
    have : 1 ≤ (m + 7) / 8 := by omega
    omega
  simp only [encodeALawSample, aPre, hdiv, hneg, if_true]
  have hval : - -(((m + 7) / 8 : ℕ) : ℤ) - 1 = (((m + 7) / 8 - 1 : ℕ) : ℤ) := by
    have : 1 ≤ (m + 7) / 8 := by omega
    omega
  rw [hval]
  by_cases hc : 4095 < (m + 7) / 8 - 1
  · have hc' : (((m + 7) / 8 - 1 : ℕ) : ℤ) > 4095 := by exact_mod_cast hc
    simp only [hc, hc', if_true]
    decide
  · have hc' : ¬ (((m + 7) / 8 - 1 : ℕ) : ℤ) > 4095 := by
      simp only [gt_iff_lt, not_lt] at hc ⊢; exact_mod_cast hc
    simp only [hc, hc', if_false]
    rw [Int.toNat_ofNat, searchSegment_a_eq]
    simp only [ge_iff_le]
    split_ifs <;> rfl

/-- Decoded magnitude of a pre-mask mu-law byte. -/
def muMagI (p : ℕ) : ℤ :=
  (((p &&& 15) * 8 + 132 : ℕ) : ℤ) * 2 ^ ((p >>> 4) &&& 7) - 132

/-- Step size (adjacent decoded levels) of a pre-mask mu-law byte. -/
def muStepN (p : ℕ) : ℕ := 8 <<< ((p >>> 4) &&& 7)

/-- Decoded magnitude of a pre-mask A-law byte. -/
def aMagI (p : ℕ) : ℤ :=
  let e := (p >>> 4) &&& 7
  let m := p &&& 15
  if e = 0 then 16 * (m : ℤ) + 8
  else if e = 1 then 16 * (m : ℤ) + 264
  else (16 * (m : ℤ) + 264) * 2 ^ (e - 1)

/-- Step size of a pre-mask A-law byte. -/
def aStepN (p : ℕ) : ℕ :=
  let e := (p >>> 4) &&& 7
  if e ≤ 1 then 16 else 16 <<< (e - 1)

set_option maxHeartbeats 2000000 in
theorem mu_decode_xor_pos : ∀ p : ℕ, p ≤ 127 →
    decodeMuLawSample (p ^^^ 0xFF) = muMagI p := by decide

set_option maxHeartbeats 2000000 in
theorem mu_decode_xor_neg : ∀ p : ℕ, p ≤ 127 →
    decodeMuLawSample (p ^^^ 0x7F) = -muMagI p := by decide

set_option maxHeartbeats 2000000 in
theorem mu_step_xor : ∀ p : ℕ, p ≤ 127 →
    muLawStepOfByte (p ^^^ 0xFF) = muStepN p ∧
    muLawStepOfByte (p ^^^ 0x7F) = muStepN p := by decide

set_option maxHeartbeats 2000000 in
theorem a_decode_xor_pos : ∀ p : ℕ, p ≤ 127 →
    decodeALawSample (p ^^^ 0xD5) = aMagI p := by decide

set_option maxHeartbeats 2000000 in
theorem a_decode_xor_neg : ∀ p : ℕ, p ≤ 127 →
    decodeALawSample (p ^^^ 0x55) = -aMagI p := by decide

set_option maxHeartbeats 2000000 in
theorem a_step_xor : ∀ p : ℕ, p ≤ 127 →
    aLawStepOfByte (p ^^^ 0xD5) = aStepN p ∧
    aLawStepOfByte (p ^^^ 0x55) = aStepN p := by decide

set_option maxHeartbeats 2000000 in
theorem lor_fields : ∀ s : ℕ, s ≤ 7 → ∀ t : ℕ, t ≤ 15 →
    ((s <<< 4 ||| t) &&& 15 = t) ∧ (((s <<< 4 ||| t) >>> 4) &&& 7 = s) ∧
    (s <<< 4 ||| t ≤ 127) := by decide

theorem land15_sub : ∀ a : ℕ, a ≤ 31 → 16 ≤ a → a &&& 15 = a - 16 := by decide

theorem land15_id : ∀ a : ℕ, a ≤ 15 → a &&& 15 = a := by decide

/-- `s <<< 4 ||| t` stays within a byte's low seven bits. -/
theorem lor_le_127 (s t : ℕ) (hs : s ≤ 7) (ht : t ≤ 15) : s <<< 4 ||| t ≤ 127 :=
  (lor_fields s hs t ht).2.2

/-- Every pre-mask byte is at most `0x7F`. -/
theorem muPre_le (q0 : ℕ) : muPre q0 ≤ 127 := by
  simp only [muPre]
  split_ifs <;>
    first
    | exact le_refl _
    | (refine lor_le_127 _ _ ?_ Nat.and_le_right; omega)

theorem aPre_le (q0 : ℕ) : aPre q0 ≤ 127 := by
  simp only [aPre]
  split_ifs <;>
    first
    | exact le_refl _
    | (refine lor_le_127 _ _ ?_ Nat.and_le_right; omega)

/-- Segment window bounds for `muSegN` in the non-clip regime. -/
theorem muSegN_bounds (w : ℕ) (h33 : 33 ≤ w) (h81 : w ≤ 8191) :
    muSegN w ≤ 7 ∧ 32 * 2 ^ muSegN w ≤ w ∧ w < 64 * 2 ^ muSegN w := by
  unfold muSegN
  split_ifs <;> norm_num <;> omega

/-- Segment window bounds for `aSegN` beyond the two small segments. -/
theorem aSegN_bounds (q : ℕ) (h64 : 64 ≤ q) (h40 : q ≤ 4095) :
    2 ≤ aSegN q ∧ aSegN q ≤ 7 ∧ 16 * 2 ^ aSegN q ≤ q ∧ q < 32 * 2 ^ aSegN q := by
  unfold aSegN
  split_ifs <;> norm_num <;> omega

/-- Linear-arithmetic core of the mu-law window bound. -/
theorem muWindowBound (X t r w u : ℤ) (hX : 1 ≤ X) (hr : 0 ≤ r) (hr2 : r < 2 * X)
    (hw : w = 2 * X * t + r) (h33 : 33 ≤ w)
    (hu : 4 * (w - 33) ≤ u + 3) (hu2 : u ≤ 4 * (w - 33) + 3) :
    |(8 * t + 4) * X - 132 - u| + 1 ≤ 8 * X := by
  have h2 : (8 * t + 4) * X = 4 * w - 4 * r + 4 * X := by rw [hw]; ring
  rw [h2]
  rcases abs_cases (4 * w - 4 * r + 4 * X - 132 - u) with ⟨h, _⟩ | ⟨h, _⟩ <;> rw [h] <;> omega

/-- Linear-arithmetic core of the A-law window bound (segments ≥ 2). -/
theorem aWindowBound (X t r q u : ℤ) (hX : 1 ≤ X) (hr : 0 ≤ r) (hr2 : r < 2 * X)
    (hq : q = 2 * X * t + r) (hu : 8 * q ≤ u) (hu2 : u ≤ 8 * q + 8) :
    |(16 * t + 8) * X - u| + 1 ≤ 16 * X := by
  have h2 : (16 * t + 8) * X = 8 * q - 8 * r + 8 * X := by rw [hq]; ring
  rw [h2]
  rcases abs_cases (8 * q - 8 * r + 8 * X - u) with ⟨h, _⟩ | ⟨h, _⟩ <;> rw [h] <;> omega

/-- Composite mu-law quantization bound over the magnitude pipeline. -/
theorem muCore (q0 u : ℕ) (h1 : 4 * q0 ≤ u + 3) (h2 : u ≤ 4 * q0 + 3) (hu : u ≤ 32768) :
    |muMagI (muPre q0) - (u : ℤ)| + 1 ≤ (muStepN (muPre q0) : ℤ) := by
  by_cases hc : 8159 < q0
  · have hp : muPre q0 = 127 := by norm_num [muPre, hc, muSegN]
    rw [hp]
    have hm : muMagI 127 = 32124 := by decide
    have hs : muStepN 127 = 1024 := by decide
    rw [hm, hs]
    rcases abs_cases ((32124 : ℤ) - u) with ⟨h, _⟩ | ⟨h, _⟩ <;> rw [h] <;> omega
  · push_neg at hc
    by_cases hc2 : q0 = 8159
    · have hp : muPre q0 = 127 := by subst hc2; decide
      rw [hp]
      have hm : muMagI 127 = 32124 := by decide
      have hs : muStepN 127 = 1024 := by decide
      rw [hm, hs]
      rcases abs_cases ((32124 : ℤ) - u) with ⟨h, _⟩ | ⟨h, _⟩ <;> rw [h] <;> omega
    · have hq8 : q0 ≤ 8158 := by omega
      set w := q0 + 33 with hwdef
      obtain ⟨hs7, hlo, hhi⟩ := muSegN_bounds w (by omega) (by omega)
      set s := muSegN w with hsdef
      have hif : ¬ (8 ≤ s) := by omega
      have hp : muPre q0 = (s <<< 4) ||| ((w >>> (s + 1)) &&& 15) := by
        simp only [muPre]
        rw [if_neg (show ¬ 8159 < q0 by omega), ← hwdef, ← hsdef, if_neg hif]
      set t' := w >>> (s + 1) with ht'def
      have ht' : t' = w / 2 ^ (s + 1) := Nat.shiftRight_eq_div_pow w (s + 1)
      have hpow : (0 : ℕ) < 2 ^ (s + 1) := Nat.pos_pow_of_pos _ (by norm_num)
      have h2s : 2 ^ (s + 1) = 2 * 2 ^ s := by ring
      have h16 : 16 ≤ t' := by
        rw [ht', Nat.le_div_iff_mul_le hpow, h2s]
        omega
      have h31 : t' ≤ 31 := by
        have : w / 2 ^ (s + 1) < 32 := by
          rw [Nat.div_lt_iff_lt_mul hpow, h2s]
          omega
        omega
      have hland : t' &&& 15 = t' - 16 := land15_sub t' h31 h16
      obtain ⟨hf1, hf2, _⟩ := lor_fields s hs7 (t' - 16) (by omega)
      have hdm : w = 2 ^ (s + 1) * t' + w % 2 ^ (s + 1) := by
        rw [ht']
        exact (Nat.div_add_mod w (2 ^ (s + 1))).symm
      clear_value t' s w
      have hX1 : (1 : ℤ) ≤ 2 ^ s := by
        have := pow_pos (show (0:ℤ) < 2 by norm_num) s
        omega
      have hrltZ : ((w % 2 ^ (s + 1) : ℕ) : ℤ) < 2 * 2 ^ s := by
        have h := Nat.mod_lt w hpow
        have h' : ((w % 2 ^ (s + 1) : ℕ) : ℤ) < ((2 ^ (s + 1) : ℕ) : ℤ) := by exact_mod_cast h
        have h2 : ((2 ^ (s + 1) : ℕ) : ℤ) = 2 * 2 ^ s := by push_cast; ring
        omega
      have hwZ : (w : ℤ) = 2 * 2 ^ s * (t' : ℤ) + ((w % 2 ^ (s + 1) : ℕ) : ℤ) := by
        have hdm' : w = 2 * 2 ^ s * t' + w % 2 ^ (s + 1) := by
          rw [show 2 * 2 ^ s = 2 ^ (s + 1) from (pow_succ' 2 s).symm]
          exact hdm
        exact_mod_cast hdm'
      have hmag : muMagI ((s <<< 4) ||| (t' - 16)) = (8 * (t' : ℤ) + 4) * 2 ^ s - 132 := by
        unfold muMagI
        rw [hf1, hf2]
        have hcast : (((t' - 16) * 8 + 132 : ℕ) : ℤ) = 8 * (t' : ℤ) + 4 := by omega
        rw [hcast]
        norm_cast
      have hstep : ((muStepN ((s <<< 4) ||| (t' - 16)) : ℕ) : ℤ) = 8 * 2 ^ s := by
        unfold muStepN
        rw [hf2, Nat.shiftLeft_eq]
        push_cast
        ring
      rw [hp, hland, hmag, hstep]
      exact muWindowBound (2 ^ s) (t' : ℤ) ((w % 2 ^ (s + 1) : ℕ) : ℤ) (w : ℤ) (u : ℤ)
        hX1 (by positivity) hrltZ hwZ (by omega) (by omega) (by omega)

/-- Composite A-law quantization bound over the magnitude pipeline. -/
theorem aCore (q0 u : ℕ) (hq0 : q0 ≤ 4095) (h1 : 8 * q0 ≤ u) (h2 : u ≤ 8 * q0 + 8) :
    |aMagI (aPre q0) - (u : ℤ)| + 1 ≤ (aStepN (aPre q0) : ℤ) := by
  by_cases hA : q0 ≤ 31
  · have hseg : aSegN q0 = 0 := by unfold aSegN; rw [if_pos hA]
    have hp : aPre q0 = (0 <<< 4) ||| ((q0 >>> 1) &&& 15) := by
      simp only [aPre]
      rw [if_neg (show ¬ 4095 < q0 by omega), hseg, if_neg (by norm_num), if_pos (by norm_num)]
    have ht' : q0 >>> 1 = q0 / 2 := Nat.shiftRight_eq_div_pow q0 1
    have hland : (q0 >>> 1) &&& 15 = q0 / 2 := by
      rw [ht']; exact land15_id _ (by omega)
    obtain ⟨hf1, hf2, _⟩ := lor_fields 0 (by norm_num) (q0 / 2) (by omega)
    rw [hp, hland]
    have hmag : aMagI ((0 <<< 4) ||| (q0 / 2)) = 16 * ((q0 / 2 : ℕ) : ℤ) + 8 := by
      simp only [aMagI]
      rw [hf1, hf2]
      norm_num
    have hstep : ((aStepN ((0 <<< 4) ||| (q0 / 2)) : ℕ) : ℤ) = 16 := by
      simp only [aStepN]
      rw [hf2]
      norm_num
    rw [hmag, hstep]
    rcases abs_cases (16 * ((q0 / 2 : ℕ) : ℤ) + 8 - u) with ⟨h, _⟩ | ⟨h, _⟩ <;> rw [h] <;> omega
  · by_cases hB : q0 ≤ 63
    · have hseg : aSegN q0 = 1 := by
        unfold aSegN
        rw [if_neg (by omega), if_pos (by omega)]
      have hp : aPre q0 = (1 <<< 4) ||| ((q0 >>> 1) &&& 15) := by
        simp only [aPre]
        rw [if_neg (show ¬ 4095 < q0 by omega), hseg, if_neg (by norm_num),
          if_pos (by norm_num)]
      have ht' : q0 >>> 1 = q0 / 2 := Nat.shiftRight_eq_div_pow q0 1
      have hland : (q0 >>> 1) &&& 15 = q0 / 2 - 16 := by
        rw [ht']; exact land15_sub _ (by omega) (by omega)
      obtain ⟨hf1, hf2, _⟩ := lor_fields 1 (by norm_num) (q0 / 2 - 16) (by omega)
      rw [hp, hland]
      have hmag : aMagI ((1 <<< 4) ||| (q0 / 2 - 16)) = 16 * ((q0 / 2 - 16 : ℕ) : ℤ) + 264 := by
        simp only [aMagI]
        rw [hf1, hf2]
        norm_num
      have hstep : ((aStepN ((1 <<< 4) ||| (q0 / 2 - 16)) : ℕ) : ℤ) = 16 := by
        simp only [aStepN]
        rw [hf2]
        norm_num
      rw [hmag, hstep]
      have hc16 : ((q0 / 2 - 16 : ℕ) : ℤ) = (q0 / 2 : ℕ) - 16 := by omega
      rw [hc16]
      rcases abs_cases (16 * (((q0 / 2 : ℕ) : ℤ) - 16) + 264 - u) with ⟨h, _⟩ | ⟨h, _⟩ <;>
        rw [h] <;> omega
    · obtain ⟨hs2, hs7, hlo, hhi⟩ := aSegN_bounds q0 (by omega) hq0
      set s := aSegN q0 with hsdef
      have hp : aPre q0 = (s <<< 4) ||| ((q0 >>> s) &&& 15) := by
        simp only [aPre]
        rw [if_neg (show ¬ 4095 < q0 by omega), ← hsdef, if_neg (by omega), if_neg (by omega)]
      set t' := q0 >>> s with ht'def
      have ht' : t' = q0 / 2 ^ s := Nat.shiftRight_eq_div_pow q0 s
      have hpow : (0 : ℕ) < 2 ^ s := Nat.pos_pow_of_pos _ (by norm_num)
      have h16 : 16 ≤ t' := by
        rw [ht', Nat.le_div_iff_mul_le hpow]
        omega
      have h31 : t' ≤ 31 := by
        have : q0 / 2 ^ s < 32 := by
          rw [Nat.div_lt_iff_lt_mul hpow]
          omega
        omega
      have hland : t' &&& 15 = t' - 16 := land15_sub t' h31 h16
      obtain ⟨hf1, hf2, _⟩ := lor_fields s hs7 (t' - 16) (by omega)
      have hdm : q0 = 2 ^ s * t' + q0 % 2 ^ s := by
        rw [ht']
        exact (Nat.div_add_mod q0 (2 ^ s)).symm
      clear_value t' s
      obtain ⟨s1, rfl⟩ : ∃ s1 : ℕ, s = s1 + 1 := ⟨s - 1, by omega⟩
      have hX1 : (1 : ℤ) ≤ 2 ^ s1 := by
        have := pow_pos (show (0:ℤ) < 2 by norm_num) s1
        omega
      have hrltZ : ((q0 % 2 ^ (s1 + 1) : ℕ) : ℤ) < 2 * 2 ^ s1 := by
        have h := Nat.mod_lt q0 hpow
        have h' : ((q0 % 2 ^ (s1 + 1) : ℕ) : ℤ) < ((2 ^ (s1 + 1) : ℕ) : ℤ) := by exact_mod_cast h
        have h2p : ((2 ^ (s1 + 1) : ℕ) : ℤ) = 2 * 2 ^ s1 := by push_cast; ring
        omega
      have hqZ : (q0 : ℤ) = 2 * 2 ^ s1 * (t' : ℤ) + ((q0 % 2 ^ (s1 + 1) : ℕ) : ℤ) := by
        have hdm' : q0 = 2 * 2 ^ s1 * t' + q0 % 2 ^ (s1 + 1) := by
          rw [show 2 * 2 ^ s1 = 2 ^ (s1 + 1) from (pow_succ' 2 s1).symm]
          exact hdm
        exact_mod_cast hdm'
      have hmag : aMagI ((s1 + 1) <<< 4 ||| (t' - 16)) = (16 * (t' : ℤ) + 8) * 2 ^ s1 := by
        simp only [aMagI]
        rw [hf1, hf2]
        rw [if_neg (by omega), if_neg (by omega)]
        have hc16 : ((t' - 16 : ℕ) : ℤ) = (t' : ℤ) - 16 := by omega
        rw [hc16]
        have he : s1 + 1 - 1 = s1 := by omega
        rw [he]
        ring
      have hstep : ((aStepN ((s1 + 1) <<< 4 ||| (t' - 16)) : ℕ) : ℤ) = 16 * 2 ^ s1 := by
        simp only [aStepN]
        rw [hf2]
        rw [if_neg (by omega)]
        have he : s1 + 1 - 1 = s1 := by omega
        rw [he, Nat.shiftLeft_eq]
        push_cast
        ring
      rw [hp, hland, hmag, hstep]
      exact aWindowBound (2 ^ s1) (t' : ℤ) ((q0 % 2 ^ (s1 + 1) : ℕ) : ℤ) (q0 : ℤ) (u : ℤ)
        hX1 (by positivity) hrltZ hqZ (by omega) (by omega)

/-- Full mu-law 16-bit round trip: the decoded value is within one
quantization step (minus the unit left for PCM rounding) of the input. -/
theorem muRoundTrip (v : ℤ) (h1 : -32768 ≤ v) (h2 : v ≤ 32767) :
    |decodeMuLawSample (encodeMuLawSample v) - v| + 1 ≤
      (muLawStepOfByte (encodeMuLawSample v) : ℤ) := by
  rcases le_or_lt 0 v with hv | hv
  · obtain ⟨u, rfl⟩ : ∃ u : ℕ, v = (u : ℤ) := ⟨v.toNat, by omega⟩
    rw [encodeMu_shape_pos u, mu_decode_xor_pos _ (muPre_le _), (mu_step_xor _ (muPre_le _)).1]
    exact muCore (u / 4) u (by omega) (by omega) (by omega)
  · obtain ⟨m, hm, rfl⟩ : ∃ m : ℕ, 1 ≤ m ∧ v = -(m : ℤ) := ⟨(-v).toNat, by omega, by omega⟩
    rw [encodeMu_shape_neg m hm, mu_decode_xor_neg _ (muPre_le _),
      (mu_step_xor _ (muPre_le _)).2]
    have habs : -muMagI (muPre ((m + 3) / 4)) - (-(m : ℤ)) =
        -(muMagI (muPre ((m + 3) / 4)) - (m : ℤ)) := by ring
    rw [habs, abs_neg]
    exact muCore ((m + 3) / 4) m (by omega) (by omega) (by omega)

/-- Full A-law 16-bit round trip. -/
theorem aRoundTrip (v : ℤ) (h1 : -32768 ≤ v) (h2 : v ≤ 32767) :
    |decodeALawSample (encodeALawSample v) - v| + 1 ≤
      (aLawStepOfByte (encodeALawSample v) : ℤ) := by
  rcases le_or_lt 0 v with hv | hv
  · obtain ⟨u, rfl⟩ : ∃ u : ℕ, v = (u : ℤ) := ⟨v.toNat, by omega⟩
    rw [encodeA_shape_pos u, a_decode_xor_pos _ (aPre_le _), (a_step_xor _ (aPre_le _)).1]
    exact aCore (u / 8) u (by omega) (by omega) (by omega)
  · obtain ⟨m, hm, rfl⟩ : ∃ m : ℕ, 1 ≤ m ∧ v = -(m : ℤ) := ⟨(-v).toNat, by omega, by omega⟩
    rw [encodeA_shape_neg m hm, a_decode_xor_neg _ (aPre_le _), (a_step_xor _ (aPre_le _)).2]
    have habs : -aMagI (aPre ((m + 7) / 8 - 1)) - (-(m : ℤ)) =
        -(aMagI (aPre ((m + 7) / 8 - 1)) - (m : ℤ)) := by ring
    rw [habs, abs_neg]
    exact aCore ((m + 7) / 8 - 1) m (by omega) (by omega) (by omega)

/-! ## Rounding and clamping analysis for the PCM encoders -/

theorem goRound_bound (x : ℚ) : |((goRound x : ℤ) : ℚ) - x| ≤ 1/2 := by
  unfold goRound
  split_ifs with h
  · rw [abs_le]
    constructor
    · push_cast
      linarith [Int.lt_floor_add_one (x + 1/2)]
    · push_cast
      linarith [Int.floor_le (x + 1/2)]
  · rw [abs_le]
    constructor
    · push_cast
      linarith [Int.floor_le (-x + 1/2)]
    · push_cast
      linarith [Int.lt_floor_add_one (-x + 1/2)]

theorem goRound_le_int (x : ℚ) (n : ℤ) (h : x ≤ n) : goRound x ≤ n := by
  unfold goRound
  split_ifs with hx
  · have h1 : ⌊x + 1/2⌋ ≤ ⌊(n : ℚ) + 1/2⌋ := Int.floor_le_floor (by linarith)
    have h2 : ⌊(n : ℚ) + 1/2⌋ = n := by
      rw [add_comm, Int.floor_add_int]
      norm_num
    omega
  · have h1 : (-n : ℤ) ≤ ⌊-x + 1/2⌋ := Int.le_floor.mpr (by push_cast; linarith)
    omega

theorem goRound_ge_int (x : ℚ) (n : ℤ) (h : (n : ℚ) ≤ x) : n ≤ goRound x := by
  unfold goRound
  split_ifs with hx
  · have h1 : n ≤ ⌊x⌋ := Int.le_floor.mpr h
    have h2 : ⌊x⌋ ≤ ⌊x + 1/2⌋ := Int.floor_le_floor (by linarith)
    omega
  · have h1 : ⌊-x + 1/2⌋ ≤ ⌊(-(n:ℚ)) + 1/2⌋ := Int.floor_le_floor (by linarith)
    have h2 : ⌊(-(n:ℚ)) + 1/2⌋ = -n := by
      rw [show (-(n:ℚ)) = ((-n : ℤ) : ℚ) by push_cast; ring, add_comm, Int.floor_add_int]
      norm_num
    omega

theorem clampFloat32_of_mem (x : ℚ) (h1 : -1 ≤ x) (h2 : x ≤ 1) :
    clampFloat32 x (-1) 1 = x := by
  unfold clampFloat32
  rw [if_neg (by linarith), if_neg (by linarith)]

/-- Behaviour of the scale-round-clamp pattern shared by the three signed
PCM encoders. -/
theorem scaleRoundClamp_spec (x : ℚ) (S : ℤ) (hS : 1 ≤ S) (h1 : -1 ≤ x) (h2 : x ≤ 1)
    (y : ℤ)
    (hy : y = (if min (goRound (x * S)) (S - 1) < -S then -S
               else min (goRound (x * S)) (S - 1))) :
    -S ≤ y ∧ y ≤ S - 1 ∧ |((y : ℤ) : ℚ) - x * S| ≤ 1 := by
  subst hy
  have hSQ : (1 : ℚ) ≤ (S : ℚ) := by exact_mod_cast hS
  have hge : -S ≤ goRound (x * S) := goRound_ge_int _ _ (by push_cast; nlinarith)
  have hle : goRound (x * S) ≤ S := goRound_le_int _ _ (by push_cast; nlinarith)
  have hmin : -S ≤ min (goRound (x * S)) (S - 1) := le_min hge (by omega)
  rw [if_neg (by omega)]
  refine ⟨hmin, min_le_right _ _, ?_⟩
  rcases le_or_lt (goRound (x * S)) (S - 1) with hc | hc
  · rw [min_eq_left hc]
    exact le_trans (goRound_bound (x * S)) (by norm_num)
  · rw [min_eq_right (by omega)]
    have hb := goRound_bound (x * S)
    have hgr : goRound (x * S) = S := by omega
    rw [hgr] at hb
    rw [abs_le] at hb ⊢
    push_cast at hb ⊢
    have hxS : x * (S : ℚ) ≤ (S : ℚ) := by nlinarith
    constructor <;> linarith [hb.1, hb.2]

/-- Behaviour of the unsigned 8-bit encoder. -/
theorem float32ToPCMUint8_spec (x : ℚ) (h1 : -1 ≤ x) (h2 : x ≤ 1) :
    float32ToPCMUint8 x ≤ 255 ∧
    |((float32ToPCMUint8 x : ℕ) : ℚ) - (x + 1) * (255/2)| ≤ 1/2 := by
  have hcl := clampFloat32_of_mem x h1 h2
  have hge : (0 : ℤ) ≤ goRound ((x + 1) * (255/2)) := by
    have := goRound_ge_int ((x + 1) * (255/2)) 0 (by push_cast; nlinarith)
    omega
  have hle : goRound ((x + 1) * (255/2)) ≤ 255 :=
    goRound_le_int _ _ (by push_cast; nlinarith)
  have hb := goRound_bound ((x + 1) * (255/2))
  simp only [float32ToPCMUint8, hcl]
  rw [if_neg (by omega), if_neg (by omega)]
  constructor
  · omega
  · have hcast : (((goRound ((x + 1) * (255/2))).toNat : ℕ) : ℚ) =
        ((goRound ((x + 1) * (255/2)) : ℤ) : ℚ) := by
      exact_mod_cast congrArg (Int.cast : ℤ → ℚ) (Int.toNat_of_nonneg hge)
    rw [hcast]
    exact hb

/-! ## Byte-serialization round trips -/

theorem int16OfBytes_le16 (v : ℤ) (h1 : -32768 ≤ v) (h2 : v ≤ 32767) :
    int16OfBytes (le16Bytes v) = v := by
  simp only [le16Bytes, int16OfBytes, List.getD_cons_zero, List.getD_cons_succ]
  have hu : (v % 65536).toNat % 256 + 256 * ((v % 65536).toNat / 256 % 256) =
      (v % 65536).toNat := by omega
  rw [hu]
  split_ifs <;> omega

theorem int24OfBytes_le24 (v : ℤ) (h1 : -8388608 ≤ v) (h2 : v ≤ 8388607) :
    int24OfBytes (le24Bytes v) = v := by
  simp only [le24Bytes, int24OfBytes, List.getD_cons_zero, List.getD_cons_succ]
  have hu : (v % 16777216).toNat % 256 + 256 * ((v % 16777216).toNat / 256 % 256) +
      65536 * ((v % 16777216).toNat / 65536 % 256) = (v % 16777216).toNat := by omega
  rw [hu]
  split_ifs <;> omega

theorem int32OfBytes_le32 (v : ℤ) (h1 : -2147483648 ≤ v) (h2 : v ≤ 2147483647) :
    int32OfBytes (le32Bytes v) = v := by
  simp only [le32Bytes, int32OfBytes, List.getD_cons_zero, List.getD_cons_succ]
  have hu : (v % 4294967296).toNat % 256 + 256 * ((v % 4294967296).toNat / 256 % 256) +
      65536 * ((v % 4294967296).toNat / 65536 % 256) +
      16777216 * ((v % 4294967296).toNat / 16777216 % 256) =
      (v % 4294967296).toNat := by omega
  rw [hu]
  split_ifs <;> omega

theorem normalizePCM8_eq (s : ℤ) : normalizePCMInt s 8 = ((s : ℚ) - 255/2) / (255/2) := by
  simp [normalizePCMInt]

theorem normalizePCM16_eq (s : ℤ) : normalizePCMInt s 16 = (s : ℚ) / 32768 := by
  simp [normalizePCMInt]

theorem normalizePCM24_eq (s : ℤ) : normalizePCMInt s 24 = (s : ℚ) / 8388608 := by
  simp [normalizePCMInt]

theorem normalizePCM32_eq (s : ℤ) : normalizePCMInt s 32 = (s : ℚ) / 2147483648 := by
  simp [normalizePCMInt]

theorem div_abs_step (v : ℤ) (x SQ : ℚ) (hSQ : 0 < SQ) (h : |(v : ℚ) - x * SQ| ≤ 1) :
    |(v : ℚ) / SQ - x| ≤ 1 / SQ := by
  have heq : (v : ℚ) / SQ - x = ((v : ℚ) - x * SQ) / SQ := by
    field_simp
    ring
  rw [heq, abs_div, abs_of_pos hSQ]
  exact (div_le_div_right hSQ).mpr h

/-- Reduction of `float32ToPCMInt32` at depth 16 to the raw clamp form. -/
theorem f32pcm_eq_16 (x : ℚ) (h1 : -1 ≤ x) (h2 : x ≤ 1) :
    float32ToPCMInt32 x 16 =
      (if min (goRound (x * 32768)) 32767 < -32768 then -32768
       else min (goRound (x * 32768)) 32767) := by
  simp only [float32ToPCMInt32, clampFloat32_of_mem x h1 h2]
  norm_num

theorem f32pcm_eq_24 (x : ℚ) (h1 : -1 ≤ x) (h2 : x ≤ 1) :
    float32ToPCMInt32 x 24 =
      (if min (goRound (x * 8388608)) 8388607 < -8388608 then -8388608
       else min (goRound (x * 8388608)) 8388607) := by
  simp only [float32ToPCMInt32, clampFloat32_of_mem x h1 h2]
  norm_num

theorem f32pcm_eq_32 (x : ℚ) (h1 : -1 ≤ x) (h2 : x ≤ 1) :
    float32ToPCMInt32 x 32 =
      (if min (goRound (x * 2147483648)) 2147483647 < -2147483648 then -2147483648
       else min (goRound (x * 2147483648)) 2147483647) := by
  simp only [float32ToPCMInt32, clampFloat32_of_mem x h1 h2]
  norm_num

/-- Specification of the 16-bit PCM integer encoder on normalized input. -/
theorem f32pcm16_spec (x : ℚ) (h1 : -1 ≤ x) (h2 : x ≤ 1) :
    -32768 ≤ float32ToPCMInt32 x 16 ∧ float32ToPCMInt32 x 16 ≤ 32767 ∧
    |((float32ToPCMInt32 x 16 : ℤ) : ℚ) - x * 32768| ≤ 1 := by
  have hs := scaleRoundClamp_spec x 32768 (by norm_num) h1 h2 (float32ToPCMInt32 x 16)
    (by rw [f32pcm_eq_16 x h1 h2]; norm_num)
  norm_num at hs
  exact hs

theorem f32pcm24_spec (x : ℚ) (h1 : -1 ≤ x) (h2 : x ≤ 1) :
    -8388608 ≤ float32ToPCMInt32 x 24 ∧ float32ToPCMInt32 x 24 ≤ 8388607 ∧
    |((float32ToPCMInt32 x 24 : ℤ) : ℚ) - x * 8388608| ≤ 1 := by
  have hs := scaleRoundClamp_spec x 8388608 (by norm_num) h1 h2 (float32ToPCMInt32 x 24)
    (by rw [f32pcm_eq_24 x h1 h2]; norm_num)
  norm_num at hs
  exact hs

theorem f32pcm32_spec (x : ℚ) (h1 : -1 ≤ x) (h2 : x ≤ 1) :
    -2147483648 ≤ float32ToPCMInt32 x 32 ∧ float32ToPCMInt32 x 32 ≤ 2147483647 ∧
    |((float32ToPCMInt32 x 32 : ℤ) : ℚ) - x * 2147483648| ≤ 1 := by
  have hs := scaleRoundClamp_spec x 2147483648 (by norm_num) h1 h2 (float32ToPCMInt32 x 32)
    (by rw [f32pcm_eq_32 x h1 h2]; norm_num)
  norm_num at hs
  exact hs

end Wav

/-! ### C2 — decode∘encode within one quantization step -/

/-- C2: for every supported (bit-depth, format) pair with both an encode
and a decode direction (PCM 8/16/24/32-bit, IEEE float 32/64-bit, A-law
8-bit, mu-law 8-bit) and every normalized sample `x ∈ [-1, 1]`, decoding
the encoded bytes of `x` yields a value within one quantization step of
`x` (`quantStep`: the spacing of adjacent decoder output levels at `x`'s
code; 0 for the lossless IEEE-float store). -/
theorem C2_decode_encode_within_step (c : Wav.Codec) (x : ℚ)
    (h1 : -1 ≤ x) (h2 : x ≤ 1) :
    |Wav.encDecQ c x - x| ≤ Wav.quantStep c x := by
  cases c with
  | pcm8 =>
    obtain ⟨hle, herr⟩ := Wav.float32ToPCMUint8_spec x h1 h2
    simp only [Wav.encDecQ, Wav.decodeSampleQ, Wav.encodeSampleBytes, Wav.quantStep,
      List.getD_cons_zero, Wav.normalizePCM8_eq]
    push_cast
    have heq : (((Wav.float32ToPCMUint8 x : ℕ) : ℚ) - 255/2) / (255/2) - x =
        (((Wav.float32ToPCMUint8 x : ℕ) : ℚ) - (x + 1) * (255/2)) * (2/255) := by
      ring
    rw [heq, abs_mul, abs_of_pos (by norm_num : (0:ℚ) < 2/255)]
    calc |((Wav.float32ToPCMUint8 x : ℕ) : ℚ) - (x + 1) * (255/2)| * (2/255)
        ≤ (1/2) * (2/255) := mul_le_mul_of_nonneg_right herr (by norm_num)
      _ ≤ 2/255 := by norm_num
  | pcm16 =>
    obtain ⟨hlo, hhi, herr⟩ := Wav.f32pcm16_spec x h1 h2
    simp only [Wav.encDecQ, Wav.decodeSampleQ, Wav.encodeSampleBytes, Wav.quantStep,
      Wav.int16OfBytes_le16 _ hlo hhi, Wav.normalizePCM16_eq]
    exact Wav.div_abs_step _ _ _ (by norm_num) herr
  | pcm24 =>
    obtain ⟨hlo, hhi, herr⟩ := Wav.f32pcm24_spec x h1 h2
    simp only [Wav.encDecQ, Wav.decodeSampleQ, Wav.encodeSampleBytes, Wav.quantStep,
      Wav.int24OfBytes_le24 _ hlo hhi, Wav.normalizePCM24_eq]
    exact Wav.div_abs_step _ _ _ (by norm_num) herr
  | pcm32 =>
    obtain ⟨hlo, hhi, herr⟩ := Wav.f32pcm32_spec x h1 h2
    simp only [Wav.encDecQ, Wav.decodeSampleQ, Wav.encodeSampleBytes, Wav.quantStep,
      Wav.int32OfBytes_le32 _ hlo hhi, Wav.normalizePCM32_eq]
    exact Wav.div_abs_step _ _ _ (by norm_num) herr
  | ieee32 =>
    simp only [Wav.encDecQ, Wav.quantStep, Wav.clampFloat32_of_mem x h1 h2]
    simp
  | ieee64 =>
    simp only [Wav.encDecQ, Wav.quantStep, Wav.clampFloat32_of_mem x h1 h2]
    simp
  | alaw =>
    obtain ⟨hlo, hhi, herr⟩ := Wav.f32pcm16_spec x h1 h2
    have hrt := Wav.aRoundTrip (Wav.float32ToPCMInt32 x 16) hlo hhi
    simp only [Wav.encDecQ, Wav.decodeSampleQ, Wav.encodeSampleBytes, Wav.quantStep,
      List.getD_cons_zero, Wav.normalizePCM16_eq]
    set v := Wav.float32ToPCMInt32 x 16 with hvdef
    set b := Wav.encodeALawSample v with hbdef
    set D := Wav.decodeALawSample b with hDdef
    set st := Wav.aLawStepOfByte b with hstdef
    have hDvZ : |D - v| ≤ (st : ℤ) - 1 := by omega
    have hDv : |(D : ℚ) - (v : ℚ)| ≤ (st : ℚ) - 1 := by exact_mod_cast hDvZ
    have hsplit : (D : ℚ) / 32768 - x =
        (((D : ℚ) - (v : ℚ)) + ((v : ℚ) - x * 32768)) / 32768 := by ring
    rw [hsplit, abs_div, abs_of_pos (show (0:ℚ) < 32768 by norm_num)]
    have htri := abs_add ((D : ℚ) - (v : ℚ)) ((v : ℚ) - x * 32768)
    have hnum : |((D : ℚ) - (v : ℚ)) + ((v : ℚ) - x * 32768)| ≤ (st : ℚ) := by linarith
    exact (div_le_div_right (by norm_num)).mpr hnum
  | mulaw =>
    obtain ⟨hlo, hhi, herr⟩ := Wav.f32pcm16_spec x h1 h2
    have hrt := Wav.muRoundTrip (Wav.float32ToPCMInt32 x 16) hlo hhi
    simp only [Wav.encDecQ, Wav.decodeSampleQ, Wav.encodeSampleBytes, Wav.quantStep,
      List.getD_cons_zero, Wav.normalizePCM16_eq]
    set v := Wav.float32ToPCMInt32 x 16 with hvdef
    set b := Wav.encodeMuLawSample v with hbdef
    set D := Wav.decodeMuLawSample b with hDdef
    set st := Wav.muLawStepOfByte b with hstdef
    have hDvZ : |D - v| ≤ (st : ℤ) - 1 := by omega
    have hDv : |(D : ℚ) - (v : ℚ)| ≤ (st : ℚ) - 1 := by exact_mod_cast hDvZ
    have hsplit : (D : ℚ) / 32768 - x =
        (((D : ℚ) - (v : ℚ)) + ((v : ℚ) - x * 32768)) / 32768 := by ring
    rw [hsplit, abs_div, abs_of_pos (show (0:ℚ) < 32768 by norm_num)]
    have htri := abs_add ((D : ℚ) - (v : ℚ)) ((v : ℚ) - x * 32768)
    have hnum : |((D : ℚ) - (v : ℚ)) + ((v : ℚ) - x * 32768)| ≤ (st : ℚ) := by linarith
    exact (div_le_div_right (by norm_num)).mpr hnum

/-- C2 (witness): the theorem applied at the concrete codec pcm16 and
input 1/2. -/
theorem C2_decode_encode_within_step_witness :
    |Wav.encDecQ Wav.Codec.pcm16 (1/2) - 1/2| ≤ Wav.quantStep Wav.Codec.pcm16 (1/2) :=
  C2_decode_encode_within_step Wav.Codec.pcm16 (1/2) (by norm_num) (by norm_num)

namespace Wav

/-! ## Byte-level chunk walking (decoder.go `NextChunk` / `ReadMetadata`)

The RIFF wire format after the parsed header: each chunk is a 4-byte
identifier, a 4-byte little-endian declared size, the payload, and one
zero pad byte when the declared size is odd.  `Decoder.NextChunk` reads
the 8-byte header via the riff parser's `IDnSize`, rounds an odd size up
by one, and wraps the stream in a reader limited to the rounded size.
The model works on the byte stream that follows the already-parsed
`fmt ` chunk (i.e. the state `ReadMetadata` reaches after `ReadInfo`). -/

/-- 4-byte little-endian read (`binary.LittleEndian.Uint32`). -/
def leU32 (b0 b1 b2 b3 : ℕ) : ℕ := b0 + 256 * b1 + 65536 * b2 + 16777216 * b3

/-- 4-byte little-endian bytes of a size field. -/
def le32N (n : ℕ) : List ℕ := [n % 256, n / 256 % 256, n / 65536 % 256, n / 16777216 % 256]

/-- A chunk as `Decoder.NextChunk` materializes it: the identifier, the
declared (pre-rounding) size from the wire, and the bytes its limited
reader can deliver (the payload plus the pad byte for odd sizes). -/
structure WireChunk where
  id : List ℕ
  declaredSize : ℕ
  content : List ℕ
deriving DecidableEq, Repr

/-- `Decoder.NextChunk`: read id and size, round odd sizes up, limit the
reader to the rounded size.  `none` when no full 8-byte header remains. -/
def nextChunkM (s : List ℕ) : Option (WireChunk × List ℕ) :=
  match s with
  | b0 :: b1 :: b2 :: b3 :: c0 :: c1 :: c2 :: c3 :: rest =>
      let size := leU32 c0 c1 c2 c3
      let rounded := if size % 2 = 1 then size + 1 else size
      some (⟨[b0, b1, b2, b3], size, rest.take rounded⟩, rest.drop rounded)
  | _ => none

/-- `RawChunk` from the repository: identifier, stored size, owned payload
bytes, encounter-order index, and the before-data flag. -/
structure RawChunkM where
  id : List ℕ
  size : ℕ
  data : List ℕ
  order : ℕ
  beforeData : Bool
deriving DecidableEq, Repr

/-- `Decoder.captureUnknownChunk`: `io.ReadAll` on the chunk's limited
reader yields everything the reader can deliver (the rounded span), and
`Size` is set to the length of those bytes. -/
def captureUnknownChunkM (ch : WireChunk) (order : ℕ) (beforeData : Bool) : RawChunkM :=
  ⟨ch.id, ch.content.length, ch.content, order, beforeData⟩

/-- Chunk identifiers of decoder.go / chunk_registry.go. -/
def cidData : List ℕ := [0x64, 0x61, 0x74, 0x61]

def cidFact : List ℕ := [0x66, 0x61, 0x63, 0x74]

def cidList : List ℕ := [0x4C, 0x49, 0x53, 0x54]

def cidSmpl : List ℕ := [0x73, 0x6D, 0x70, 0x6C]

def cidCue : List ℕ := [0x63, 0x75, 0x65, 0x20]

def cidBext : List ℕ := [0x62, 0x65, 0x78, 0x74]

def cidCart : List ℕ := [0x63, 0x61, 0x72, 0x74]

/-- The default chunk registry's `CanHandle` dispatch: the six registered
handlers match exactly these identifiers (the LIST handler matches any
LIST chunk regardless of its sniffed sub-type). -/
def registryHandles (id : List ℕ) : Bool :=
  id = cidFact || id = cidList || id = cidSmpl || id = cidCue || id = cidBext || id = cidCart

/-- The chunk loop of `Decoder.ReadMetadata` from the point where the
header has been parsed: each chunk bumps the encounter counter; a `data`
chunk is drained and flips `seenData`; registry-handled chunks are
consumed by their handlers; everything else is captured as a `RawChunk`
tagged with `!seenData`. -/
def readMetadataLoop : List ℕ → ℕ → Bool → List RawChunkM
  | b0 :: b1 :: b2 :: b3 :: c0 :: c1 :: c2 :: c3 :: rest, order, seenData =>
      let size := leU32 c0 c1 c2 c3
      let rounded := if size % 2 = 1 then size + 1 else size
      let content := rest.take rounded
      let rest' := rest.drop rounded
      let order' := order + 1
      if [b0, b1, b2, b3] = cidData then
        readMetadataLoop rest' order' true
      else if registryHandles [b0, b1, b2, b3] then
        readMetadataLoop rest' order' seenData
      else
        captureUnknownChunkM ⟨[b0, b1, b2, b3], size, content⟩ order' (!seenData) ::
          readMetadataLoop rest' order' seenData
  | _, _, _ => []
termination_by s _ _ => s.length
decreasing_by
  all_goals simp [List.length_drop]
  all_goals omega

/-- `Decoder.ReadMetadata` on a decoder whose headers were read and whose
stream cursor stands just after the `fmt ` chunk, with `body` the
remaining bytes: the unknown-chunk capture list it produces. -/
def readMetadataM (body : List ℕ) : List RawChunkM :=
  readMetadataLoop body 0 false

/-! ## Encoder side of unknown-chunk round-tripping (`writeRawChunk`,
`writeUnknownChunks`) -/

/-- `Encoder.writeRawChunk`: identifier, little-endian `len(Data)`, the
payload bytes, and one zero pad byte when the payload length is odd. -/
def renderRawChunk (c : RawChunkM) : List ℕ :=
  c.id ++ le32N c.data.length ++ c.data ++ (if c.data.length % 2 = 1 then [0] else [])

/-- `Encoder.writeUnknownChunks`: emit, in stored order, every preserved
chunk whose `BeforeData` flag matches the requested group. -/
def writeUnknownChunksM (chunks : List RawChunkM) (beforeData : Bool) : List ℕ :=
  ((chunks.filter (fun c => c.beforeData == beforeData)).map renderRawChunk).join

/-- On-wire rendering of a chunk with the given identifier and payload
(declared size = payload length, pad byte when odd): how a well-formed
producer lays chunks out, per the wire format of §6. -/
def renderWireChunk (id : List ℕ) (payload : List ℕ) : List ℕ :=
  id ++ le32N payload.length ++ payload ++ (if payload.length % 2 = 1 then [0] else [])

/-- A post-header chunk area built from (identifier, payload) pairs. -/
def renderChunks (cs : List (List ℕ × List ℕ)) : List ℕ :=
  (cs.map (fun c => renderWireChunk c.1 c.2)).join

/-- Chunk-granular form of the `ReadMetadata` walk over a well-formed
chunk area. -/
def expectedCaptures : List (List ℕ × List ℕ) → ℕ → Bool → List RawChunkM
  | [], _, _ => []
  | (id, p) :: cs, order, seenData =>
      let content := p ++ (if p.length % 2 = 1 then [0] else [])
      if id = cidData then expectedCaptures cs (order + 1) true
      else if registryHandles id then expectedCaptures cs (order + 1) seenData
      else ⟨id, content.length, content, order + 1, !seenData⟩ ::
        expectedCaptures cs (order + 1) seenData

/-- Captures produced by a data-chunk-free run, all carrying one flag. -/
def capturesOf : List (List ℕ × List ℕ) → ℕ → Bool → List RawChunkM
  | [], _, _ => []
  | (id, p) :: cs, order, flag =>
      let content := p ++ (if p.length % 2 = 1 then [0] else [])
      if registryHandles id then capturesOf cs (order + 1) flag
      else ⟨id, content.length, content, order + 1, flag⟩ :: capturesOf cs (order + 1) flag

/-- The unknown chunks of a chunk area, rendered on the wire. -/
def unknownRendered (cs : List (List ℕ × List ℕ)) : List ℕ :=
  renderChunks (cs.filter (fun c => !(registryHandles c.1)))

theorem leU32_le32N (n : ℕ) (h : n < 4294967296) :
    leU32 (n % 256) (n / 256 % 256) (n / 65536 % 256) (n / 16777216 % 256) = n := by
  unfold leU32
  omega

/-- One step of the byte-level walk over a well-formed chunk. -/
theorem readMetadataLoop_cons (a b c d : ℕ) (p rest : List ℕ) (order : ℕ) (seenData : Bool)
    (hp : p.length < 4294967296) :
    readMetadataLoop (renderWireChunk [a, b, c, d] p ++ rest) order seenData =
      (let content := p ++ (if p.length % 2 = 1 then [0] else [])
       if [a, b, c, d] = cidData then readMetadataLoop rest (order + 1) true
       else if registryHandles [a, b, c, d] then readMetadataLoop rest (order + 1) seenData
       else ⟨[a, b, c, d], content.length, content, order + 1, !seenData⟩ ::
         readMetadataLoop rest (order + 1) seenData) := by
  have hassoc : renderWireChunk [a, b, c, d] p ++ rest =
      a :: b :: c :: d :: p.length % 256 :: p.length / 256 % 256 ::
        p.length / 65536 % 256 :: p.length / 16777216 % 256 ::
        ((p ++ (if p.length % 2 = 1 then [0] else [])) ++ rest) := by
    simp [renderWireChunk, le32N]
  rw [hassoc]
  rw [readMetadataLoop]
  rw [leU32_le32N _ hp]
  have hlen : (p ++ (if p.length % 2 = 1 then [0] else [])).length =
      (if p.length % 2 = 1 then p.length + 1 else p.length) := by
    split_ifs <;> simp
  have htake : ((p ++ (if p.length % 2 = 1 then [0] else [])) ++ rest).take
      (if p.length % 2 = 1 then p.length + 1 else p.length) =
      p ++ (if p.length % 2 = 1 then [0] else []) := by
    rw [← hlen]
    exact List.take_left _ _
  have hdrop : ((p ++ (if p.length % 2 = 1 then [0] else [])) ++ rest).drop
      (if p.length % 2 = 1 then p.length + 1 else p.length) = rest := by
    rw [← hlen]
    exact List.drop_left _ _
  rw [htake, hdrop]
  simp only [captureUnknownChunkM]

/-- The byte-level walk agrees with the chunk-granular walk on any
well-formed chunk area. -/
theorem readMetadataLoop_spec (cs : List (List ℕ × List ℕ))
    (h : ∀ ch ∈ cs, ch.1.length = 4 ∧ ch.2.length < 4294967296) :
    ∀ (order : ℕ) (seenData : Bool),
      readMetadataLoop (renderChunks cs) order seenData = expectedCaptures cs order seenData := by
  induction cs with
  | nil =>
    intro order seenData
    simp [renderChunks, expectedCaptures]
    rw [readMetadataLoop]
    intro b0 b1 b2 b3 c0 c1 c2 c3 rest h
    exact List.noConfusion h
  | cons hd tl ih =>
    intro order seenData
    obtain ⟨id, p⟩ := hd
    obtain ⟨hid, hp⟩ := h (id, p) (by simp)
    rcases id with _ | ⟨a, id⟩; · simp at hid
    rcases id with _ | ⟨b, id⟩; · simp at hid
    rcases id with _ | ⟨c, id⟩; · simp at hid
    rcases id with _ | ⟨d, id⟩; · simp at hid
    rcases id with _ | ⟨e, id⟩
    swap; · simp at hid
    have hren : renderChunks ((([a, b, c, d], p)) :: tl) =
        renderWireChunk [a, b, c, d] p ++ renderChunks tl := by
      simp [renderChunks]
    rw [hren, readMetadataLoop_cons a b c d p _ order seenData hp]
    have ih' := ih (fun ch hch => h ch (by simp [hch]))
    simp only [expectedCaptures]
    split_ifs <;> simp [ih']

/-- `readMetadataM` on a standard single-data-chunk layout. -/
theorem readMetadataM_spec (cs : List (List ℕ × List ℕ))
    (h : ∀ ch ∈ cs, ch.1.length = 4 ∧ ch.2.length < 4294967296) :
    readMetadataM (renderChunks cs) = expectedCaptures cs 0 false :=
  readMetadataLoop_spec cs h 0 false

/-- Over a `data`-free run, the chunk-granular walk only produces
captures tagged with the (fixed) negation of the entry flag. -/
theorem expectedCaptures_append_nodata (cs : List (List ℕ × List ℕ))
    (h : ∀ ch ∈ cs, ch.1 ≠ cidData) :
    ∀ (rest : List (List ℕ × List ℕ)) (order : ℕ) (seenData : Bool),
      expectedCaptures (cs ++ rest) order seenData =
        capturesOf cs order (!seenData) ++ expectedCaptures rest (order + cs.length) seenData := by
  induction cs with
  | nil =>
    intro rest order seenData
    simp [capturesOf]
  | cons hd tl ih =>
    intro rest order seenData
    obtain ⟨id, p⟩ := hd
    have hid : ¬(id = cidData) := h (id, p) (by simp)
    simp only [List.cons_append, expectedCaptures, capturesOf, if_neg hid]
    have ih' := ih (fun ch hch => h ch (by simp [hch])) rest (order + 1) seenData
    have hlen : order + 1 + tl.length = order + (tl.length + 1) := by omega
    split_ifs with hreg <;> simp [ih', hlen]

theorem expectedCaptures_nodata (cs : List (List ℕ × List ℕ))
    (h : ∀ ch ∈ cs, ch.1 ≠ cidData) (order : ℕ) (seenData : Bool) :
    expectedCaptures cs order seenData = capturesOf cs order (!seenData) := by
  have h' := expectedCaptures_append_nodata cs h [] order seenData
  simpa [expectedCaptures] using h'

theorem writeUnknownChunksM_cons (c : RawChunkM) (rest : List RawChunkM) (b : Bool) :
    writeUnknownChunksM (c :: rest) b =
      (if c.beforeData == b then renderRawChunk c else []) ++ writeUnknownChunksM rest b := by
  simp only [writeUnknownChunksM, List.filter_cons]
  split_ifs <;> simp_all

theorem unknownRendered_cons (id p : List ℕ) (tl : List (List ℕ × List ℕ)) :
    unknownRendered ((id, p) :: tl) =
      (if registryHandles id then [] else renderWireChunk id p) ++ unknownRendered tl := by
  simp only [unknownRendered, renderChunks, List.filter_cons]
  split_ifs with h <;> simp_all

/-- Re-emitting the captures of a run reproduces the run's unknown
chunks byte for byte, provided every unknown payload has even length. -/
theorem writeUnknown_capturesOf_same (cs : List (List ℕ × List ℕ))
    (heven : ∀ ch ∈ cs, registryHandles ch.1 = false → ch.2.length % 2 = 0) :
    ∀ (order : ℕ) (flag : Bool),
      writeUnknownChunksM (capturesOf cs order flag) flag = unknownRendered cs := by
  induction cs with
  | nil =>
    intro order flag
    simp [capturesOf, writeUnknownChunksM, unknownRendered, renderChunks]
  | cons hd tl ih =>
    intro order flag
    obtain ⟨id, p⟩ := hd
    have ih' := ih (fun ch hch => heven ch (by simp [hch]))
    rw [unknownRendered_cons]
    by_cases hreg : registryHandles id
    · simp only [capturesOf, if_pos hreg]
      rw [ih' (order + 1) flag]
      simp
    · have hpl : p.length % 2 = 0 :=
        heven (id, p) (by simp) (by simp [hreg])
      have hcontent : (if p.length % 2 = 1 then ([0] : List ℕ) else []) = [] := by
        simp [hpl]
      simp only [capturesOf, if_neg hreg, hcontent, List.append_nil]
      rw [writeUnknownChunksM_cons, ih' (order + 1) flag]
      simp [renderRawChunk, renderWireChunk, hcontent]

/-- Every capture of the chunk-granular walk comes from a source chunk,
stores that chunk's payload plus the wire pad byte when the payload
length is odd, and records the padded length as its size. -/
theorem expectedCaptures_mem (cs : List (List ℕ × List ℕ)) :
    ∀ (order : ℕ) (seenData : Bool), ∀ c ∈ expectedCaptures cs order seenData,
      ∃ p : List ℕ, (c.id, p) ∈ cs ∧
        c.data = p ++ (if p.length % 2 = 1 then [0] else []) ∧
        c.size = c.data.length ∧
        c.size = p.length + p.length % 2 := by
  induction cs with
  | nil =>
    intro order seenData c hc
    simp [expectedCaptures] at hc
  | cons hd tl ih =>
    intro order seenData c hc
    obtain ⟨id, p⟩ := hd
    simp only [expectedCaptures] at hc
    by_cases h1 : id = cidData
    · rw [if_pos h1] at hc
      obtain ⟨q, hq, hrest⟩ := ih (order + 1) true c hc
      exact ⟨q, by simp [hq], hrest⟩
    · rw [if_neg h1] at hc
      by_cases h2 : registryHandles id
      · rw [if_pos h2] at hc
        obtain ⟨q, hq, hrest⟩ := ih (order + 1) seenData c hc
        exact ⟨q, by simp [hq], hrest⟩
      · rw [if_neg h2, List.mem_cons] at hc
        rcases hc with rfl | hc
        · refine ⟨p, by simp, rfl, rfl, ?_⟩
          show (p ++ (if p.length % 2 = 1 then [0] else [])).length = p.length + p.length % 2
          split_ifs with hpar <;> simp <;> omega
        · obtain ⟨q, hq, hrest⟩ := ih (order + 1) seenData c hc
          exact ⟨q, by simp [hq], hrest⟩

theorem writeUnknownChunksM_append (l1 l2 : List RawChunkM) (b : Bool) :
    writeUnknownChunksM (l1 ++ l2) b = writeUnknownChunksM l1 b ++ writeUnknownChunksM l2 b := by
  simp [writeUnknownChunksM, List.filter_append]

/-- Captures from the opposite group contribute nothing. -/
theorem writeUnknown_capturesOf_other (cs : List (List ℕ × List ℕ)) :
    ∀ (order : ℕ) (flag other : Bool), other ≠ flag →
      writeUnknownChunksM (capturesOf cs order flag) other = [] := by
  induction cs with
  | nil =>
    intro order flag other _
    simp [capturesOf, writeUnknownChunksM]
  | cons hd tl ih =>
    intro order flag other hne
    obtain ⟨id, p⟩ := hd
    have ih' := ih (order + 1) flag other hne
    simp only [capturesOf]
    have hbe : (flag == other) = false := by
      cases flag <;> cases other <;> simp_all
    by_cases hreg : registryHandles id
    · simp only [if_pos hreg]
      exact ih'
    · simp only [if_neg hreg]
      rw [writeUnknownChunksM_cons]
      simp [hbe, ih']

end Wav

/-! ### C5 — 8-bit PCM normalization of 128 / 0 / 255 -/

/-- C5 (counterexample): the claim says byte value 128 normalizes to 0.0
within an absolute tolerance of 1e-4; in fact `normalizePCMInt 128 8 =
(128 - 127.5)/127.5 = 1/255 ≈ 3.9e-3`, which is outside that tolerance. -/
theorem C5_counterexample :
    ¬ |Wav.normalizePCMInt 128 8 - 0| ≤ 1/10000 := by
  have h : Wav.normalizePCMInt 128 8 - 0 = 1/255 := by
    norm_num [Wav.normalizePCMInt]
  rw [h, abs_of_nonneg (by norm_num)]
  norm_num

/-- C5 (amended): the 8-bit PCM decode normalization maps byte value 128 to
`1/255 ≈ 0.0039` (within 4e-3 of 0, but not within 1e-4), maps byte value 0
to exactly -1.0, and maps byte value 255 to exactly 1.0. -/
theorem C5_amended :
    Wav.normalizePCMInt 128 8 = 1/255 ∧ |Wav.normalizePCMInt 128 8 - 0| ≤ 4/1000 ∧
    Wav.normalizePCMInt 0 8 = -1 ∧ Wav.normalizePCMInt 255 8 = 1 := by
  have h : Wav.normalizePCMInt 128 8 - 0 = 1/255 := by
    norm_num [Wav.normalizePCMInt]
  refine ⟨by norm_num [Wav.normalizePCMInt], ?_, by norm_num [Wav.normalizePCMInt],
    by norm_num [Wav.normalizePCMInt]⟩
  rw [h, abs_of_nonneg (by norm_num)]
  norm_num

/-! ### C4 — RawChunk payload length vs declared on-wire size -/

/-- C4 (counterexample): the claim says a captured RawChunk's payload length
equals the declared on-wire size and excludes the pad byte. Reading a chunk
area holding an empty `data` chunk followed by an unknown chunk of declared
size 1 (payload `[170]`, pad byte `0` on the wire), the decoder stores a
RawChunk of size 2 whose payload is `[170, 0]`: the size disagrees with the
declared size 1 and the wire pad byte IS part of the stored payload. -/
theorem C4_counterexample :
    Wav.readMetadataM
        (Wav.renderWireChunk Wav.cidData [] ++ Wav.renderWireChunk [97, 98, 99, 100] [170]) =
      [⟨[97, 98, 99, 100], 2, [170, 0], 2, false⟩] := by
  have h : Wav.renderWireChunk Wav.cidData [] ++ Wav.renderWireChunk [97, 98, 99, 100] [170] =
      Wav.renderChunks [(Wav.cidData, []), ([97, 98, 99, 100], [170])] := by
    simp [Wav.renderChunks]
  rw [h, Wav.readMetadataM_spec _ (by decide)]
  decide

/-- C4 (amended): every RawChunk the decoder captures from a well-formed
chunk area stores the declared on-wire size ROUNDED UP TO EVEN as its size,
and its payload is the declared payload plus, when the declared size is odd,
the one zero wire pad byte as the final payload byte; the stored size always
equals the stored payload length. -/
theorem C4_amended (cs : List (List ℕ × List ℕ))
    (h : ∀ ch ∈ cs, ch.1.length = 4 ∧ ch.2.length < 4294967296) :
    ∀ c ∈ Wav.readMetadataM (Wav.renderChunks cs), ∃ p : List ℕ,
      (c.id, p) ∈ cs ∧
      c.data = p ++ (if p.length % 2 = 1 then [0] else []) ∧
      c.size = c.data.length ∧
      c.size = p.length + p.length % 2 := by
  rw [Wav.readMetadataM_spec cs h]
  exact Wav.expectedCaptures_mem cs 0 false

theorem C4_amended_witness :
    (∀ ch ∈ [(Wav.cidData, ([] : List ℕ)), ([97, 98, 99, 100], [170])],
      ch.1.length = 4 ∧ ch.2.length < 4294967296) ∧
    (∀ c ∈ Wav.readMetadataM
        (Wav.renderChunks [(Wav.cidData, ([] : List ℕ)), ([97, 98, 99, 100], [170])]),
      ∃ p : List ℕ,
        (c.id, p) ∈ [(Wav.cidData, ([] : List ℕ)), ([97, 98, 99, 100], [170])] ∧
        c.data = p ++ (if p.length % 2 = 1 then [0] else []) ∧
        c.size = c.data.length ∧
        c.size = p.length + p.length % 2) :=
  ⟨by decide, C4_amended _ (by decide)⟩

/-! ### C3 — unknown-chunk round trip through decode then re-encode -/

/-- C3 (counterexample): the claim says every unknown chunk survives the
decode→re-encode round trip with identical payload bytes. An unknown chunk
of odd declared size 1 (payload `[170]`) placed after the `data` chunk is
re-emitted with declared size 2 and payload `[170, 0]` (the wire pad byte
absorbed into the payload), so the emitted bytes differ from the original
chunk's bytes. -/
theorem C3_counterexample :
    Wav.writeUnknownChunksM
        (Wav.readMetadataM
          (Wav.renderWireChunk Wav.cidData [] ++ Wav.renderWireChunk [97, 98, 99, 100] [170]))
        false ≠
      Wav.renderWireChunk [97, 98, 99, 100] [170] := by
  have h : Wav.renderWireChunk Wav.cidData [] ++ Wav.renderWireChunk [97, 98, 99, 100] [170] =
      Wav.renderChunks [(Wav.cidData, []), ([97, 98, 99, 100], [170])] := by
    simp [Wav.renderChunks]
  rw [h, Wav.readMetadataM_spec _ (by decide)]
  decide

/-- C3 (amended): for a well-formed chunk area `pre ++ data ++ post` in which
every unknown (registry-unmatched, non-`data`) chunk has an EVEN payload
length, decoding and re-emitting the unknown chunks reproduces, byte for
byte and in order, exactly the unknown chunks of `pre` in the before-data
group and exactly the unknown chunks of `post` in the after-data group. -/
theorem C3_amended (pre post : List (List ℕ × List ℕ)) (dpay : List ℕ)
    (hpre4 : ∀ ch ∈ pre, ch.1.length = 4 ∧ ch.2.length < 4294967296)
    (hpost4 : ∀ ch ∈ post, ch.1.length = 4 ∧ ch.2.length < 4294967296)
    (hpred : ∀ ch ∈ pre, ch.1 ≠ Wav.cidData)
    (hpostd : ∀ ch ∈ post, ch.1 ≠ Wav.cidData)
    (hdlen : dpay.length < 4294967296)
    (hpreev : ∀ ch ∈ pre, Wav.registryHandles ch.1 = false → ch.2.length % 2 = 0)
    (hpostev : ∀ ch ∈ post, Wav.registryHandles ch.1 = false → ch.2.length % 2 = 0) :
    Wav.writeUnknownChunksM
        (Wav.readMetadataM (Wav.renderChunks (pre ++ (Wav.cidData, dpay) :: post))) true =
      Wav.unknownRendered pre ∧
    Wav.writeUnknownChunksM
        (Wav.readMetadataM (Wav.renderChunks (pre ++ (Wav.cidData, dpay) :: post))) false =
      Wav.unknownRendered post := by
  have hall : ∀ ch ∈ pre ++ (Wav.cidData, dpay) :: post,
      ch.1.length = 4 ∧ ch.2.length < 4294967296 := by
    intro ch hch
    rcases List.mem_append.mp hch with hch | hch
    · exact hpre4 ch hch
    · rcases List.mem_cons.mp hch with rfl | hch
      · exact ⟨by simp [Wav.cidData], hdlen⟩
      · exact hpost4 ch hch
  rw [Wav.readMetadataM_spec _ hall]
  rw [Wav.expectedCaptures_append_nodata pre hpred ((Wav.cidData, dpay) :: post) 0 false]
  have hdata : Wav.expectedCaptures ((Wav.cidData, dpay) :: post) (0 + pre.length) false =
      Wav.capturesOf post (0 + pre.length + 1) false := by
    simp only [Wav.expectedCaptures, if_pos rfl]
    have h' := Wav.expectedCaptures_nodata post hpostd (0 + pre.length + 1) true
    simpa using h'
  rw [hdata]
  simp only [Bool.not_false]
  constructor
  · rw [Wav.writeUnknownChunksM_append,
      Wav.writeUnknown_capturesOf_same pre hpreev 0 true,
      Wav.writeUnknown_capturesOf_other post (0 + pre.length + 1) false true (by simp)]
    simp
  · rw [Wav.writeUnknownChunksM_append,
      Wav.writeUnknown_capturesOf_other pre 0 true false (by simp),
      Wav.writeUnknown_capturesOf_same post hpostev (0 + pre.length + 1) false]
    simp

theorem C3_amended_witness :
    (∀ ch ∈ [([74, 85, 78, 75], ([1, 2] : List ℕ))],
      ch.1.length = 4 ∧ ch.2.length < 4294967296) ∧
    (∀ ch ∈ [([120, 116, 114, 97], ([9, 8, 7, 6] : List ℕ))],
      ch.1.length = 4 ∧ ch.2.length < 4294967296) ∧
    (∀ ch ∈ [([74, 85, 78, 75], ([1, 2] : List ℕ))], ch.1 ≠ Wav.cidData) ∧
    (∀ ch ∈ [([120, 116, 114, 97], ([9, 8, 7, 6] : List ℕ))], ch.1 ≠ Wav.cidData) ∧
    ([0, 0] : List ℕ).length < 4294967296 ∧
    (∀ ch ∈ [([74, 85, 78, 75], ([1, 2] : List ℕ))],
      Wav.registryHandles ch.1 = false → ch.2.length % 2 = 0) ∧
    (∀ ch ∈ [([120, 116, 114, 97], ([9, 8, 7, 6] : List ℕ))],
      Wav.registryHandles ch.1 = false → ch.2.length % 2 = 0) ∧
    (Wav.writeUnknownChunksM
        (Wav.readMetadataM (Wav.renderChunks
          ([([74, 85, 78, 75], ([1, 2] : List ℕ))] ++
            (Wav.cidData, ([0, 0] : List ℕ)) :: [([120, 116, 114, 97], ([9, 8, 7, 6] : List ℕ))])))
        true =
      Wav.unknownRendered [([74, 85, 78, 75], ([1, 2] : List ℕ))] ∧
    Wav.writeUnknownChunksM
        (Wav.readMetadataM (Wav.renderChunks
          ([([74, 85, 78, 75], ([1, 2] : List ℕ))] ++
            (Wav.cidData, ([0, 0] : List ℕ)) :: [([120, 116, 114, 97], ([9, 8, 7, 6] : List ℕ))])))
        false =
      Wav.unknownRendered [([120, 116, 114, 97], ([9, 8, 7, 6] : List ℕ))]) :=
  ⟨by decide, by decide, by decide, by decide, by decide, by decide, by decide,
    C3_amended _ _ _ (by decide) (by decide) (by decide) (by decide) (by decide)
      (by decide) (by decide)⟩

/-! ## GSM 6.10 (RPE-LTP) decoder (`gsm.go`)

16-bit machine integers are ℤ with explicit wrapping (`wrap16`) at every
Go `int16(...)` conversion or overflowable `int16` shift; the saturating
helpers (`gsmAdd` etc.) are translated directly. -/

namespace Wav

def gsmBlockSize : ℕ := 65

def gsmSamplesPerBlock : ℕ := 320

def gsmSamplesPerFrame : ℕ := 160

def gsmQLB : List ℤ := [3277, 11469, 21299, 32767]

def gsmFAC : List ℤ := [18431, 20479, 22527, 24575, 26623, 28671, 30719, 32767]

def gsmB : List ℤ := [0, 0, 2048, -2560, 94, -1792, -341, -1144]

def gsmMIC : List ℤ := [-32, -32, -16, -16, -8, -8, -4, -4]

def gsmINVA : List ℤ := [13107, 13107, 13107, 13107, 19223, 17476, 31454, 29708]

/-- Go `int16(x)` two's-complement wrap for an out-of-range value. -/
def wrap16 (x : ℤ) : ℤ := (x + 32768) % 65536 - 32768

def gsmAdd (a b : ℤ) : ℤ :=
  if a + b > 32767 then 32767 else if a + b < -32768 then -32768 else a + b

def gsmSub (a b : ℤ) : ℤ :=
  if a - b > 32767 then 32767 else if a - b < -32768 then -32768 else a - b

def gsmMultR (a b : ℤ) : ℤ :=
  if a = -32768 ∧ b = -32768 then 32767 else wrap16 ((a * b + 16384).fdiv 32768)

def gsmAbs (a : ℤ) : ℤ :=
  if a = -32768 then 32767 else if a < 0 then -a else a

/-- `sasr`: Go arithmetic right shift of a (sign-extended) `int16`. -/
def sasr (x : ℤ) (n : ℕ) : ℤ := wrap16 (x.fdiv (2 ^ n))

def gsmAsl (a n : ℤ) : ℤ :=
  if n ≤ 0 then a else if n ≥ 16 then 0 else wrap16 (a * 2 ^ n.toNat)

def gsmAsr (a n : ℤ) : ℤ :=
  if n ≤ 0 then a
  else if n ≥ 16 then (if a < 0 then -1 else 0)
  else wrap16 (a.fdiv (2 ^ n.toNat))

structure GsmSubframe where
  Nc : ℤ
  bc : ℤ
  Mc : ℤ
  xmaxc : ℤ
  xMc : List ℤ
deriving DecidableEq, Repr

structure GsmFrame where
  LAR : List ℤ
  sub : List GsmSubframe
deriving DecidableEq, Repr

structure GsmState where
  dp0 : List ℤ
  v : List ℤ
  msr : ℤ
  nrp : ℤ
  LARpp : List (List ℤ)
  j : ℕ
deriving DecidableEq, Repr

def newGSMState : GsmState :=
  ⟨List.replicate 280 0, List.replicate 9 0, 0, 40,
    [List.replicate 8 0, List.replicate 8 0], 0⟩

/-- Access `dp0` at a (possibly Nr-shifted) signed index. -/
def zGet (l : List ℤ) (i : ℤ) : ℤ := if 0 ≤ i then l.getD i.toNat 0 else 0

/-- One frame-1 subframe of the WAV49 bit layout: 7 bytes starting at `c`,
with the `sr` bit register carried in and out. -/
def parseGsmSub1 (d : ℕ → ℕ) (c : ℕ) (sr : ℕ) : GsmSubframe × ℕ :=
  let sr := (sr ||| (d c <<< 4)) % 65536
  let nc := sr &&& 127
  let sr := sr >>> 7
  let bc := sr &&& 3
  let sr := sr >>> 2
  let mc := sr &&& 3
  let sr := sr >>> 2
  let sr := (sr ||| (d (c + 1) <<< 1)) % 65536
  let xmaxc := sr &&& 63
  let sr := sr >>> 6
  let x0 := sr &&& 7
  let sr := sr >>> 3
  let sr := d (c + 2)
  let x1 := sr &&& 7
  let sr := sr >>> 3
  let x2 := sr &&& 7
  let sr := sr >>> 3
  let sr := (sr ||| (d (c + 3) <<< 2)) % 65536
  let x3 := sr &&& 7
  let sr := sr >>> 3
  let x4 := sr &&& 7
  let sr := sr >>> 3
  let x5 := sr &&& 7
  let sr := sr >>> 3
  let sr := (sr ||| (d (c + 4) <<< 1)) % 65536
  let x6 := sr &&& 7
  let sr := sr >>> 3
  let x7 := sr &&& 7
  let sr := sr >>> 3
  let x8 := sr &&& 7
  let sr := sr >>> 3
  let sr := d (c + 5)
  let x9 := sr &&& 7
  let sr := sr >>> 3
  let x10 := sr &&& 7
  let sr := sr >>> 3
  let sr := (sr ||| (d (c + 6) <<< 2)) % 65536
  let x11 := sr &&& 7
  let sr := sr >>> 3
  let x12 := sr &&& 7
  let sr := sr >>> 3
  (⟨(nc : ℤ), (bc : ℤ), (mc : ℤ), (xmaxc : ℤ),
    [(x0 : ℤ), (x1 : ℤ), (x2 : ℤ), (x3 : ℤ), (x4 : ℤ), (x5 : ℤ), (x6 : ℤ),
     (x7 : ℤ), (x8 : ℤ), (x9 : ℤ), (x10 : ℤ), (x11 : ℤ), (x12 : ℤ)]⟩, sr)

/-- One frame-2 subframe of the WAV49 bit layout: 7 bytes starting at `c`. -/
def parseGsmSub2 (d : ℕ → ℕ) (c : ℕ) (sr : ℕ) : GsmSubframe × ℕ :=
  let sr := d c
  let nc := sr &&& 127
  let sr := sr >>> 7
  let sr := (sr ||| (d (c + 1) <<< 1)) % 65536
  let bc := sr &&& 3
  let sr := sr >>> 2
  let mc := sr &&& 3
  let sr := sr >>> 2
  let sr := (sr ||| (d (c + 2) <<< 5)) % 65536
  let xmaxc := sr &&& 63
  let sr := sr >>> 6
  let x0 := sr &&& 7
  let sr := sr >>> 3
  let x1 := sr &&& 7
  let sr := sr >>> 3
  let sr := (sr ||| (d (c + 3) <<< 1)) % 65536
  let x2 := sr &&& 7
  let sr := sr >>> 3
  let x3 := sr &&& 7
  let sr := sr >>> 3
  let x4 := sr &&& 7
  let sr := sr >>> 3
  let sr := d (c + 4)
  let x5 := sr &&& 7
  let sr := sr >>> 3
  let x6 := sr &&& 7
  let sr := sr >>> 3
  let sr := (sr ||| (d (c + 5) <<< 2)) % 65536
  let x7 := sr &&& 7
  let sr := sr >>> 3
  let x8 := sr &&& 7
  let sr := sr >>> 3
  let x9 := sr &&& 7
  let sr := sr >>> 3
  let sr := (sr ||| (d (c + 6) <<< 1)) % 65536
  let x10 := sr &&& 7
  let sr := sr >>> 3
  let x11 := sr &&& 7
  let sr := sr >>> 3
  let x12 := sr &&& 7
  let sr := sr >>> 3
  (⟨(nc : ℤ), (bc : ℤ), (mc : ℤ), (xmaxc : ℤ),
    [(x0 : ℤ), (x1 : ℤ), (x2 : ℤ), (x3 : ℤ), (x4 : ℤ), (x5 : ℤ), (x6 : ℤ),
     (x7 : ℤ), (x8 : ℤ), (x9 : ℤ), (x10 : ℤ), (x11 : ℤ), (x12 : ℤ)]⟩, sr)

/-- `unpackWAV49Block`: `none` exactly on a short (< 65 byte) slice. -/
def unpackWAV49BlockM (data : List ℕ) : Option (GsmFrame × GsmFrame) :=
  if data.length < gsmBlockSize then none
  else
    let d := fun i => data.getD i 0
    let sr := d 0
    let l10 := sr &&& 63
    let sr := sr >>> 6
    let sr := (sr ||| (d 1 <<< 2)) % 65536
    let l11 := sr &&& 63
    let sr := sr >>> 6
    let sr := (sr ||| (d 2 <<< 4)) % 65536
    let l12 := sr &&& 31
    let sr := sr >>> 5
    let l13 := sr &&& 31
    let sr := sr >>> 5
    let sr := (sr ||| (d 3 <<< 2)) % 65536
    let l14 := sr &&& 15
    let sr := sr >>> 4
    let l15 := sr &&& 15
    let sr := sr >>> 4
    let sr := (sr ||| (d 4 <<< 2)) % 65536
    let l16 := sr &&& 7
    let sr := sr >>> 3
    let l17 := sr &&& 7
    let sr := sr >>> 3
    let p10 := parseGsmSub1 d 5 sr
    let s10 := p10.1
    let sr := p10.2
    let p11 := parseGsmSub1 d 12 sr
    let s11 := p11.1
    let sr := p11.2
    let p12 := parseGsmSub1 d 19 sr
    let s12 := p12.1
    let sr := p12.2
    let p13 := parseGsmSub1 d 26 sr
    let s13 := p13.1
    let sr := p13.2
    let frameChain := sr &&& 15
    let sr := frameChain
    let sr := (sr ||| (d 33 <<< 4)) % 65536
    let l20 := sr &&& 63
    let sr := sr >>> 6
    let l21 := sr &&& 63
    let sr := sr >>> 6
    let sr := d 34
    let l22 := sr &&& 31
    let sr := sr >>> 5
    let sr := (sr ||| (d 35 <<< 3)) % 65536
    let l23 := sr &&& 31
    let sr := sr >>> 5
    let l24 := sr &&& 15
    let sr := sr >>> 4
    let sr := (sr ||| (d 36 <<< 2)) % 65536
    let l25 := sr &&& 15
    let sr := sr >>> 4
    let l26 := sr &&& 7
    let sr := sr >>> 3
    let l27 := sr &&& 7
    let sr := sr >>> 3
    let p20 := parseGsmSub2 d 37 sr
    let s20 := p20.1
    let sr := p20.2
    let p21 := parseGsmSub2 d 44 sr
    let s21 := p21.1
    let sr := p21.2
    let p22 := parseGsmSub2 d 51 sr
    let s22 := p22.1
    let sr := p22.2
    let s23 := (parseGsmSub2 d 58 sr).1
    some
      (⟨[(l10 : ℤ), (l11 : ℤ), (l12 : ℤ), (l13 : ℤ), (l14 : ℤ), (l15 : ℤ),
          (l16 : ℤ), (l17 : ℤ)], [s10, s11, s12, s13]⟩,
        ⟨[(l20 : ℤ), (l21 : ℤ), (l22 : ℤ), (l23 : ℤ), (l24 : ℤ), (l25 : ℤ),
          (l26 : ℤ), (l27 : ℤ)], [s20, s21, s22, s23]⟩)

/-- The `for mant <= 7` normalization loop of `apcmXmaxcToExpMant`; for the
6-bit `xmaxc` domain the loop body runs at most three times, so fuel 16 is
never exhausted. -/
def apcmMantLoop : ℕ → ℤ → ℤ → ℤ × ℤ
  | 0, mant, exp => (mant, exp)
  | fuel + 1, mant, exp =>
      if mant ≤ 7 then apcmMantLoop fuel (mant * 2 + 1) (exp - 1) else (mant, exp)

/-- `apcmXmaxcToExpMant`, returning `(exp, mant)`. -/
def apcmXmaxcToExpMantM (xmaxc : ℤ) : ℤ × ℤ :=
  let exp := if xmaxc > 15 then sasr xmaxc 3 - 1 else 0
  let mant := xmaxc - wrap16 (exp * 8)
  if mant = 0 then (-4, 7)
  else
    let me := apcmMantLoop 16 mant exp
    (me.2, me.1 - 8)

def apcmInverseQuantizeM (xMc : List ℤ) (mant exp : ℤ) : List ℤ :=
  let temp1 := gsmFAC.getD mant.toNat 0
  let temp2 := gsmSub 6 exp
  let temp3 := gsmAsl 1 (gsmSub temp2 1)
  xMc.map (fun x =>
    let temp := wrap16 ((x * 2 - 7) * 4096)
    let temp' := gsmMultR temp1 temp
    let temp'' := gsmAdd temp' temp3
    gsmAsr temp'' temp2)

def rpeGridPositioningM (Mc : ℤ) (xMp : List ℤ) : List ℤ :=
  (List.range 13).foldl (fun ep i => ep.set (Mc.toNat + i * 3) (xMp.getD i 0))
    (List.replicate 40 0)

/-- `longTermSynthesis`: writes `dp0[120..159]`, then shifts the history
window (`dp0[0..119] = dp0[40..159]`). -/
def longTermSynthesisM (g : GsmState) (Nc bc : ℤ) (erp : List ℤ) : GsmState :=
  let Nr := if Nc < 40 ∨ Nc > 120 then g.nrp else Nc
  let brp := gsmQLB.getD bc.toNat 0
  let dp0' := (List.range 40).foldl
    (fun dp k =>
      dp.set (120 + k) (gsmAdd (erp.getD k 0) (gsmMultR brp (zGet dp (120 + (k : ℤ) - Nr)))))
    g.dp0
  { g with dp0 := (dp0'.drop 40).take 120 ++ dp0'.drop 120, nrp := Nr }

def decodeLARM (LARc : List ℤ) : List ℤ :=
  (List.range 8).map (fun i =>
    let temp1 := wrap16 (gsmAdd (LARc.getD i 0) (gsmMIC.getD i 0) * 1024)
    let temp1' := gsmSub temp1 (gsmB.getD i 0)
    let temp1'' := gsmMultR (gsmINVA.getD i 0) temp1'
    gsmAdd temp1'' temp1'')

def larToRpElem (temp : ℤ) : ℤ :=
  if temp < 0 then
    let t := if temp = -32768 then 32767 else -temp
    if t < 11059 then -wrap16 (t * 2)
    else if t < 20070 then -(t + 11059)
    else -gsmAdd (sasr t 2) 26112
  else
    if temp < 11059 then wrap16 (temp * 2)
    else if temp < 20070 then temp + 11059
    else gsmAdd (sasr temp 2) 26112

def larToRpM (LARp : List ℤ) : List ℤ := LARp.map larToRpElem

/-- The inner `i = 7 .. 0` pass of `Short_term_synthesis_filtering` for one
sample: descending writes touch only `v[i+1]`, reads only the old `v[i]`. -/
def stsfIter (rrp : List ℤ) : ℕ → ℤ → List ℤ → ℤ × List ℤ
  | i, sri, v =>
    let tmp1 := rrp.getD i 0
    let tmp2 := v.getD i 0
    let tmp2' :=
      if tmp1 = -32768 ∧ tmp2 = -32768 then 32767
      else wrap16 ((tmp1 * tmp2 + 16384).fdiv 32768)
    let sri' := gsmSub sri tmp2'
    let tmp1' :=
      if tmp1 = -32768 ∧ sri' = -32768 then 32767
      else wrap16 ((tmp1 * sri' + 16384).fdiv 32768)
    let v' := v.set (i + 1) (gsmAdd (v.getD i 0) tmp1')
    match i with
    | 0 => (sri', v')
    | i' + 1 => stsfIter rrp i' sri' v'

def stsfSample (rrp : List ℤ) (v : List ℤ) (wtj : ℤ) : ℤ × List ℤ :=
  let sv := stsfIter rrp 7 wtj v
  (sv.1, sv.2.set 0 sv.1)

def stsfRun (rrp : List ℤ) : List ℤ → List ℤ → List ℤ × List ℤ
  | [], v => ([], v)
  | wtj :: rest, v =>
      let sv := stsfSample rrp v wtj
      let rec' := stsfRun rrp rest sv.2
      (sv.1 :: rec'.1, rec'.2)

/-- `shortTermSynthesis`: four interpolation segments of 13/14/13/120
samples; returns the synthesized samples and the updated filter state. -/
def shortTermSynthesisM (g : GsmState) (LARc : List ℤ) (wt : List ℤ) :
    List ℤ × GsmState :=
  let lppj := decodeLARM LARc
  let lppj1 := g.LARpp.getD g.j []
  let j' := g.j ^^^ 1
  let LARpp' := g.LARpp.set j' lppj
  let LARp0 := (List.range 8).map (fun i =>
    gsmAdd (gsmAdd (sasr (lppj1.getD i 0) 2) (sasr (lppj.getD i 0) 2))
      (sasr (lppj1.getD i 0) 1))
  let sv0 := stsfRun (larToRpM LARp0) (wt.take 13) g.v
  let LARp1 := (List.range 8).map (fun i =>
    gsmAdd (sasr (lppj1.getD i 0) 1) (sasr (lppj.getD i 0) 1))
  let sv1 := stsfRun (larToRpM LARp1) ((wt.drop 13).take 14) sv0.2
  let LARp2 := (List.range 8).map (fun i =>
    gsmAdd (gsmAdd (sasr (lppj1.getD i 0) 2) (sasr (lppj.getD i 0) 2))
      (sasr (lppj.getD i 0) 1))
  let sv2 := stsfRun (larToRpM LARp2) ((wt.drop 27).take 13) sv1.2
  let sv3 := stsfRun (larToRpM lppj) ((wt.drop 40).take 120) sv2.2
  (sv0.1 ++ sv1.1 ++ sv2.1 ++ sv3.1,
    { g with v := sv3.2, j := j', LARpp := LARpp' })

/-- Go `x & ^int16(0x7)`: clear the low three bits. -/
def trunc3 (x : ℤ) : ℤ := 8 * x.fdiv 8

/-- `postprocess` de-emphasis over a sample list, threading `msr`. -/
def postprocessM : ℤ → List ℤ → List ℤ × ℤ
  | msr, [] => ([], msr)
  | msr, sk :: rest =>
      let tmp := gsmMultR msr 28180
      let msr' := gsmAdd sk tmp
      let outk := trunc3 (gsmAdd msr' msr')
      let rec' := postprocessM msr' rest
      (outk :: rec'.1, rec'.2)

/-- One subframe of `decodeFrame`: RPE decode, long-term synthesis, and the
copy of `dp0[120..159]` into the excitation buffer. -/
def decodeSubframeM (acc : List ℤ × GsmState) (sub : GsmSubframe) : List ℤ × GsmState :=
  let em := apcmXmaxcToExpMantM sub.xmaxc
  let xMp := apcmInverseQuantizeM sub.xMc em.2 em.1
  let erp := rpeGridPositioningM sub.Mc xMp
  let g' := longTermSynthesisM acc.2 sub.Nc sub.bc erp
  (acc.1 ++ (g'.dp0.drop 120).take 40, g')

/-- `decodeFrame`: one 160-sample GSM frame. -/
def decodeFrameM (g : GsmState) (f : GsmFrame) : List ℤ × GsmState :=
  let wtg := f.sub.foldl decodeSubframeM ([], g)
  let sg := shortTermSynthesisM wtg.2 f.LAR wtg.1
  let om := postprocessM sg.2.msr sg.1
  (om.1, { sg.2 with msr := om.2 })

/-- `decodeBlock`: a 65-byte WAV49 block, its two frames decoded in
sequence with the state carried between them. -/
def decodeBlockM (g : GsmState) (block : List ℕ) : Option (List ℤ × GsmState) :=
  match unpackWAV49BlockM block with
  | none => none
  | some f12 =>
      let s1 := decodeFrameM g f12.1
      let s2 := decodeFrameM s1.2 f12.2
      some (s1.1 ++ s2.1, s2.2)

end Wav

namespace Wav

theorem stsfRun_length (rrp : List ℤ) :
    ∀ (wt v : List ℤ), (stsfRun rrp wt v).1.length = wt.length := by
  intro wt
  induction wt with
  | nil => intro v; simp [stsfRun]
  | cons a rest ih => intro v; simp [stsfRun, ih]

theorem postprocessM_length :
    ∀ (s : List ℤ) (msr : ℤ), (postprocessM msr s).1.length = s.length := by
  intro s
  induction s with
  | nil => intro msr; simp [postprocessM]
  | cons a rest ih => intro msr; simp [postprocessM, ih]

theorem shortTermSynthesisM_length (g : GsmState) (LARc wt : List ℤ)
    (h : wt.length = 160) :
    (shortTermSynthesisM g LARc wt).1.length = 160 := by
  simp only [shortTermSynthesisM]
  simp [stsfRun_length, h]

theorem shortTermSynthesisM_dp0 (g : GsmState) (LARc wt : List ℤ) :
    (shortTermSynthesisM g LARc wt).2.dp0 = g.dp0 := rfl

theorem ltsFoldl_length (brp Nr : ℤ) (erp : List ℤ) (ks : List ℕ) :
    ∀ (dp : List ℤ),
      (ks.foldl (fun dp k =>
        dp.set (120 + k)
          (gsmAdd (erp.getD k 0) (gsmMultR brp (zGet dp (120 + (k : ℤ) - Nr))))) dp).length
      = dp.length := by
  induction ks with
  | nil => intro dp; simp
  | cons k rest ih => intro dp; simp only [List.foldl_cons]; rw [ih]; simp

theorem longTermSynthesisM_dp0_length (g : GsmState) (Nc bc : ℤ) (erp : List ℤ)
    (h : g.dp0.length = 280) :
    (longTermSynthesisM g Nc bc erp).dp0.length = 280 := by
  simp only [longTermSynthesisM]
  rw [List.length_append, List.length_take, List.length_drop, List.length_drop,
    ltsFoldl_length, h]
  omega

theorem decodeSubframeM_spec (acc : List ℤ × GsmState) (sub : GsmSubframe)
    (h : acc.2.dp0.length = 280) :
    (decodeSubframeM acc sub).1.length = acc.1.length + 40 ∧
    (decodeSubframeM acc sub).2.dp0.length = 280 := by
  simp only [decodeSubframeM]
  have h' := longTermSynthesisM_dp0_length acc.2 sub.Nc sub.bc
    (rpeGridPositioningM sub.Mc
      (apcmInverseQuantizeM sub.xMc (apcmXmaxcToExpMantM sub.xmaxc).2
        (apcmXmaxcToExpMantM sub.xmaxc).1)) h
  refine ⟨?_, h'⟩
  rw [List.length_append, List.length_take, List.length_drop, h']
  omega

theorem decodeFrameM_spec (g : GsmState) (f : GsmFrame)
    (hg : g.dp0.length = 280) (hsub : f.sub.length = 4) :
    (decodeFrameM g f).1.length = 160 ∧ (decodeFrameM g f).2.dp0.length = 280 := by
  obtain ⟨LAR, sub⟩ := f
  simp only at hsub
  rcases sub with _ | ⟨s0, sub⟩; · simp at hsub
  rcases sub with _ | ⟨s1, sub⟩; · simp at hsub
  rcases sub with _ | ⟨s2, sub⟩; · simp at hsub
  rcases sub with _ | ⟨s3, sub⟩; · simp at hsub
  rcases sub with _ | ⟨s4, sub⟩
  swap; · simp at hsub
  simp only [decodeFrameM, List.foldl_cons, List.foldl_nil]
  have h1 := decodeSubframeM_spec ([], g) s0 hg
  have h2 := decodeSubframeM_spec _ s1 h1.2
  have h3 := decodeSubframeM_spec _ s2 h2.2
  have h4 := decodeSubframeM_spec _ s3 h3.2
  have hwt : (decodeSubframeM (decodeSubframeM (decodeSubframeM
      (decodeSubframeM ([], g) s0) s1) s2) s3).1.length = 160 := by
    rw [h4.1, h3.1, h2.1, h1.1]
    simp
  have hs := shortTermSynthesisM_length
    (decodeSubframeM (decodeSubframeM (decodeSubframeM
      (decodeSubframeM ([], g) s0) s1) s2) s3).2 LAR _ hwt
  refine ⟨?_, ?_⟩
  · rw [postprocessM_length]
    exact hs
  · show (shortTermSynthesisM _ LAR _).2.dp0.length = 280
    rw [shortTermSynthesisM_dp0]
    exact h4.2

theorem unpackWAV49BlockM_shape (data : List ℕ) (h : ¬data.length < 65) :
    ∃ f1 f2, unpackWAV49BlockM data = some (f1, f2) ∧
      f1.sub.length = 4 ∧ f2.sub.length = 4 := by
  simp only [unpackWAV49BlockM, gsmBlockSize]
  rw [if_neg h]
  exact ⟨_, _, rfl, rfl, rfl⟩

end Wav

/-! ### C9 — GSM block unpacking size gate and 320-sample block decode -/

set_option maxRecDepth 16000 in
/-- C9: for every byte slice, WAV49 unpacking fails (with the size error)
exactly when fewer than 65 bytes are available; for a slice of at least 65
bytes, `decodeBlock` (in any decoder state with the standard 280-entry
long-term history) succeeds and produces exactly 320 output samples: two
160-sample frames decoded in sequence, with the state of the first frame's
decode carried into the second. -/
theorem C9_gsm_block (data : List ℕ) (g : Wav.GsmState) (hg : g.dp0.length = 280) :
    (Wav.unpackWAV49BlockM data = none ↔ data.length < 65) ∧
    (65 ≤ data.length →
      ∃ f1 f2, Wav.unpackWAV49BlockM data = some (f1, f2) ∧
        Wav.decodeBlockM g data =
          some ((Wav.decodeFrameM g f1).1 ++ (Wav.decodeFrameM (Wav.decodeFrameM g f1).2 f2).1,
            (Wav.decodeFrameM (Wav.decodeFrameM g f1).2 f2).2) ∧
        (Wav.decodeFrameM g f1).1.length = 160 ∧
        (Wav.decodeFrameM (Wav.decodeFrameM g f1).2 f2).1.length = 160 ∧
        ((Wav.decodeFrameM g f1).1 ++ (Wav.decodeFrameM (Wav.decodeFrameM g f1).2 f2).1).length
          = 320) := by
  constructor
  · by_cases h : data.length < 65
    · simp [Wav.unpackWAV49BlockM, Wav.gsmBlockSize, h]
    · obtain ⟨f1, f2, he, -, -⟩ := Wav.unpackWAV49BlockM_shape data h
      simp [he, h]
  · intro h
    have h' : ¬data.length < 65 := by omega
    obtain ⟨f1, f2, he, h1s, h2s⟩ := Wav.unpackWAV49BlockM_shape data h'
    have hd1 := Wav.decodeFrameM_spec g f1 hg h1s
    have hd2 := Wav.decodeFrameM_spec (Wav.decodeFrameM g f1).2 f2 hd1.2 h2s
    refine ⟨f1, f2, he, ?_, hd1.1, hd2.1, ?_⟩
    · simp [Wav.decodeBlockM, he]
    · rw [List.length_append, hd1.1, hd2.1]

set_option maxRecDepth 16000 in
theorem C9_gsm_block_witness :
    Wav.newGSMState.dp0.length = 280 ∧
    ((Wav.unpackWAV49BlockM (List.replicate 65 0) = none ↔
        (List.replicate (65 : ℕ) (0 : ℕ)).length < 65) ∧
      (65 ≤ (List.replicate (65 : ℕ) (0 : ℕ)).length →
        ∃ f1 f2, Wav.unpackWAV49BlockM (List.replicate 65 0) = some (f1, f2) ∧
          Wav.decodeBlockM Wav.newGSMState (List.replicate 65 0) =
            some ((Wav.decodeFrameM Wav.newGSMState f1).1 ++
                (Wav.decodeFrameM (Wav.decodeFrameM Wav.newGSMState f1).2 f2).1,
              (Wav.decodeFrameM (Wav.decodeFrameM Wav.newGSMState f1).2 f2).2) ∧
          (Wav.decodeFrameM Wav.newGSMState f1).1.length = 160 ∧
          (Wav.decodeFrameM (Wav.decodeFrameM Wav.newGSMState f1).2 f2).1.length = 160 ∧
          ((Wav.decodeFrameM Wav.newGSMState f1).1 ++
              (Wav.decodeFrameM (Wav.decodeFrameM Wav.newGSMState f1).2 f2).1).length = 320)) :=
  ⟨by simp [Wav.newGSMState], C9_gsm_block (List.replicate 65 0) Wav.newGSMState
    (by simp [Wav.newGSMState])⟩

/-! ## Decoder state, sample-decode dispatch, streaming and bulk decode
(`decoder.go`: `sampleDecodeFunc` / `sampleDecodeFloat32Func`,
`Decoder.PCMBuffer`, `Decoder.FullPCMBuffer`, `decodePCMBuffer`,
`gsmDecoder.decodeAllBlocks` / `decodeToBuffer`) -/

namespace Wav

def wavFormatPCM : ℕ := 1

def wavFormatIEEEFloat : ℕ := 3

/-- Modelled from the spec: the A-law, mu-law and GSM 6.10 format-tag
constants live in a source file not present under src/; the spec's codec
table names GSM as format 49 and A-law/mu-law as the standard WAVE
companding tags 6 and 7. -/
def wavFormatALaw : ℕ := 6

/-- Modelled from the spec: see `wavFormatALaw`. -/
def wavFormatMuLaw : ℕ := 7

/-- Modelled from the spec: see `wavFormatALaw`. -/
def wavFormatGSM610 : ℕ := 49

inductive DecErr where
  | pcmChunkNotFound
  | unsupportedCompressedFormat (tag : ℕ)
  | unhandledByteDepth (depth : ℕ)
  | unhandledFloatBitDepth (depth : ℕ)
  | unsupportedALawBitDepth (depth : ℕ)
  | unsupportedMuLawBitDepth (depth : ℕ)
  | unsupportedWavFormat (tag : ℕ)
  | gsmShortBlock
deriving DecidableEq, Repr

def isUnsupportedCompressedFormat (wavFormat : ℕ) : Bool :=
  wavFormat = 34 || wavFormat = 6172

def bytesPerSample (bitDepth : ℕ) : ℕ := (bitDepth - 1) / 8 + 1

/-- Little-endian bytes to an unsigned value. -/
def leNat (bs : List ℕ) : ℕ := bs.foldr (fun b acc => b % 256 + 256 * acc) 0

/-- IEEE-754 binary32 bit pattern as an exact rational: infinities map to
±2^128 (beyond the clamp range, so they clamp exactly like Go's ±Inf) and
NaN payloads map to 0 by convention (ℚ has no NaN). -/
def float32FromBitsQ (u : ℕ) : ℚ :=
  let s : ℕ := u / 2 ^ 31 % 2
  let e : ℕ := u / 2 ^ 23 % 256
  let f : ℕ := u % 2 ^ 23
  let mag : ℚ :=
    if e = 255 then (if f = 0 then 2 ^ 128 else 0)
    else if e = 0 then (f : ℚ) * (2 : ℚ) ^ (-149 : ℤ)
    else ((2 ^ 23 + f : ℕ) : ℚ) * (2 : ℚ) ^ ((e : ℤ) - 150)
  if s = 1 then -mag else mag

/-- IEEE-754 binary64 bit pattern as an exact rational; same conventions
as `float32FromBitsQ`. The Go `float32(value)` narrowing before clamping
is the identity under this file's exact-rational float convention. -/
def float64FromBitsQ (u : ℕ) : ℚ :=
  let s : ℕ := u / 2 ^ 63 % 2
  let e : ℕ := u / 2 ^ 52 % 2048
  let f : ℕ := u % 2 ^ 52
  let mag : ℚ :=
    if e = 2047 then (if f = 0 then 2 ^ 1024 else 0)
    else if e = 0 then (f : ℚ) * (2 : ℚ) ^ (-1074 : ℤ)
    else ((2 ^ 52 + f : ℕ) : ℚ) * (2 : ℚ) ^ ((e : ℤ) - 1075)
  if s = 1 then -mag else mag

/-- `sampleDecodeFunc`: byte width and bytes-to-int conversion per
bit-depth range (8-bit unsigned, the rest little-endian signed). -/
def sampleDecodeM (bitsPerSample : ℕ) : Except DecErr (ℕ × (List ℕ → ℤ)) :=
  if bitsPerSample = 8 then .ok (1, fun bs => ((bs.getD 0 0 : ℕ) : ℤ))
  else if 8 < bitsPerSample ∧ bitsPerSample ≤ 16 then .ok (2, fun bs => int16OfBytes bs)
  else if 16 < bitsPerSample ∧ bitsPerSample ≤ 24 then .ok (3, fun bs => int24OfBytes bs)
  else if 24 < bitsPerSample ∧ bitsPerSample ≤ 32 then .ok (4, fun bs => int32OfBytes bs)
  else .error (.unhandledByteDepth bitsPerSample)

/-- `sampleDecodeFloat32Func`: byte width and bytes-to-normalized-float
conversion for a (bits-per-sample, format-tag) pair. -/
def sampleDecodeFloat32M (bitsPerSample wavFormat : ℕ) :
    Except DecErr (ℕ × (List ℕ → ℚ)) :=
  if wavFormat = wavFormatIEEEFloat then
    if bitsPerSample = 32 then
      .ok (4, fun bs => clampFloat32 (float32FromBitsQ (leNat (bs.take 4))) (-1) 1)
    else if bitsPerSample = 64 then
      .ok (8, fun bs => clampFloat32 (float64FromBitsQ (leNat (bs.take 8))) (-1) 1)
    else .error (.unhandledFloatBitDepth bitsPerSample)
  else if wavFormat = wavFormatALaw then
    if bitsPerSample ≠ 8 then .error (.unsupportedALawBitDepth bitsPerSample)
    else .ok (1, fun bs => normalizePCMInt (decodeALawSample (bs.getD 0 0)) 16)
  else if wavFormat = wavFormatMuLaw then
    if bitsPerSample ≠ 8 then .error (.unsupportedMuLawBitDepth bitsPerSample)
    else .ok (1, fun bs => normalizePCMInt (decodeMuLawSample (bs.getD 0 0)) 16)
  else if isUnsupportedCompressedFormat wavFormat then
    .error (.unsupportedCompressedFormat wavFormat)
  else if wavFormat ≠ wavFormatPCM then .error (.unsupportedWavFormat wavFormat)
  else
    match sampleDecodeM bitsPerSample with
    | .error e => .error e
    | .ok wdec =>
        .ok (wdec.1, fun bs => normalizePCMInt (wdec.2 bs) (bytesPerSample bitsPerSample * 8))

/-- GSM streaming bookkeeping (`gsmDecoder` leftover queue: the consumed
prefix is dropped, standing in for `leftover`/`leftoverPos`). -/
structure GsmStreamState where
  g : GsmState
  leftover : List ℚ
  delivered : ℕ
  factSamples : ℕ
deriving DecidableEq, Repr

structure GsmStreamOut where
  gs : GsmStreamState
  rem : List ℕ
  out : List ℚ
  n : ℕ
  err : Option DecErr
deriving DecidableEq, Repr

/-- Leftover-drain prelude of `decodeToBuffer`; the `Bool` signals the
`avail <= 0` early `return 0, nil`. -/
def gsmDrain (gs : GsmStreamState) (outLen : ℕ) : GsmStreamState × ℕ × List ℚ × Bool :=
  if gs.leftover.isEmpty then (gs, 0, [], false)
  else
    let avail0 := min gs.leftover.length outLen
    let availZ : ℤ :=
      if 0 < gs.factSamples ∧ gs.factSamples < gs.delivered + avail0 then
        (gs.factSamples : ℤ) - gs.delivered
      else avail0
    if availZ ≤ 0 then (gs, 0, [], true)
    else
      let avail := availZ.toNat
      ({ gs with leftover := gs.leftover.drop avail, delivered := gs.delivered + avail },
        avail, gs.leftover.take avail, false)

/-- The block loop of `decodeToBuffer`: each continuing iteration consumes
one 65-byte block, so fuel `rem.length + 1` is never exhausted. -/
def gsmStreamLoop : ℕ → GsmStreamState → List ℕ → ℕ → ℕ → List ℚ → GsmStreamOut
  | 0, gs, rem, _, n, acc => ⟨gs, rem, acc, n, none⟩
  | fuel + 1, gs, rem, outLen, n, acc =>
    if ¬n < outLen then ⟨gs, rem, acc, n, none⟩
    else if 0 < gs.factSamples ∧ gs.factSamples ≤ gs.delivered then ⟨gs, rem, acc, n, none⟩
    else
      let nr := min 65 rem.length
      if nr = 0 then ⟨gs, rem, acc, n, none⟩
      else if nr < 65 then ⟨gs, rem.drop nr, acc, n, none⟩
      else
        match decodeBlockM gs.g (rem.take 65) with
        | none => ⟨gs, rem.drop 65, acc, n, some .gsmShortBlock⟩
        | some sg =>
          let floatSamples := sg.1.map (fun v => normalizePCMInt v 16)
          let remaining := outLen - n
          let blockSamples :=
            if 0 < gs.factSamples ∧ gs.factSamples < gs.delivered + 320 then
              gs.factSamples - gs.delivered
            else 320
          if remaining ≥ blockSamples then
            gsmStreamLoop fuel ⟨sg.2, gs.leftover, gs.delivered + blockSamples, gs.factSamples⟩
              (rem.drop 65) outLen (n + blockSamples) (acc ++ floatSamples.take blockSamples)
          else
            let leftCount := blockSamples - remaining
            gsmStreamLoop fuel
              ⟨sg.2,
                if 0 < leftCount then (floatSamples.drop remaining).take leftCount
                else gs.leftover,
                gs.delivered + remaining, gs.factSamples⟩
              (rem.drop 65) outLen (n + remaining) (acc ++ floatSamples.take remaining)

/-- `gsmDecoder.decodeToBuffer` on the remaining PCM-chunk bytes. -/
def decodeToBufferM (gs : GsmStreamState) (rem : List ℕ) (outLen : ℕ) : GsmStreamOut :=
  let dr := gsmDrain gs outLen
  if dr.2.2.2 then ⟨gs, rem, [], 0, none⟩
  else gsmStreamLoop (rem.length + 1) dr.1 rem outLen dr.2.1 dr.2.2.1

/-- The block loop of `decodeAllBlocks`. -/
def gsmAllLoop : ℕ → GsmState → List ℕ → List ℚ → Except DecErr (List ℚ)
  | 0, _, _, acc => .ok acc
  | fuel + 1, g, rem, acc =>
    let nr := min 65 rem.length
    if nr = 0 then .ok acc
    else if nr < 65 then .ok acc
    else
      match decodeBlockM g (rem.take 65) with
      | none => .error .gsmShortBlock
      | some sg =>
          gsmAllLoop fuel sg.2 (rem.drop 65) (acc ++ sg.1.map (fun v => normalizePCMInt v 16))

/-- `gsmDecoder.decodeAllBlocks`, including the fact-chunk truncation. -/
def decodeAllBlocksM (g : GsmState) (bytes : List ℕ) (factSamples : ℕ) :
    Except DecErr (List ℚ) :=
  match gsmAllLoop (bytes.length + 1) g bytes [] with
  | .error e => .error e
  | .ok allSamples =>
      .ok (if 0 < factSamples ∧ factSamples < allSamples.length then
        allSamples.take factSamples else allSamples)

/-- The per-sample loop of `decodePCMBuffer`: one persistent scratch
buffer, so a trailing partial sample is completed with the previous
sample's stale bytes and IS produced (the loop breaks one iteration
later, on the empty read). -/
def bulkDecode (w : ℕ) (dec : List ℕ → ℚ) : ℕ → List ℕ → List ℕ → List ℚ
  | 0, _, _ => []
  | fuel + 1, bs, scratch =>
    if bs.length = 0 then []
    else if bs.length < w then [dec (bs ++ scratch.drop bs.length)]
    else dec (bs.take w) :: bulkDecode w dec fuel (bs.drop w) (bs.take w)

/-- One `Decoder.PCMBuffer` call's uncompressed path after the single
bulk `Read`: fresh zeroed scratch per call, per-sample decode, and the
misaligned `n--` bookkeeping (the partial sample stays in the delivered
count only when it landed exactly in the buffer's last slot). -/
def pcmStreamStep (w : ℕ) (dec : List ℕ → ℚ) (rem : List ℕ) (s : ℕ) :
    List ℕ × List ℚ × ℕ :=
  let size := s * w
  let tmp := min size rem.length
  if rem.length = 0 then (rem, [], 0)
  else if tmp = 0 then (rem, [], 0)
  else
    let data := rem.take tmp
    let full := tmp / w
    let fulls := (List.range full).map (fun i => dec ((data.drop (i * w)).take w))
    let m := tmp % w
    let stale := if full = 0 then List.replicate w 0 else (data.drop ((full - 1) * w)).take w
    let partialSeq := if m = 0 then ([] : List ℚ) else [dec (data.drop (full * w) ++ stale.drop m)]
    let count := if m = 0 then full else (if full + 1 = s then s else full)
    (rem.drop tmp, (fulls ++ partialSeq).take count, count)

/-- Decoder state after header parsing and data-chunk location:
`pcmChunk = some bytes` holds the remaining bytes behind the data chunk's
limited reader, `none` stands for both a failed `FwdToPCM` and a nil
`PCMChunk`. -/
structure DecState where
  wavAudioFormat : ℕ
  bitDepth : ℕ
  numChans : ℕ
  sampleRate : ℕ
  compressedSamples : ℕ
  pcmChunk : Option (List ℕ)
  pcmDataAccessed : Bool
  gsmDec : Option GsmStreamState
deriving DecidableEq, Repr

/-- `Decoder.PCMBuffer` with a buffer of capacity `s` (`none` = nil
buffer): returns the new decoder state, the delivered samples (the first
`n` buffer entries), the count `n`, and the error. -/
def pcmBufferM (d : DecState) (buf : Option ℕ) : DecState × List ℚ × ℕ × Option DecErr :=
  match buf with
  | none => (d, [], 0, none)
  | some s =>
    match d.pcmChunk with
    | none => (d, [], 0, some .pcmChunkNotFound)
    | some rem =>
      if d.wavAudioFormat = wavFormatGSM610 then
        let gs :=
          match d.gsmDec with
          | none => GsmStreamState.mk newGSMState [] 0 d.compressedSamples
          | some gs => gs
        let r := decodeToBufferM gs rem s
        ({ d with gsmDec := some r.gs, pcmChunk := some r.rem }, r.out, r.n, r.err)
      else if isUnsupportedCompressedFormat d.wavAudioFormat then
        (d, [], 0, some (.unsupportedCompressedFormat d.wavAudioFormat))
      else
        match sampleDecodeFloat32M d.bitDepth d.wavAudioFormat with
        | .error e => (d, [], 0, some e)
        | .ok wdec =>
          let step := pcmStreamStep (bytesPerSample d.bitDepth) wdec.2 rem s
          ({ d with pcmChunk := some step.1 }, step.2.1, step.2.2, none)

/-- `Decoder.FullPCMBuffer` (the bulk decode) on a located data chunk. -/
def fullPCMBufferM (d : DecState) : Except DecErr (List ℚ) :=
  match d.pcmChunk with
  | none => .error .pcmChunkNotFound
  | some bytes =>
    if d.wavAudioFormat = wavFormatGSM610 then
      decodeAllBlocksM newGSMState bytes d.compressedSamples
    else if isUnsupportedCompressedFormat d.wavAudioFormat then
      .error (.unsupportedCompressedFormat d.wavAudioFormat)
    else
      match sampleDecodeFloat32M d.bitDepth d.wavAudioFormat with
      | .error e => .error e
      | .ok wdec =>
          .ok (bulkDecode (bytesPerSample d.bitDepth) wdec.2 (bytes.length + 1) bytes
            (List.replicate (bytesPerSample d.bitDepth) 0))

end Wav

/-! ### C6 — TrueSpeech / Voxware rejection on both decode paths -/

/-- C6: for every decoder whose effective format tag is 34 (TrueSpeech) or
6172 (Voxware) and whose data chunk has been located, both the bulk decode
`FullPCMBuffer` and the streaming decode `PCMBuffer` return the
unsupported-compressed-format error for that tag, deliver no samples, and
report count 0 with the decoder state unchanged. -/
theorem C6_unsupported_compressed (d : Wav.DecState) (bytes : List ℕ) (s : ℕ)
    (htag : d.wavAudioFormat = 34 ∨ d.wavAudioFormat = 6172)
    (hchunk : d.pcmChunk = some bytes) :
    Wav.fullPCMBufferM d =
      .error (.unsupportedCompressedFormat d.wavAudioFormat) ∧
    Wav.pcmBufferM d (some s) =
      (d, [], 0, some (.unsupportedCompressedFormat d.wavAudioFormat)) := by
  rcases htag with h | h <;>
    simp [Wav.fullPCMBufferM, Wav.pcmBufferM, hchunk, h,
      Wav.isUnsupportedCompressedFormat, Wav.wavFormatGSM610]

theorem C6_unsupported_compressed_witness :
    ((Wav.DecState.mk 34 16 1 8000 0 (some []) false none).wavAudioFormat = 34 ∨
      (Wav.DecState.mk 34 16 1 8000 0 (some []) false none).wavAudioFormat = 6172) ∧
    (Wav.DecState.mk 34 16 1 8000 0 (some []) false none).pcmChunk = some [] ∧
    (Wav.fullPCMBufferM (Wav.DecState.mk 34 16 1 8000 0 (some []) false none) =
      .error (.unsupportedCompressedFormat
        (Wav.DecState.mk 34 16 1 8000 0 (some []) false none).wavAudioFormat) ∧
    Wav.pcmBufferM (Wav.DecState.mk 34 16 1 8000 0 (some []) false none) (some 4) =
      (Wav.DecState.mk 34 16 1 8000 0 (some []) false none, [], 0,
        some (.unsupportedCompressedFormat
          (Wav.DecState.mk 34 16 1 8000 0 (some []) false none).wavAudioFormat))) :=
  ⟨Or.inl rfl, rfl,
    C6_unsupported_compressed (Wav.DecState.mk 34 16 1 8000 0 (some []) false none) [] 4
      (Or.inl rfl) rfl⟩

/-! ### C10 — PCMBuffer with a nil buffer -/

/-- C10: for every decoder state, calling `PCMBuffer` with a nil buffer
returns count 0 and no error, delivers no samples, and leaves the decoder
state (including the unread PCM chunk) unchanged — the nil check precedes
every other step of the call, even though a 0 count otherwise signals end
of data. -/
theorem C10_nil_buffer (d : Wav.DecState) :
    Wav.pcmBufferM d none = (d, [], 0, none) := rfl

namespace Wav

/-- The "repeatedly call `PCMBuffer` until it returns 0" driver: collects
the samples each call delivers; each delivering call makes progress, so
fuel `6 * |pcmChunk| + 2` is never exhausted. -/
def pcmStreamAll : ℕ → DecState → ℕ → List ℚ
  | 0, _, _ => []
  | fuel + 1, d, s =>
    let r := pcmBufferM d (some s)
    if r.2.2.1 = 0 then []
    else r.2.1 ++ pcmStreamAll fuel r.1 s

end Wav

/-! ### C1 — streaming decode vs bulk decode -/

/-- C1 (counterexample): the claim says streaming and bulk decode always
yield the same sample sequence for every buffer size ≥ 1. On a 24-bit PCM
data chunk whose limited reader holds the two bytes `7, 0` (declared size
1 plus the word-alignment pad byte), bulk decode fabricates one sample
from the trailing partial frame by completing it from its scratch buffer,
while streaming decode at buffer size 2 reads the two bytes, cannot form a
full frame, decrements the misaligned count back to 0 and returns 0 — so
the driver stops having delivered no samples at all: streaming yields 0
samples, bulk yields 1. -/
theorem C1_counterexample :
    Wav.pcmStreamAll 14
        (Wav.DecState.mk 1 24 1 8000 0 (some [7, 0]) false none) 2 = [] ∧
    ∃ l, Wav.fullPCMBufferM (Wav.DecState.mk 1 24 1 8000 0 (some [7, 0]) false none) =
      .ok l ∧ l.length = 1 :=
  ⟨rfl, ⟨_, rfl, rfl⟩⟩

namespace Wav

/-- The fact-chunk cap applied to a pending sample list: `delivered`
samples are already gone, and a nonzero `factSamples` truncates the
total to `factSamples`. -/
def capTake (fact delivered : ℕ) (l : List ℚ) : List ℚ :=
  if fact = 0 then l else l.take (fact - delivered)

/-- The full block-at-a-time GSM sample sequence from a state and the
remaining chunk bytes (partial trailing blocks ignored); canonical fuel
is the byte count. -/
def gsmChunks : ℕ → GsmState → List ℕ → List ℚ
  | 0, _, _ => []
  | fuel + 1, g, rem =>
      if rem.length < 65 then []
      else
        match decodeBlockM g (rem.take 65) with
        | none => []
        | some sg =>
            sg.1.map (fun v => normalizePCMInt v 16) ++ gsmChunks fuel sg.2 (rem.drop 65)

/-- What a GSM streaming session can still deliver: pending leftover
samples, then all further blocks, under the fact cap. -/
def gsmRemOut (gs : GsmStreamState) (rem : List ℕ) : List ℚ :=
  capTake gs.factSamples gs.delivered (gs.leftover ++ gsmChunks rem.length gs.g rem)

theorem gsmChunks_fuel :
    ∀ (f1 : ℕ) (g : GsmState) (rem : List ℕ) (f2 : ℕ),
      rem.length ≤ f1 → rem.length ≤ f2 → gsmChunks f1 g rem = gsmChunks f2 g rem := by
  intro f1
  induction f1 with
  | zero =>
    intro g rem f2 h1 _
    have hr : rem.length = 0 := by omega
    cases f2 with
    | zero => rfl
    | succ f2' => simp [gsmChunks, hr]
  | succ f1' ih =>
    intro g rem f2 h1 h2
    cases f2 with
    | zero =>
      have hr : rem.length = 0 := by omega
      simp [gsmChunks, hr]
    | succ f2' =>
      simp only [gsmChunks]
      by_cases hlt : rem.length < 65
      · simp [hlt]
      · rw [if_neg hlt, if_neg hlt]
        cases hdec : decodeBlockM g (rem.take 65) with
        | none => rfl
        | some sg =>
          have hlen : (rem.drop 65).length ≤ f1' := by simp [List.length_drop]; omega
          have hlen2 : (rem.drop 65).length ≤ f2' := by simp [List.length_drop]; omega
          simp [ih sg.2 (rem.drop 65) f2' hlen hlen2]

theorem decodeBlockM_spec65 (g : GsmState) (block : List ℕ)
    (hb : block.length = 65) (hg : g.dp0.length = 280) :
    ∃ out g', decodeBlockM g block = some (out, g') ∧ out.length = 320 ∧
      g'.dp0.length = 280 := by
  obtain ⟨f1, f2, he, h1s, h2s⟩ := unpackWAV49BlockM_shape block (by omega)
  have hd1 := decodeFrameM_spec g f1 hg h1s
  have hd2 := decodeFrameM_spec (decodeFrameM g f1).2 f2 hd1.2 h2s
  have hdec : decodeBlockM g block =
      some ((decodeFrameM g f1).1 ++ (decodeFrameM (decodeFrameM g f1).2 f2).1,
        (decodeFrameM (decodeFrameM g f1).2 f2).2) := by
    simp [decodeBlockM, he]
  exact ⟨_, _, hdec, by rw [List.length_append, hd1.1, hd2.1], hd2.2⟩

theorem gsmChunks_short (g : GsmState) (rem : List ℕ) (h : rem.length < 65) :
    gsmChunks rem.length g rem = [] := by
  cases hl : rem.length with
  | zero => rfl
  | succ n => simp [gsmChunks, hl]; omega

theorem gsmChunks_block (g : GsmState) (rem : List ℕ) (h : 65 ≤ rem.length)
    (sgout : List ℤ) (sg' : GsmState)
    (hdec : decodeBlockM g (rem.take 65) = some (sgout, sg')) :
    gsmChunks rem.length g rem =
      sgout.map (fun v => normalizePCMInt v 16) ++
        gsmChunks (rem.drop 65).length sg' (rem.drop 65) := by
  obtain ⟨fl, hfl⟩ : ∃ fl, rem.length = fl + 1 := ⟨rem.length - 1, by omega⟩
  rw [hfl]
  simp only [gsmChunks]
  rw [if_neg (by omega : ¬rem.length < 65), hdec]
  have h1 : (rem.drop 65).length ≤ fl := by simp [List.length_drop]; omega
  show sgout.map (fun v => normalizePCMInt v 16) ++ gsmChunks fl sg' (rem.drop 65) = _
  rw [gsmChunks_fuel fl sg' (rem.drop 65) (rem.drop 65).length h1 le_rfl]

theorem gsmAllLoop_spec :
    ∀ (fuel : ℕ) (g : GsmState) (rem : List ℕ) (acc : List ℚ),
      rem.length < fuel → g.dp0.length = 280 →
      gsmAllLoop fuel g rem acc = .ok (acc ++ gsmChunks rem.length g rem) := by
  intro fuel
  induction fuel with
  | zero => intro g rem acc h _; omega
  | succ fuel' ih =>
    intro g rem acc h hg
    simp only [gsmAllLoop]
    by_cases h0 : min 65 rem.length = 0
    · have hr : rem.length = 0 := by omega
      rw [if_pos h0, gsmChunks_short g rem (by omega)]
      simp
    · rw [if_neg h0]
      by_cases hlt : min 65 rem.length < 65
      · have hr : rem.length < 65 := by omega
        rw [if_pos hlt, gsmChunks_short g rem hr]
        simp
      · have h65 : 65 ≤ rem.length := by omega
        rw [if_neg hlt]
        obtain ⟨out, g', hdec, hlen, hg'⟩ :=
          decodeBlockM_spec65 g (rem.take 65) (by simp [List.length_take]; omega) hg
        rw [hdec]
        show gsmAllLoop fuel' g' (rem.drop 65)
          (acc ++ out.map (fun v => normalizePCMInt v 16)) = _
        rw [ih g' (rem.drop 65) _ (by simp [List.length_drop]; omega) hg']
        rw [gsmChunks_block g rem h65 out g' hdec]
        simp

/-- `decodeAllBlocks` produces exactly the capped block sequence. -/
theorem decodeAllBlocksM_spec (g : GsmState) (bytes : List ℕ) (fact : ℕ)
    (hg : g.dp0.length = 280) :
    decodeAllBlocksM g bytes fact = .ok (capTake fact 0 (gsmChunks bytes.length g bytes)) := by
  unfold decodeAllBlocksM
  rw [gsmAllLoop_spec (bytes.length + 1) g bytes [] (by omega) hg]
  simp only [List.nil_append, capTake]
  split_ifs with h1 h2 h3
  · omega
  · rfl
  · rfl
  · rw [List.take_of_length_le (by omega)]

theorem capTake_nil (fact delivered : ℕ) : capTake fact delivered [] = [] := by
  unfold capTake
  split_ifs <;> simp

theorem capTake_stop (fact delivered : ℕ) (l : List ℚ)
    (hf : 0 < fact) (hd : fact ≤ delivered) : capTake fact delivered l = [] := by
  unfold capTake
  rw [if_neg (by omega), show fact - delivered = 0 by omega]
  simp

/-- How the fact cap distributes over one freshly decoded 320-sample
block: `B` is the Go `blockSamples` figure, and the capped pending list
takes/drops at any point `k ≤ B` as the raw block does. -/
theorem capTakeBlock (fact delivered : ℕ) (hnd : fact = 0 ∨ delivered < fact)
    (fS Crest : List ℚ) (hfS : fS.length = 320) (B : ℕ)
    (hB : B = if 0 < fact ∧ fact < delivered + 320 then fact - delivered else 320) :
    0 < B ∧ B ≤ 320 ∧ B ≤ (capTake fact delivered (fS ++ Crest)).length ∧
    (∀ k, k ≤ B → (capTake fact delivered (fS ++ Crest)).take k = fS.take k) ∧
    (∀ k, k ≤ B → (capTake fact delivered (fS ++ Crest)).drop k =
      capTake fact (delivered + k) ((fS.drop k).take (B - k) ++ Crest)) := by
  by_cases hf : fact = 0
  · have hBv : B = 320 := by rw [hB, if_neg (by omega)]
    have hcap : ∀ dl (l : List ℚ), capTake fact dl l = l := by
      intro dl l
      unfold capTake
      rw [if_pos hf]
    refine ⟨by omega, by omega, ?_, ?_, ?_⟩
    · rw [hcap]
      simp [hfS]
      omega
    · intro k hk
      rw [hcap]
      exact List.take_append_of_le_length (by rw [hfS]; omega)
    · intro k hk
      rw [hcap, hcap, List.drop_append_eq_append_drop, hfS,
        show k - 320 = 0 by omega, List.drop_zero,
        List.take_of_length_le (by simp [hfS]; omega)]
  · have hf' : 0 < fact := by omega
    have hdel : delivered < fact := hnd.resolve_left hf
    have hcap : ∀ dl (l : List ℚ), capTake fact dl l = l.take (fact - dl) := by
      intro dl l
      unfold capTake
      rw [if_neg hf]
    by_cases hc : fact < delivered + 320
    · have hBv : B = fact - delivered := by rw [hB, if_pos ⟨hf', hc⟩]
      have hBle : B ≤ 320 := by omega
      have hT : capTake fact delivered (fS ++ Crest) = fS.take B := by
        rw [hcap, ← hBv]
        exact List.take_append_of_le_length (by rw [hfS]; omega)
      refine ⟨by omega, hBle, ?_, ?_, ?_⟩
      · rw [hT]
        simp [hfS]
        omega
      · intro k hk
        rw [hT, List.take_take]
        congr 1
        omega
      · intro k hk
        rw [hT, List.drop_take, hcap]
        rw [List.take_append_of_le_length (by simp [hfS]; omega)]
        rw [List.take_take]
        congr 1
        omega
    · have hBv : B = 320 := by
        rw [hB, if_neg]
        intro h
        exact hc h.2
      have hge : delivered + 320 ≤ fact := by omega
      have hT : capTake fact delivered (fS ++ Crest) =
          fS ++ Crest.take (fact - delivered - 320) := by
        rw [hcap, List.take_append_eq_append_take,
          List.take_of_length_le (by rw [hfS]; omega), hfS]
      refine ⟨by omega, by omega, ?_, ?_, ?_⟩
      · rw [hT]
        simp [hfS]
        omega
      · intro k hk
        rw [hT]
        exact List.take_append_of_le_length (by rw [hfS]; omega)
      · intro k hk
        rw [hT, List.drop_append_eq_append_drop, hfS, show k - 320 = 0 by omega,
          List.drop_zero, hcap]
        have hA : (fS.drop k).take (B - k) = fS.drop k := by
          rw [hBv]
          exact List.take_of_length_le (by simp [hfS])
        rw [hA, List.take_append_eq_append_take,
          List.take_of_length_le
            (show (fS.drop k).length ≤ fact - (delivered + k) by simp [hfS]; omega)]
        rw [List.length_drop, hfS,
          show fact - (delivered + k) - (320 - k) = fact - delivered - 320 by omega]

theorem gsmStreamLoop_spec :
    ∀ (fuel : ℕ) (gs : GsmStreamState) (rem : List ℕ) (outLen n : ℕ) (acc : List ℚ),
      rem.length < fuel →
      gs.g.dp0.length = 280 →
      n ≤ outLen →
      (gs.leftover = [] ∨ (0 < gs.factSamples ∧ gs.factSamples ≤ gs.delivered) ∨ n = outLen) →
      (gsmStreamLoop fuel gs rem outLen n acc).err = none ∧
      (gsmStreamLoop fuel gs rem outLen n acc).gs.factSamples = gs.factSamples ∧
      (gsmStreamLoop fuel gs rem outLen n acc).gs.g.dp0.length = 280 ∧
      (gsmStreamLoop fuel gs rem outLen n acc).n =
        n + min (outLen - n) (gsmRemOut gs rem).length ∧
      (gsmStreamLoop fuel gs rem outLen n acc).out =
        acc ++ (gsmRemOut gs rem).take (outLen - n) ∧
      gsmRemOut (gsmStreamLoop fuel gs rem outLen n acc).gs
          (gsmStreamLoop fuel gs rem outLen n acc).rem =
        (gsmRemOut gs rem).drop (outLen - n) := by
  intro fuel
  induction fuel with
  | zero => intro gs rem outLen n acc h; omega
  | succ fuel' ih =>
    intro gs rem outLen n acc hfuel hg hn hP
    by_cases h1 : n < outLen
    swap
    · have hno : outLen - n = 0 := by omega
      simp only [gsmStreamLoop]
      rw [if_pos h1]
      exact ⟨rfl, rfl, hg, by simp [hno], by simp [hno], by simp [hno]⟩
    · by_cases h2 : 0 < gs.factSamples ∧ gs.factSamples ≤ gs.delivered
      · have hT : gsmRemOut gs rem = [] := capTake_stop _ _ _ h2.1 h2.2
        simp only [gsmStreamLoop]
        rw [if_neg (not_not_intro h1), if_pos h2]
        exact ⟨rfl, rfl, hg, by simp [hT], by simp [hT], by simp [hT]⟩
      · have hP' : gs.leftover = [] := by
          rcases hP with h | h | h
          · exact h
          · exact absurd h h2
          · omega
        have hnd : gs.factSamples = 0 ∨ gs.delivered < gs.factSamples := by
          by_cases hz : gs.factSamples = 0
          · exact Or.inl hz
          · right
            by_contra hcon
            exact h2 ⟨by omega, by omega⟩
        by_cases h3 : min 65 rem.length = 0
        · have hr0 : rem.length = 0 := by omega
          have hT : gsmRemOut gs rem = [] := by
            unfold gsmRemOut
            rw [hP', gsmChunks_short gs.g rem (by omega)]
            exact capTake_nil _ _
          simp only [gsmStreamLoop]
          rw [if_neg (not_not_intro h1), if_neg h2, if_pos h3]
          exact ⟨rfl, rfl, hg, by simp [hT], by simp [hT], by simp [hT]⟩
        · by_cases h4 : min 65 rem.length < 65
          · have hrlt : rem.length < 65 := by omega
            have hT : gsmRemOut gs rem = [] := by
              unfold gsmRemOut
              rw [hP', gsmChunks_short gs.g rem hrlt]
              exact capTake_nil _ _
            simp only [gsmStreamLoop]
            rw [if_neg (not_not_intro h1), if_neg h2, if_neg h3, if_pos h4]
            refine ⟨rfl, rfl, hg, by simp [hT], by simp [hT], ?_⟩
            have hlen0 : (rem.drop (min 65 rem.length)).length = 0 := by
              simp
              omega
            have hre : gsmRemOut gs (rem.drop (min 65 rem.length)) = [] := by
              unfold gsmRemOut
              rw [hP', gsmChunks_short _ _ (by omega)]
              simp [capTake_nil]
            show gsmRemOut gs (rem.drop (min 65 rem.length)) = _
            rw [hre, hT]
            simp
          · have h65 : 65 ≤ rem.length := by omega
            obtain ⟨out65, g', hdec, h320, hg'⟩ :=
              decodeBlockM_spec65 gs.g (rem.take 65) (by simp [List.length_take]; omega) hg
            set fS := out65.map (fun v => normalizePCMInt v 16) with hfSdef
            set BS := if 0 < gs.factSamples ∧ gs.factSamples < gs.delivered + 320 then
              gs.factSamples - gs.delivered else 320 with hBSdef
            set Crest := gsmChunks (rem.drop 65).length g' (rem.drop 65) with hCdef
            have hfSlen : fS.length = 320 := by
              rw [hfSdef, List.length_map, h320]
            have hchunksEq : gsmChunks rem.length gs.g rem = fS ++ Crest := by
              rw [hfSdef, hCdef]
              exact gsmChunks_block gs.g rem h65 out65 g' hdec
            have hT : gsmRemOut gs rem =
                capTake gs.factSamples gs.delivered (fS ++ Crest) := by
              unfold gsmRemOut
              rw [hP', hchunksEq]
              simp
            obtain ⟨hBpos, hB320, hBlen, htake, hdrop⟩ :=
              capTakeBlock gs.factSamples gs.delivered hnd fS Crest hfSlen BS hBSdef
            rw [← hT] at hBlen htake hdrop
            by_cases hrb : BS ≤ outLen - n
            · have heq : gsmStreamLoop (fuel' + 1) gs rem outLen n acc =
                  gsmStreamLoop fuel' ⟨g', gs.leftover, gs.delivered + BS, gs.factSamples⟩
                    (rem.drop 65) outLen (n + BS) (acc ++ fS.take BS) := by
                simp only [gsmStreamLoop]
                rw [if_neg (not_not_intro h1), if_neg h2, if_neg h3, if_neg h4]
                simp only [hdec]
                rw [if_pos (show outLen - n ≥
                  (if 0 < gs.factSamples ∧ gs.factSamples < gs.delivered + 320 then
                    gs.factSamples - gs.delivered else 320) by rw [← hBSdef]; exact hrb)]
              rw [heq]
              have hT2 : gsmRemOut ⟨g', gs.leftover, gs.delivered + BS, gs.factSamples⟩
                  (rem.drop 65) = (gsmRemOut gs rem).drop BS := by
                rw [hdrop BS le_rfl]
                unfold gsmRemOut
                simp [hP', hCdef]
              obtain ⟨e1, e2, e3, e4, e5, e6⟩ := ih ⟨g', gs.leftover, gs.delivered + BS,
                  gs.factSamples⟩ (rem.drop 65) outLen (n + BS) (acc ++ fS.take BS)
                (by simp [List.length_drop]; omega) hg' (by omega)
                (Or.inl (by simpa using hP'))
              refine ⟨e1, e2, e3, ?_, ?_, ?_⟩
              · rw [e4, hT2]
                have hlen2 : ((gsmRemOut gs rem).drop BS).length =
                    (gsmRemOut gs rem).length - BS := by simp
                rw [hlen2]
                omega
              · rw [e5, hT2]
                have hsplit : (gsmRemOut gs rem).take (outLen - n) =
                    (gsmRemOut gs rem).take BS ++
                      ((gsmRemOut gs rem).drop BS).take (outLen - n - BS) := by
                  rw [← List.take_add]
                  congr 1
                  omega
                rw [hsplit, htake BS le_rfl]
                simp [show outLen - (n + BS) = outLen - n - BS by omega]
              · rw [e6, hT2, List.drop_drop]
                congr 1
                omega
            · have hrb' : outLen - n < BS := by omega
              have hlc : 0 < BS - (outLen - n) := by omega
              have heq : gsmStreamLoop (fuel' + 1) gs rem outLen n acc =
                  gsmStreamLoop fuel'
                    ⟨g', (fS.drop (outLen - n)).take (BS - (outLen - n)),
                      gs.delivered + (outLen - n), gs.factSamples⟩
                    (rem.drop 65) outLen (n + (outLen - n)) (acc ++ fS.take (outLen - n)) := by
                simp only [gsmStreamLoop]
                rw [if_neg (not_not_intro h1), if_neg h2, if_neg h3, if_neg h4]
                simp only [hdec]
                rw [if_neg (show ¬outLen - n ≥
                  (if 0 < gs.factSamples ∧ gs.factSamples < gs.delivered + 320 then
                    gs.factSamples - gs.delivered else 320) by rw [← hBSdef]; omega)]
                rw [← hBSdef, ← hfSdef]
                rw [if_pos (show 0 < BS - (outLen - n) from hlc)]
              rw [heq]
              have hT2 : gsmRemOut ⟨g', (fS.drop (outLen - n)).take (BS - (outLen - n)),
                  gs.delivered + (outLen - n), gs.factSamples⟩ (rem.drop 65) =
                  (gsmRemOut gs rem).drop (outLen - n) := by
                rw [hdrop (outLen - n) (by omega)]
                unfold gsmRemOut
                simp [hCdef]
              obtain ⟨e1, e2, e3, e4, e5, e6⟩ := ih
                ⟨g', (fS.drop (outLen - n)).take (BS - (outLen - n)),
                  gs.delivered + (outLen - n), gs.factSamples⟩
                (rem.drop 65) outLen (n + (outLen - n)) (acc ++ fS.take (outLen - n))
                (by simp [List.length_drop]; omega) hg' (by omega)
                (Or.inr (Or.inr (by omega)))
              refine ⟨e1, e2, e3, ?_, ?_, ?_⟩
              · rw [e4]
                have : outLen - (n + (outLen - n)) = 0 := by omega
                rw [this]
                simp
                omega
              · rw [e5]
                have : outLen - (n + (outLen - n)) = 0 := by omega
                rw [this]
                rw [htake (outLen - n) (by omega)]
                simp
              · rw [e6, hT2]
                have : outLen - (n + (outLen - n)) = 0 := by omega
                rw [this]
                simp

theorem capTakeSplit (fact delivered : ℕ) (pre rest : List ℚ) (a : ℕ)
    (ha : a ≤ pre.length) (hcap : fact = 0 ∨ delivered + a ≤ fact) :
    a ≤ (capTake fact delivered (pre ++ rest)).length ∧
    (capTake fact delivered (pre ++ rest)).take a = pre.take a ∧
    (capTake fact delivered (pre ++ rest)).drop a =
      capTake fact (delivered + a) (pre.drop a ++ rest) := by
  by_cases hf : fact = 0
  · have hcap0 : ∀ dl (l : List ℚ), capTake fact dl l = l := by
      intro dl l
      unfold capTake
      rw [if_pos hf]
    rw [hcap0, hcap0]
    refine ⟨by simp; omega, List.take_append_of_le_length ha, ?_⟩
    rw [List.drop_append_eq_append_drop, show a - pre.length = 0 by omega, List.drop_zero]
  · have hle : delivered + a ≤ fact := hcap.resolve_left hf
    have hcap' : ∀ dl (l : List ℚ), capTake fact dl l = l.take (fact - dl) := by
      intro dl l
      unfold capTake
      rw [if_neg hf]
    rw [hcap', hcap']
    refine ⟨?_, ?_, ?_⟩
    · simp
      omega
    · rw [List.take_take, show min a (fact - delivered) = a by omega]
      exact List.take_append_of_le_length ha
    · rw [List.drop_take, List.drop_append_eq_append_drop,
        show a - pre.length = 0 by omega, List.drop_zero,
        show fact - delivered - a = fact - (delivered + a) by omega]

theorem decodeToBufferM_spec (gs : GsmStreamState) (rem : List ℕ) (s : ℕ)
    (hg : gs.g.dp0.length = 280) :
    (decodeToBufferM gs rem s).err = none ∧
    (decodeToBufferM gs rem s).gs.factSamples = gs.factSamples ∧
    (decodeToBufferM gs rem s).gs.g.dp0.length = 280 ∧
    (decodeToBufferM gs rem s).n = min s (gsmRemOut gs rem).length ∧
    (decodeToBufferM gs rem s).out = (gsmRemOut gs rem).take s ∧
    gsmRemOut (decodeToBufferM gs rem s).gs (decodeToBufferM gs rem s).rem =
      (gsmRemOut gs rem).drop s := by
  by_cases hemp : gs.leftover.isEmpty
  · have hemp' : gs.leftover = [] := by
      cases h : gs.leftover
      · rfl
      · rw [h] at hemp; simp at hemp
    have hdr : gsmDrain gs s = (gs, 0, [], false) := by
      unfold gsmDrain
      rw [if_pos hemp]
    have hloop := gsmStreamLoop_spec (rem.length + 1) gs rem s 0 [] (by omega) hg
      (by omega) (Or.inl hemp')
    obtain ⟨e1, e2, e3, e4, e5, e6⟩ := hloop
    unfold decodeToBufferM
    rw [hdr]
    rw [if_neg Bool.false_ne_true]
    refine ⟨e1, e2, e3, ?_, ?_, ?_⟩
    · rw [e4]; simp
    · rw [e5]; simp
    · rw [e6]; simp
  · have hL : 1 ≤ gs.leftover.length := by
      cases h : gs.leftover
      · rw [h] at hemp; simp at hemp
      · simp [h]
    by_cases hcapb : 0 < gs.factSamples ∧ gs.factSamples < gs.delivered + min gs.leftover.length s
    · -- the fact cap binds inside the leftover drain
      by_cases hz : (gs.factSamples : ℤ) - gs.delivered ≤ 0
      · -- early return: nothing left to deliver
        have hdr : gsmDrain gs s = (gs, 0, [], true) := by
          simp only [gsmDrain]
          rw [if_neg hemp, if_pos hcapb, if_pos hz]
        have hT : gsmRemOut gs rem = [] :=
          capTake_stop _ _ _ hcapb.1 (by omega)
        unfold decodeToBufferM
        rw [hdr]
        rw [if_pos rfl]
        exact ⟨rfl, rfl, hg, by simp [hT], by simp [hT], by simp [hT]⟩
      · have havail : ((gs.factSamples : ℤ) - gs.delivered).toNat =
            gs.factSamples - gs.delivered := by omega
        have hdel : gs.delivered < gs.factSamples := by omega
        set a := gs.factSamples - gs.delivered with hadef
        have ha1 : 1 ≤ a := by omega
        have haL : a ≤ gs.leftover.length := by omega
        have has : a ≤ s := by omega
        have hdr : gsmDrain gs s =
            ({ gs with leftover := gs.leftover.drop a, delivered := gs.delivered + a },
              a, gs.leftover.take a, false) := by
          simp only [gsmDrain]
          rw [if_neg hemp, if_pos hcapb, if_neg hz, havail]
        obtain ⟨hs1, hs2, hs3⟩ := capTakeSplit gs.factSamples gs.delivered gs.leftover
          (gsmChunks rem.length gs.g rem) a haL (Or.inr (by omega))
        have hloop := gsmStreamLoop_spec (rem.length + 1)
          { gs with leftover := gs.leftover.drop a, delivered := gs.delivered + a }
          rem s a (gs.leftover.take a) (by omega) hg has
          (Or.inr (Or.inl ⟨hcapb.1, by simp; omega⟩))
        obtain ⟨e1, e2, e3, e4, e5, e6⟩ := hloop
        have hT1 : gsmRemOut
            { gs with leftover := gs.leftover.drop a, delivered := gs.delivered + a } rem =
            (gsmRemOut gs rem).drop a := by
          unfold gsmRemOut
          simp only []
          rw [hs3]
        unfold decodeToBufferM
        rw [hdr]
        rw [if_neg Bool.false_ne_true]
        refine ⟨e1, e2, e3, ?_, ?_, ?_⟩
        · rw [e4, hT1]
          have : ((gsmRemOut gs rem).drop a).length = (gsmRemOut gs rem).length - a := by
            simp
          rw [this]
          unfold gsmRemOut
          omega
        · rw [e5, hT1]
          have hsp : (gsmRemOut gs rem).take s =
              (gsmRemOut gs rem).take a ++ ((gsmRemOut gs rem).drop a).take (s - a) := by
            rw [← List.take_add]
            congr 1
            omega
          rw [hsp]
          unfold gsmRemOut
          rw [hs2]
        · rw [e6, hT1, List.drop_drop]
          congr 1
          omega
    · -- the cap does not bind in the drain: the raw min is delivered
      set a := min gs.leftover.length s with hadef
      by_cases hz : (a : ℤ) ≤ 0
      · -- s = 0: nothing requested
        have hs0 : s = 0 := by omega
        have hdr : gsmDrain gs s = (gs, 0, [], true) := by
          simp only [gsmDrain]
          rw [if_neg hemp, if_neg hcapb, if_pos (by rw [← hadef]; exact hz)]
        unfold decodeToBufferM
        rw [hdr]
        rw [if_pos rfl]
        exact ⟨rfl, rfl, hg, by simp [hs0], by simp [hs0], by simp [hs0]⟩
      · have ha1 : 1 ≤ a := by omega
        have haL : a ≤ gs.leftover.length := by rw [hadef]; omega
        have has : a ≤ s := by rw [hadef]; omega
        have hcapok : gs.factSamples = 0 ∨ gs.delivered + a ≤ gs.factSamples := by
          by_cases hf : gs.factSamples = 0
          · exact Or.inl hf
          · right
            rw [hadef]
            omega
        have hdr : gsmDrain gs s =
            ({ gs with leftover := gs.leftover.drop a, delivered := gs.delivered + a },
              a, gs.leftover.take a, false) := by
          simp only [gsmDrain]
          rw [if_neg hemp, if_neg hcapb, if_neg (by rw [← hadef]; exact hz), ← hadef]
          simp
        obtain ⟨hs1, hs2, hs3⟩ := capTakeSplit gs.factSamples gs.delivered gs.leftover
          (gsmChunks rem.length gs.g rem) a haL hcapok
        have hPnext : gs.leftover.drop a = [] ∨
            (0 < gs.factSamples ∧ gs.factSamples ≤ gs.delivered + a) ∨ a = s := by
          by_cases hLs : gs.leftover.length ≤ s
          · left
            apply List.drop_of_length_le
            rw [hadef]
            omega
          · right; right
            rw [hadef]
            omega
        have hloop := gsmStreamLoop_spec (rem.length + 1)
          { gs with leftover := gs.leftover.drop a, delivered := gs.delivered + a }
          rem s a (gs.leftover.take a) (by omega) hg has
          (by simpa using hPnext)
        obtain ⟨e1, e2, e3, e4, e5, e6⟩ := hloop
        have hT1 : gsmRemOut
            { gs with leftover := gs.leftover.drop a, delivered := gs.delivered + a } rem =
            (gsmRemOut gs rem).drop a := by
          unfold gsmRemOut
          simp only []
          rw [hs3]
        unfold decodeToBufferM
        rw [hdr]
        rw [if_neg Bool.false_ne_true]
        refine ⟨e1, e2, e3, ?_, ?_, ?_⟩
        · rw [e4, hT1]
          have : ((gsmRemOut gs rem).drop a).length = (gsmRemOut gs rem).length - a := by
            simp
          rw [this]
          unfold gsmRemOut
          omega
        · rw [e5, hT1]
          have hsp : (gsmRemOut gs rem).take s =
              (gsmRemOut gs rem).take a ++ ((gsmRemOut gs rem).drop a).take (s - a) := by
            rw [← List.take_add]
            congr 1
            omega
          rw [hsp]
          unfold gsmRemOut
          rw [hs2]
        · rw [e6, hT1, List.drop_drop]
          congr 1
          omega

/-- Clean sample-at-a-time decode of an aligned byte stream (the common
meaning of both decode paths when no partial trailing frame exists). -/
def alignedDecode (w : ℕ) (dec : List ℕ → ℚ) : ℕ → List ℕ → List ℚ
  | 0, _ => []
  | fuel + 1, bs => if w ≤ bs.length then dec (bs.take w) :: alignedDecode w dec fuel (bs.drop w) else []

theorem alignedDecode_fuel (w : ℕ) (dec : List ℕ → ℚ) (hw : 1 ≤ w) :
    ∀ (f1 : ℕ) (bs : List ℕ) (f2 : ℕ), bs.length ≤ f1 → bs.length ≤ f2 →
      alignedDecode w dec f1 bs = alignedDecode w dec f2 bs := by
  intro f1
  induction f1 with
  | zero =>
    intro bs f2 h1 _
    have hb : bs.length = 0 := by omega
    cases f2 with
    | zero => rfl
    | succ f2' =>
      simp only [alignedDecode]
      rw [if_neg (by omega)]
  | succ f1' ih =>
    intro bs f2 h1 h2
    cases f2 with
    | zero =>
      have hb : bs.length = 0 := by omega
      simp only [alignedDecode]
      rw [if_neg (by omega)]
    | succ f2' =>
      simp only [alignedDecode]
      by_cases hc : w ≤ bs.length
      · rw [if_pos hc, if_pos hc,
          ih (bs.drop w) f2' (by simp; omega) (by simp; omega)]
      · rw [if_neg hc, if_neg hc]

theorem alignedDecode_length (w : ℕ) (dec : List ℕ → ℚ) (hw : 1 ≤ w) :
    ∀ (fuel : ℕ) (bs : List ℕ), bs.length ≤ fuel → w ∣ bs.length →
      (alignedDecode w dec fuel bs).length = bs.length / w := by
  intro fuel
  induction fuel with
  | zero =>
    intro bs h1 _
    have hb : bs.length = 0 := by omega
    simp [alignedDecode, hb]
  | succ fuel' ih =>
    intro bs h1 hdvd
    simp only [alignedDecode]
    by_cases hc : w ≤ bs.length
    · rw [if_pos hc]
      obtain ⟨k, hk⟩ := hdvd
      have hk1 : 1 ≤ k := by
        rcases Nat.eq_zero_or_pos k with hz | hz
        · subst hz
          rw [Nat.mul_zero] at hk
          omega
        · exact hz
      have hdvd' : w ∣ (bs.drop w).length := by
        simp
        exact Nat.dvd_sub' ⟨k, hk⟩ dvd_rfl
      rw [List.length_cons, ih (bs.drop w) (by simp; omega) hdvd']
      have hdl : (bs.drop w).length = w * (k - 1) := by
        simp [hk]
        cases k with
        | zero => omega
        | succ k' =>
          rw [Nat.mul_succ]
          simp
      rw [hdl, hk, Nat.mul_div_cancel_left _ (by omega),
        Nat.mul_div_cancel_left _ (by omega)]
      omega
    · rw [if_neg hc]
      have hb : bs.length = 0 := by
        obtain ⟨k, hk⟩ := hdvd
        rcases Nat.eq_zero_or_pos k with h | h
        · subst h
          simpa using hk
        · exfalso
          apply hc
          rw [hk]
          calc w = w * 1 := by ring
          _ ≤ w * k := by exact Nat.mul_le_mul_left w h
      simp [hb]

theorem bulkDecode_aligned (w : ℕ) (dec : List ℕ → ℚ) (hw : 1 ≤ w) :
    ∀ (fuel : ℕ) (bs scratch : List ℕ), w ∣ bs.length →
      bulkDecode w dec fuel bs scratch = alignedDecode w dec fuel bs := by
  intro fuel
  induction fuel with
  | zero => intro bs scratch _; rfl
  | succ fuel' ih =>
    intro bs scratch hdvd
    simp only [bulkDecode, alignedDecode]
    by_cases h0 : bs.length = 0
    · rw [if_pos h0, if_neg (by omega)]
    · rw [if_neg h0]
      have hge : w ≤ bs.length := by
        obtain ⟨k, hk⟩ := hdvd
        rcases Nat.eq_zero_or_pos k with h | h
        · subst h
          rw [Nat.mul_zero] at hk
          omega
        · rw [hk]
          calc w = w * 1 := by ring
          _ ≤ w * k := by exact Nat.mul_le_mul_left w h
      rw [if_neg (by omega), if_pos hge]
      have hdvd' : w ∣ (bs.drop w).length := by
        simp
        exact Nat.dvd_sub' hdvd dvd_rfl
      rw [ih (bs.drop w) (bs.take w) hdvd']

theorem alignedDecode_split (w : ℕ) (dec : List ℕ → ℚ) (hw : 1 ≤ w) :
    ∀ (j : ℕ) (bs : List ℕ) (f1 f2 f3 : ℕ),
      w * j ≤ bs.length → bs.length ≤ f1 → w * j ≤ f2 → bs.length - w * j ≤ f3 →
      alignedDecode w dec f1 bs =
        alignedDecode w dec f2 (bs.take (w * j)) ++ alignedDecode w dec f3 (bs.drop (w * j)) := by
  intro j
  induction j with
  | zero =>
    intro bs f1 f2 f3 hj h1 h2 h3
    simp only [Nat.mul_zero, List.take_zero, List.drop_zero]
    rw [alignedDecode_fuel w dec hw f1 bs f3 h1 (by omega)]
    cases f2 with
    | zero => rfl
    | succ f2' =>
      simp only [alignedDecode]
      rw [if_neg (by simp; omega)]
      simp
  | succ j' ih =>
    intro bs f1 f2 f3 hj h1 h2 h3
    have hwj : w * j' + w = w * (j' + 1) := by ring
    have hwbs : w ≤ bs.length := by
      calc w ≤ w * (j' + 1) := by
            calc w = w * 1 := by ring
            _ ≤ w * (j' + 1) := Nat.mul_le_mul_left w (by omega)
      _ ≤ bs.length := hj
    obtain ⟨g1, hf1⟩ : ∃ g1, f1 = g1 + 1 := ⟨f1 - 1, by omega⟩
    obtain ⟨g2, hf2⟩ : ∃ g2, f2 = g2 + 1 := ⟨f2 - 1, by omega⟩
    subst hf1
    subst hf2
    simp only [alignedDecode]
    rw [if_pos hwbs,
      if_pos (by simp [List.length_take]; constructor <;> omega)]
    have htt : (bs.take (w * (j' + 1))).take w = bs.take w := by
      rw [List.take_take]
      congr 1
      omega
    have htd : (bs.take (w * (j' + 1))).drop w = (bs.drop w).take (w * j') := by
      rw [List.drop_take]
      congr 1
      omega
    have hdd : bs.drop (w * (j' + 1)) = (bs.drop w).drop (w * j') := by
      rw [List.drop_drop]
      congr 1
      omega
    rw [htt, htd, hdd, List.cons_append]
    congr 1
    exact ih (bs.drop w) g1 g2 f3 (by simp; omega) (by simp; omega) (by omega)
      (by simp; omega)

theorem alignedDecode_eq_rangeMap (w : ℕ) (dec : List ℕ → ℚ) (hw : 1 ≤ w) :
    ∀ (j : ℕ) (bs : List ℕ) (fuel : ℕ), bs.length = w * j → bs.length ≤ fuel →
      alignedDecode w dec fuel bs =
        (List.range j).map (fun i => dec ((bs.drop (i * w)).take w)) := by
  intro j
  induction j with
  | zero =>
    intro bs fuel hlen hfuel
    rw [Nat.mul_zero] at hlen
    cases fuel with
    | zero => simp [alignedDecode]
    | succ f =>
      simp only [alignedDecode]
      rw [if_neg (by omega)]
      simp
  | succ j' ih =>
    intro bs fuel hlen hfuel
    have hwbs : w ≤ bs.length := by
      rw [hlen, Nat.mul_succ]
      omega
    obtain ⟨g, hg⟩ : ∃ g, fuel = g + 1 := ⟨fuel - 1, by omega⟩
    subst hg
    simp only [alignedDecode]
    rw [if_pos hwbs]
    rw [List.range_succ_eq_map, List.map_cons, List.map_map]
    have hhead : dec ((bs.drop (0 * w)).take w) = dec (bs.take w) := by
      norm_num
    rw [hhead]
    congr 1
    rw [ih (bs.drop w) g (by simp [hlen, Nat.mul_succ]) (by simp; omega)]
    apply List.map_congr_left
    intro i _
    simp only [Function.comp]
    rw [List.drop_drop]
    congr 3
    rw [Nat.succ_eq_add_one]
    ring

theorem pcmStreamStep_nil (w : ℕ) (dec : List ℕ → ℚ) (rem : List ℕ) (s : ℕ)
    (h0 : rem.length = 0) :
    pcmStreamStep w dec rem s = (rem, [], 0) := by
  simp [pcmStreamStep, h0]

theorem pcmStreamStep_aligned (w : ℕ) (dec : List ℕ → ℚ) (rem : List ℕ) (s : ℕ)
    (hw : 1 ≤ w) (hdvd : w ∣ rem.length) (h0 : rem.length ≠ 0) (hs : 1 ≤ s) :
    pcmStreamStep w dec rem s =
      (rem.drop (w * min s (rem.length / w)),
        alignedDecode w dec (w * min s (rem.length / w) + 1)
          (rem.take (w * min s (rem.length / w))),
        min s (rem.length / w)) := by
  obtain ⟨k, hk⟩ := hdvd
  have hk1 : 1 ≤ k := by
    rcases Nat.eq_zero_or_pos k with hz | hz
    · subst hz
      rw [Nat.mul_zero] at hk
      omega
    · exact hz
  have hdivk : rem.length / w = k := by
    rw [hk, Nat.mul_div_cancel_left _ (by omega)]
  have hmin : min (s * w) rem.length = w * min s k := by
    rw [hk, Nat.mul_comm s w]
    rcases le_total s k with h | h
    · rw [min_eq_left (Nat.mul_le_mul_left w h), min_eq_left h]
    · rw [min_eq_right (Nat.mul_le_mul_left w h), min_eq_right h]
  have hminpos : 1 ≤ w * min s k := by
    have : 1 ≤ min s k := by omega
    calc 1 ≤ w * 1 := by omega
    _ ≤ w * min s k := Nat.mul_le_mul_left w this
  have htmple : w * min s k ≤ rem.length := by
    rw [hk]
    exact Nat.mul_le_mul_left w (by omega)
  have hdata : (rem.take (w * min s k)).length = w * min s k := by
    simp
    omega
  simp only [pcmStreamStep]
  rw [if_neg h0, hmin, if_neg (by omega)]
  rw [Nat.mul_mod_right, Nat.mul_div_cancel_left _ (show 0 < w by omega)]
  simp only [if_pos rfl]
  have hfulls : (List.range (min s k)).map
      (fun i => dec (((rem.take (w * min s k)).drop (i * w)).take w)) =
      alignedDecode w dec (w * min s k + 1) (rem.take (w * min s k)) := by
    rw [alignedDecode_eq_rangeMap w dec hw (min s k) (rem.take (w * min s k))
      (w * min s k + 1) hdata (by omega)]
  rw [hfulls]
  simp only [if_true]
  have hlenAD : (alignedDecode w dec (w * (s ⊓ k) + 1)
      (rem.take (w * (s ⊓ k)))).length = s ⊓ k := by
    rw [alignedDecode_length w dec hw _ _ (by omega)
      (by rw [hdata]; exact Dvd.intro _ rfl), hdata,
      Nat.mul_div_cancel_left _ (show 0 < w by omega)]
  rw [List.append_nil, hdivk, List.take_of_length_le (le_of_eq hlenAD)]

theorem bytesPerSample_pos (bitDepth : ℕ) : 1 ≤ bytesPerSample bitDepth := by
  unfold bytesPerSample
  omega

theorem pcmBufferM_uncomp (d : DecState) (rem : List ℕ) (s : ℕ) (w : ℕ) (dec : List ℕ → ℚ)
    (hfmt : ¬d.wavAudioFormat = wavFormatGSM610)
    (hunsup : isUnsupportedCompressedFormat d.wavAudioFormat = false)
    (hchunk : d.pcmChunk = some rem)
    (hok : sampleDecodeFloat32M d.bitDepth d.wavAudioFormat = .ok (w, dec)) :
    pcmBufferM d (some s) =
      ({ d with pcmChunk := some (pcmStreamStep (bytesPerSample d.bitDepth) dec rem s).1 },
        (pcmStreamStep (bytesPerSample d.bitDepth) dec rem s).2.1,
        (pcmStreamStep (bytesPerSample d.bitDepth) dec rem s).2.2, none) := by
  simp [pcmBufferM, hchunk, hfmt, hunsup, hok]

theorem pcmBufferM_gsm_some (d : DecState) (rem : List ℕ) (s : ℕ) (gs : GsmStreamState)
    (hfmt : d.wavAudioFormat = wavFormatGSM610)
    (hchunk : d.pcmChunk = some rem) (hgd : d.gsmDec = some gs) :
    pcmBufferM d (some s) =
      ({ d with
          gsmDec := some (decodeToBufferM gs rem s).gs,
          pcmChunk := some (decodeToBufferM gs rem s).rem },
        (decodeToBufferM gs rem s).out, (decodeToBufferM gs rem s).n,
        (decodeToBufferM gs rem s).err) := by
  simp [pcmBufferM, hchunk, hfmt, hgd]

theorem pcmBufferM_gsm_none (d : DecState) (rem : List ℕ) (s : ℕ)
    (hfmt : d.wavAudioFormat = wavFormatGSM610)
    (hchunk : d.pcmChunk = some rem) (hgd : d.gsmDec = none) :
    pcmBufferM d (some s) =
      ({ d with
          gsmDec :=
            some (decodeToBufferM (GsmStreamState.mk newGSMState [] 0 d.compressedSamples) rem s).gs,
          pcmChunk :=
            some (decodeToBufferM (GsmStreamState.mk newGSMState [] 0 d.compressedSamples) rem s).rem },
        (decodeToBufferM (GsmStreamState.mk newGSMState [] 0 d.compressedSamples) rem s).out,
        (decodeToBufferM (GsmStreamState.mk newGSMState [] 0 d.compressedSamples) rem s).n,
        (decodeToBufferM (GsmStreamState.mk newGSMState [] 0 d.compressedSamples) rem s).err) := by
  simp [pcmBufferM, hchunk, hfmt, hgd]

theorem gsmChunks_length_le :
    ∀ (fuel : ℕ) (g : GsmState) (rem : List ℕ), g.dp0.length = 280 →
      (gsmChunks fuel g rem).length ≤ 5 * rem.length := by
  intro fuel
  induction fuel with
  | zero => intro g rem _; simp [gsmChunks]
  | succ fuel' ih =>
    intro g rem hg
    simp only [gsmChunks]
    by_cases hlt : rem.length < 65
    · rw [if_pos hlt]
      simp
    · rw [if_neg hlt]
      obtain ⟨out, g', hdec, h320, hg'⟩ :=
        decodeBlockM_spec65 g (rem.take 65) (by simp [List.length_take]; omega) hg
      rw [hdec]
      show (out.map (fun v => normalizePCMInt v 16) ++ gsmChunks fuel' g' (rem.drop 65)).length
        ≤ 5 * rem.length
      rw [List.length_append, List.length_map, h320]
      have := ih g' (rem.drop 65) hg'
      simp only [List.length_drop] at this
      omega

/-- The "repeatedly call until 0" driver on a GSM session delivers exactly
what the session can still deliver. -/
theorem pcmStreamAll_gsm :
    ∀ (fuel : ℕ) (d : DecState) (gs : GsmStreamState) (rem : List ℕ) (s : ℕ),
      d.wavAudioFormat = wavFormatGSM610 →
      d.pcmChunk = some rem →
      (d.gsmDec = some gs ∨
        (d.gsmDec = none ∧ gs = GsmStreamState.mk newGSMState [] 0 d.compressedSamples)) →
      gs.g.dp0.length = 280 →
      1 ≤ s →
      (gsmRemOut gs rem).length < fuel →
      pcmStreamAll fuel d s = gsmRemOut gs rem := by
  intro fuel
  induction fuel with
  | zero => intro d gs rem s _ _ _ _ _ h; omega
  | succ fuel' ih =>
    intro d gs rem s hfmt hchunk hgd hg hs hfl
    have hred : pcmBufferM d (some s) =
        ({ d with
            gsmDec := some (decodeToBufferM gs rem s).gs,
            pcmChunk := some (decodeToBufferM gs rem s).rem },
          (decodeToBufferM gs rem s).out, (decodeToBufferM gs rem s).n,
          (decodeToBufferM gs rem s).err) := by
      rcases hgd with h | ⟨h, hfresh⟩
      · exact pcmBufferM_gsm_some d rem s gs hfmt hchunk h
      · rw [hfresh]
        exact pcmBufferM_gsm_none d rem s hfmt hchunk h
    obtain ⟨e1, e2, e3, e4, e5, e6⟩ := decodeToBufferM_spec gs rem s hg
    simp only [pcmStreamAll]
    rw [hred]
    show (if (decodeToBufferM gs rem s).n = 0 then [] else (decodeToBufferM gs rem s).out ++
      pcmStreamAll fuel'
        { d with
          gsmDec := some (decodeToBufferM gs rem s).gs,
          pcmChunk := some (decodeToBufferM gs rem s).rem } s) = gsmRemOut gs rem
    by_cases hT0 : (gsmRemOut gs rem).length = 0
    · rw [if_pos (by rw [e4]; omega)]
      have hTnil : gsmRemOut gs rem = [] := List.eq_nil_of_length_eq_zero hT0
      rw [hTnil]
    · rw [if_neg (by rw [e4]; omega)]
      have ih' := ih
        { d with
          gsmDec := some (decodeToBufferM gs rem s).gs,
          pcmChunk := some (decodeToBufferM gs rem s).rem }
        (decodeToBufferM gs rem s).gs (decodeToBufferM gs rem s).rem s
        (by simpa using hfmt) (by simp) (Or.inl (by simp)) e3 hs
        (by rw [e6]; simp; omega)
      rw [ih', e5, e6]
      exact List.take_append_drop s (gsmRemOut gs rem)

/-- The driver on an uncompressed session with aligned data delivers the
whole aligned decode. -/
theorem pcmStreamAll_uncomp :
    ∀ (fuel : ℕ) (d : DecState) (rem : List ℕ) (s : ℕ) (w : ℕ) (dec : List ℕ → ℚ),
      ¬d.wavAudioFormat = wavFormatGSM610 →
      isUnsupportedCompressedFormat d.wavAudioFormat = false →
      d.pcmChunk = some rem →
      sampleDecodeFloat32M d.bitDepth d.wavAudioFormat = .ok (w, dec) →
      bytesPerSample d.bitDepth ∣ rem.length →
      1 ≤ s →
      rem.length < fuel →
      pcmStreamAll fuel d s =
        alignedDecode (bytesPerSample d.bitDepth) dec (rem.length + 1) rem := by
  intro fuel
  induction fuel with
  | zero => intro d rem s w dec _ _ _ _ _ _ h; omega
  | succ fuel' ih =>
    intro d rem s w dec hfmt hunsup hchunk hok hdvd hs hfl
    have hw : 1 ≤ bytesPerSample d.bitDepth := bytesPerSample_pos d.bitDepth
    have hred := pcmBufferM_uncomp d rem s w dec hfmt hunsup hchunk hok
    simp only [pcmStreamAll]
    rw [hred]
    show (if (pcmStreamStep (bytesPerSample d.bitDepth) dec rem s).2.2 = 0 then []
      else (pcmStreamStep (bytesPerSample d.bitDepth) dec rem s).2.1 ++
        pcmStreamAll fuel' { d with
          pcmChunk := some (pcmStreamStep (bytesPerSample d.bitDepth) dec rem s).1 } s) =
      alignedDecode (bytesPerSample d.bitDepth) dec (rem.length + 1) rem
    by_cases h0 : rem.length = 0
    · have hrnil : rem = [] := List.eq_nil_of_length_eq_zero h0
      subst hrnil
      rw [pcmStreamStep_nil (bytesPerSample d.bitDepth) dec [] s rfl]
      show ([] : List ℚ) =
        alignedDecode (bytesPerSample d.bitDepth) dec (List.length ([] : List ℕ) + 1) []
      simp only [alignedDecode, List.length_nil]
      rw [if_neg (by omega)]
    · rw [pcmStreamStep_aligned _ dec rem s hw hdvd h0 hs]
      simp only []
      have hk1 : 1 ≤ rem.length / bytesPerSample d.bitDepth := by
        obtain ⟨k, hk⟩ := hdvd
        have : 1 ≤ k := by
          rcases Nat.eq_zero_or_pos k with hz | hz
          · subst hz
            rw [Nat.mul_zero] at hk
            omega
          · exact hz
        rw [hk, Nat.mul_div_cancel_left _ (by omega)]
        omega
      have hj1 : 1 ≤ min s (rem.length / bytesPerSample d.bitDepth) := by omega
      have htmppos : 1 ≤ bytesPerSample d.bitDepth *
          min s (rem.length / bytesPerSample d.bitDepth) := by
        calc 1 ≤ bytesPerSample d.bitDepth * 1 := by omega
        _ ≤ _ := Nat.mul_le_mul_left _ hj1
      have htmple : bytesPerSample d.bitDepth *
          min s (rem.length / bytesPerSample d.bitDepth) ≤ rem.length := by
        obtain ⟨k, hk⟩ := hdvd
        rw [hk, Nat.mul_div_cancel_left _ (by omega)] at hj1 ⊢
        exact Nat.mul_le_mul_left _ (by omega)
      rw [if_neg (by simp; omega)]
      have hdvd' : bytesPerSample d.bitDepth ∣
          (rem.drop (bytesPerSample d.bitDepth *
            min s (rem.length / bytesPerSample d.bitDepth))).length := by
        simp
        exact Nat.dvd_sub' hdvd (Dvd.intro _ rfl)
      have ih' := ih { d with pcmChunk := some (rem.drop (bytesPerSample d.bitDepth *
          min s (rem.length / bytesPerSample d.bitDepth))) }
        (rem.drop (bytesPerSample d.bitDepth *
          min s (rem.length / bytesPerSample d.bitDepth))) s w dec
        (by simpa using hfmt) (by simpa using hunsup) (by simp)
        (by simpa using hok) (by simpa using hdvd') hs
        (by simp; omega)
      rw [ih']
      simp only [List.length_drop]
      exact (alignedDecode_split (bytesPerSample d.bitDepth) dec hw
        (min s (rem.length / bytesPerSample d.bitDepth)) rem (rem.length + 1) _ _
        htmple (by omega) (by omega) (by omega)).symm

theorem capTake_length_le (fact delivered : ℕ) (l : List ℚ) :
    (capTake fact delivered l).length ≤ l.length := by
  unfold capTake
  split_ifs <;> simp

theorem fullPCMBufferM_uncomp (d : DecState) (rem : List ℕ) (w : ℕ) (dec : List ℕ → ℚ)
    (hfmt : ¬d.wavAudioFormat = wavFormatGSM610)
    (hunsup : isUnsupportedCompressedFormat d.wavAudioFormat = false)
    (hchunk : d.pcmChunk = some rem)
    (hok : sampleDecodeFloat32M d.bitDepth d.wavAudioFormat = .ok (w, dec))
    (hdvd : bytesPerSample d.bitDepth ∣ rem.length) :
    fullPCMBufferM d =
      .ok (alignedDecode (bytesPerSample d.bitDepth) dec (rem.length + 1) rem) := by
  simp [fullPCMBufferM, hchunk, hfmt, hunsup, hok]
  exact bulkDecode_aligned (bytesPerSample d.bitDepth) dec (bytesPerSample_pos _)
    (rem.length + 1) rem _ hdvd

theorem fullPCMBufferM_gsm (d : DecState) (rem : List ℕ)
    (hfmt : d.wavAudioFormat = wavFormatGSM610) (hchunk : d.pcmChunk = some rem) :
    fullPCMBufferM d =
      .ok (gsmRemOut (GsmStreamState.mk newGSMState [] 0 d.compressedSamples) rem) := by
  have hbulk := decodeAllBlocksM_spec newGSMState rem d.compressedSamples
    (by simp [newGSMState])
  simp [fullPCMBufferM, hchunk, hfmt, hbulk, gsmRemOut]

end Wav

/-- C1 (amended): repeatedly calling the streaming decode `PCMBuffer`
until it returns 0 yields exactly the same sample sequence as a single
bulk `FullPCMBuffer` call, for every caller buffer size ≥ 1, in each of
these cases: (a) an uncompressed format (any format/bit-depth pair the
sample-decode dispatch accepts) whose data-chunk byte count is a multiple
of the sample width — the original claim fails on misaligned trailing
bytes, see the counterexample; and (b) GSM 6.10 on a fresh session, for
every input and every buffer size ≥ 1, fact-chunk cap included. -/
theorem C1_amended (d : Wav.DecState) (bytes : List ℕ) (s fuel : ℕ)
    (hchunk : d.pcmChunk = some bytes)
    (hs : 1 ≤ s)
    (hfuel : 5 * bytes.length + 1 ≤ fuel)
    (hmode :
      (¬d.wavAudioFormat = Wav.wavFormatGSM610 ∧
        Wav.isUnsupportedCompressedFormat d.wavAudioFormat = false ∧
        (∃ w dec, Wav.sampleDecodeFloat32M d.bitDepth d.wavAudioFormat = .ok (w, dec)) ∧
        Wav.bytesPerSample d.bitDepth ∣ bytes.length) ∨
      (d.wavAudioFormat = Wav.wavFormatGSM610 ∧ d.gsmDec = none)) :
    Wav.fullPCMBufferM d = .ok (Wav.pcmStreamAll fuel d s) := by
  rcases hmode with ⟨hfmt, hunsup, ⟨w, dec, hok⟩, hdvd⟩ | ⟨hfmt, hnone⟩
  · rw [Wav.fullPCMBufferM_uncomp d bytes w dec hfmt hunsup hchunk hok hdvd,
      Wav.pcmStreamAll_uncomp fuel d bytes s w dec hfmt hunsup hchunk hok hdvd hs (by omega)]
  · have hg0 : (Wav.GsmStreamState.mk Wav.newGSMState [] 0
        d.compressedSamples).g.dp0.length = 280 := by
      simp [Wav.newGSMState]
    have hlen : (Wav.gsmRemOut (Wav.GsmStreamState.mk Wav.newGSMState [] 0
        d.compressedSamples) bytes).length < fuel := by
      have h1 := Wav.gsmChunks_length_le bytes.length Wav.newGSMState bytes
        (by simp [Wav.newGSMState])
      have h2 := Wav.capTake_length_le d.compressedSamples 0
        (([] : List ℚ) ++ Wav.gsmChunks bytes.length Wav.newGSMState bytes)
      unfold Wav.gsmRemOut
      simp only [List.nil_append] at h2 ⊢
      omega
    rw [Wav.pcmStreamAll_gsm fuel d _ bytes s hfmt hchunk (Or.inr ⟨hnone, rfl⟩) hg0 hs hlen,
      Wav.fullPCMBufferM_gsm d bytes hfmt hchunk]

theorem C1_amended_witness :
    (Wav.DecState.mk 1 16 1 8000 0 (some [1, 0, 2, 0]) false none).pcmChunk =
      some [1, 0, 2, 0] ∧
    (1 : ℕ) ≤ 1 ∧
    5 * ([1, 0, 2, 0] : List ℕ).length + 1 ≤ 21 ∧
    ((¬(Wav.DecState.mk 1 16 1 8000 0 (some [1, 0, 2, 0]) false none).wavAudioFormat =
        Wav.wavFormatGSM610 ∧
      Wav.isUnsupportedCompressedFormat
        (Wav.DecState.mk 1 16 1 8000 0 (some [1, 0, 2, 0]) false none).wavAudioFormat = false ∧
      (∃ w dec, Wav.sampleDecodeFloat32M
        (Wav.DecState.mk 1 16 1 8000 0 (some [1, 0, 2, 0]) false none).bitDepth
        (Wav.DecState.mk 1 16 1 8000 0 (some [1, 0, 2, 0]) false none).wavAudioFormat =
          .ok (w, dec)) ∧
      Wav.bytesPerSample
        (Wav.DecState.mk 1 16 1 8000 0 (some [1, 0, 2, 0]) false none).bitDepth ∣
        ([1, 0, 2, 0] : List ℕ).length) ∨
      ((Wav.DecState.mk 1 16 1 8000 0 (some [1, 0, 2, 0]) false none).wavAudioFormat =
        Wav.wavFormatGSM610 ∧
        (Wav.DecState.mk 1 16 1 8000 0 (some [1, 0, 2, 0]) false none).gsmDec = none)) ∧
    Wav.fullPCMBufferM (Wav.DecState.mk 1 16 1 8000 0 (some [1, 0, 2, 0]) false none) =
      .ok (Wav.pcmStreamAll 21 (Wav.DecState.mk 1 16 1 8000 0 (some [1, 0, 2, 0]) false none) 1) :=
  ⟨rfl, le_rfl, by decide,
    Or.inl ⟨by decide, by decide, ⟨2, _, rfl⟩, by decide⟩,
    C1_amended (Wav.DecState.mk 1 16 1 8000 0 (some [1, 0, 2, 0]) false none) [1, 0, 2, 0] 1 21
      rfl le_rfl (by decide) (Or.inl ⟨by decide, by decide, ⟨2, _, rfl⟩, by decide⟩)⟩

/-! ## The encoder (part_004): writer model, header/fmt/data serialization,
and `Close`'s size-field patching.

The embedding covers encoder sessions whose `Metadata` and `FmtChunk`
pointers are nil (the plain `NewEncoder` configuration): the `Metadata`
branches of `Close` and the `FmtChunk` overrides of `buildFmtChunkForWrite`
collapse, so those fields are not carried in the state. -/

namespace Wav

/-- Two little-endian bytes of a `uint16`. -/
def le16N (n : ℕ) : List ℕ := [n % 256, n / 256 % 256]

/-- Eight little-endian bytes of a `uint64`/`float64` bit pattern. -/
def le64N (n : ℕ) : List ℕ :=
  [n % 256, n / 256 % 256, n / 65536 % 256, n / 16777216 % 256,
   n / 4294967296 % 256, n / 1099511627776 % 256,
   n / 281474976710656 % 256, n / 72057594037927936 % 256]

/-- Binary normalization loop for the float bit-image functions: halve `p`
(recording the shift count) until it fits in `mbits + 1` bits; a shifted-out
one bit means the value needs more than `mbits + 1` mantissa bits, i.e. is
not representable at this exponent. -/
def floatNormLoop (mbits : ℕ) : ℕ → ℕ → ℕ → Option (ℕ × ℕ)
  | 0, _, _ => none
  | fuel + 1, p, k =>
    if p < 2 ^ (mbits + 1) then some (p, k)
    else if p % 2 = 1 then none
    else floatNormLoop mbits fuel (p / 2) (k + 1)

/-- `math.Float32bits` under this file's exact-rational float convention: a
Go `float32` value is an exact rational, and this returns the IEEE-754
binary32 bit image of a finite representable value (the only values the
convention produces); rationals that are not finite binary32 values map to
the bit pattern 0 by convention. -/
def float32BitsQ (x : ℚ) : ℕ :=
  if x = 0 then 0
  else
    let s : ℕ := if x < 0 then 2 ^ 31 else 0
    let n : ℚ := |x| * (2 : ℚ) ^ (149 : ℕ)
    if n.den = 1 then
      match floatNormLoop 23 300 n.num.toNat 0 with
      | none => 0
      | some (m, k) =>
        if k = 0 ∧ m < 2 ^ 23 then s + m
        else if k + 1 ≤ 254 ∧ 2 ^ 23 ≤ m then s + (k + 1) * 2 ^ 23 + (m - 2 ^ 23)
        else 0
    else 0

/-- `math.Float64bits` under the exact-rational convention; see
`float32BitsQ`. -/
def float64BitsQ (x : ℚ) : ℕ :=
  if x = 0 then 0
  else
    let s : ℕ := if x < 0 then 2 ^ 63 else 0
    let n : ℚ := |x| * (2 : ℚ) ^ (1074 : ℕ)
    if n.den = 1 then
      match floatNormLoop 52 2200 n.num.toNat 0 with
      | none => 0
      | some (m, k) =>
        if k = 0 ∧ m < 2 ^ 52 then s + m
        else if k + 1 ≤ 2046 ∧ 2 ^ 52 ≤ m then s + (k + 1) * 2 ^ 52 + (m - 2 ^ 52)
        else 0
    else 0

/-- The encoder's `io.WriteSeeker`: a byte store plus a write position.
`Write` overwrites at the position (zero-filling any gap past the end, as a
file would) and advances it; `Seek` moves it. -/
structure WriterM where
  data : List ℕ
  pos : ℕ
deriving DecidableEq, Repr

/-- Overwrite semantics of a positioned write into a byte store. -/
def overwriteAt (data : List ℕ) (pos : ℕ) (bs : List ℕ) : List ℕ :=
  data.take pos ++ List.replicate (pos - data.length) 0 ++ bs ++
    data.drop (pos + bs.length)

def writerWrite (w : WriterM) (bs : List ℕ) : WriterM :=
  ⟨overwriteAt w.data w.pos bs, w.pos + bs.length⟩

/-- `Seek(p, 0)`: absolute seek. -/
def writerSeekTo (w : WriterM) (p : ℕ) : WriterM := ⟨w.data, p⟩

/-- `Seek(0, 2)`: seek to end. -/
def writerSeekEnd (w : WriterM) : WriterM := ⟨w.data, w.data.length⟩

/-- The encoder error values of part_004. -/
inductive EncErr where
  | nilBuffer
  | alreadyWroteHdr
  | nilWriter
  | encUnsupportedFloatBitDepth (depth : ℕ)
  | encUnsupportedALawBitDepth (depth : ℕ)
  | encUnsupportedMuLawBitDepth (depth : ℕ)
  | encUnsupportedWavFormat (tag : ℕ)
  | unsupportedFrameBitSize (depth : ℕ)
deriving DecidableEq, Repr

/-- `Encoder` (nil `Metadata`/`FmtChunk` configuration): the writer (`none`
models a nil `w`), the format parameters, the preserved unknown chunks, and
the book-keeping fields. -/
structure EncState where
  w : Option WriterM
  sampleRate : ℕ
  bitDepth : ℕ
  numChans : ℕ
  wavAudioFormat : ℕ
  unknownChunks : List RawChunkM
  writtenBytes : ℕ
  frames : ℕ
  pcmChunkStarted : Bool
  pcmChunkSizePos : ℕ
  wroteHeader : Bool
  wroteUnknownPre : Bool
  wroteUnknownPost : Bool
deriving DecidableEq, Repr

/-- `NewEncoder`: fresh session over a writer. -/
def newEncoderM (w : Option WriterM) (sampleRate bitDepth numChans audioFormat : ℕ) :
    EncState :=
  ⟨w, sampleRate, bitDepth, numChans, audioFormat, [], 0, 0, false, 0, false, false, false⟩

/-- `Encoder.AddLE`/`AddBE` on a fully serialized value: `WrittenBytes`
grows by `binary.Size`, then the bytes land at the writer's position.
(Byte order is already folded into `bs`; for the byte-array chunk IDs the
two are identical.) -/
def addLEM (e : EncState) (bs : List ℕ) : EncState :=
  { e with
    writtenBytes := e.writtenBytes + bs.length
    w := e.w.map (fun wr => writerWrite wr bs) }

/-- `Encoder.writeUnknownChunks`: emit the matching group's rendered bytes
(`writeRawChunk` per chunk: big-endian ID, LE size, payload, pad — exactly
`renderRawChunk`), counting them into `WrittenBytes`. -/
def writeUnknownChunksEncM (e : EncState) (beforeData : Bool) : EncState :=
  addLEM e (writeUnknownChunksM e.unknownChunks beforeData)

/-- Modelled from the spec: `riff.RiffID` = "RIFF" (external riff package). -/
def riffIdBytes : List ℕ := [0x52, 0x49, 0x46, 0x46]

/-- Modelled from the spec: `riff.WavFormatID` = "WAVE". -/
def waveIdBytes : List ℕ := [0x57, 0x41, 0x56, 0x45]

/-- Modelled from the spec: `riff.FmtID` = "fmt ". -/
def fmtIdBytes : List ℕ := [0x66, 0x6D, 0x74, 0x20]

/-- Modelled from the spec: the `WAVE_FORMAT_EXTENSIBLE` sentinel 0xFFFE
(the constant's defining file is not under src/; decoder_test.go asserts
the tag is 0xFFFE). -/
def wavFormatExtensible : ℕ := 0xFFFE

/-- `makeSubFormatGUID` (part_013): four LE bytes of the tag, then the
fixed KSDATAFORMAT tail bytes. -/
def makeSubFormatGUIDM (formatTag : ℕ) : List ℕ :=
  [formatTag % 256, formatTag / 256 % 256, 0, 0,
   0x00, 0x00, 0x10, 0x00, 0x80, 0x00, 0x00, 0xAA, 0x00, 0x38, 0x9B, 0x71]

/-- `Encoder.writeFmtChunk` with `buildFmtChunkForWrite` in the nil
`FmtChunk` configuration: `FormatTag = uint16(WavAudioFormat)`, the
derived rate/align/bits fields, and — when the tag is the extensible
sentinel — the 22-byte extension (`ValidBitsPerSample = BitDepth`, zero
`ChannelMask`, `SubFormat` GUID of `effectiveAudioFormat`, no extra
data). -/
def writeFmtChunkM (e : EncState) : EncState :=
  let blockAlign := e.numChans * bytesPerSample e.bitDepth
  let formatTag := e.wavAudioFormat % 65536
  let needsExtensible := formatTag = wavFormatExtensible
  let e1 := if needsExtensible then addLEM e (le32N 40) else addLEM e (le32N 16)
  let e2 := addLEM e1 (le16N formatTag)
  let e3 := addLEM e2 (le16N (e.numChans % 65536))
  let e4 := addLEM e3 (le32N (e.sampleRate % 4294967296))
  let e5 := addLEM e4 (le32N (e.sampleRate * blockAlign % 4294967296))
  let e6 := addLEM e5 (le16N (blockAlign % 65536))
  let e7 := addLEM e6 (le16N (e.bitDepth % 65536))
  if needsExtensible then
    let e8 := addLEM e7 (le16N 22)
    let e9 := addLEM e8 (le16N (e.bitDepth % 65536))
    let e10 := addLEM e9 (le32N 0)
    addLEM e10 (makeSubFormatGUIDM formatTag)
  else e7

/-- `Encoder.writeHeader`: refuse a second call, mark the header written,
refuse a nil writer, skip serialization when bytes were already written,
else emit "RIFF", the 0xFFFFFFFF size placeholder, "WAVE", "fmt " and the
fmt chunk. -/
def writeHeaderM (e : EncState) : EncState × Option EncErr :=
  if e.wroteHeader then (e, some .alreadyWroteHdr)
  else
    let e1 := { e with wroteHeader := true }
    match e1.w with
    | none => (e1, some .nilWriter)
    | some _ =>
      if 0 < e1.writtenBytes then (e1, none)
      else
        let e2 := addLEM e1 riffIdBytes
        let e3 := addLEM e2 (le32N 4294967295)
        let e4 := addLEM e3 waveIdBytes
        let e5 := addLEM e4 fmtIdBytes
        (writeFmtChunkM e5, none)

/-- One sample's serialized bytes in `Encoder.addBuffer` (nil `FmtChunk`,
so `effectiveAudioFormat` is `WavAudioFormat`): IEEE float 32/64 after
clamping to [-1, 1], A-law/mu-law companding of the 16-bit quantization,
or plain PCM at 8/16/24/32 bits. Which branch is taken — and hence whether
an error occurs — depends only on the format and bit depth, not on the
sample value. -/
def sampleEncM (audioFormat bitDepth : ℕ) (val : ℚ) : Except EncErr (List ℕ) :=
  if audioFormat = wavFormatIEEEFloat then
    if bitDepth = 32 then .ok (le32N (float32BitsQ (clampFloat32 val (-1) 1)))
    else if bitDepth = 64 then .ok (le64N (float64BitsQ (clampFloat32 val (-1) 1)))
    else .error (.encUnsupportedFloatBitDepth bitDepth)
  else if audioFormat = wavFormatALaw then
    if bitDepth = 8 then .ok [encodeALawSample (wrap16 (float32ToPCMInt32 val 16))]
    else .error (.encUnsupportedALawBitDepth bitDepth)
  else if audioFormat = wavFormatMuLaw then
    if bitDepth = 8 then .ok [encodeMuLawSample (wrap16 (float32ToPCMInt32 val 16))]
    else .error (.encUnsupportedMuLawBitDepth bitDepth)
  else if audioFormat = wavFormatPCM then
    if bitDepth = 8 then .ok [float32ToPCMUint8 val]
    else if bitDepth = 16 then .ok (le16Bytes (float32ToPCMInt32 val 16))
    else if bitDepth = 24 then .ok (le24Bytes (float32ToPCMInt32 val 24))
    else if bitDepth = 32 then .ok (le32Bytes (float32ToPCMInt32 val 32))
    else .error (.unsupportedFrameBitSize bitDepth)
  else .error (.encUnsupportedWavFormat audioFormat)

/-- The sample loop of `addBuffer` over the consumed samples, collecting
the staging-buffer bytes or the first error. -/
def collectEncM (audioFormat bitDepth : ℕ) : List ℚ → Except EncErr (List ℕ)
  | [] => .ok []
  | v :: rest =>
    match sampleEncM audioFormat bitDepth v with
    | .error err => .error err
    | .ok bs =>
      match collectEncM audioFormat bitDepth rest with
      | .error err => .error err
      | .ok bss => .ok (bs ++ bss)

/-- Modelled from the spec: `audio.Float32Buffer.NumFrames` of the external
go-audio package — data length divided by the channel count (a zero channel
count is treated as one). -/
def numFramesM (bufChans : ℕ) (data : List ℚ) : ℕ :=
  data.length / (if bufChans = 0 then 1 else bufChans)

/-- `Encoder.addBuffer` on a buffer of `bufChans` channels: nil buffer is
an error; otherwise the first `NumFrames * bufChans` samples are staged and
flushed in one write, `frames` grows by the frame count and `WrittenBytes`
by the byte count. An encoding error leaves the encoder untouched: the
error branch is decided by format and depth alone, so it fires at the very
first sample, before any frame is counted, and the staged bytes are never
flushed to the writer. -/
def addBufferM (e : EncState) (buf : Option (ℕ × List ℚ)) :
    EncState × Option EncErr :=
  match buf with
  | none => (e, some .nilBuffer)
  | some (bufChans, data) =>
    let frameCount := numFramesM bufChans data
    match collectEncM e.wavAudioFormat e.bitDepth (data.take (frameCount * bufChans)) with
    | .error err => (e, some err)
    | .ok bytes => (addLEM { e with frames := e.frames + frameCount } bytes, none)

/-- `Encoder.Write`: header on first use, then — once — the pre-data
unknown chunks, the "data" ID, the recorded `pcmChunkSizePos` and the
0xFFFFFFFF chunk-size placeholder, then `addBuffer`. -/
def writeM (e : EncState) (buf : Option (ℕ × List ℚ)) :
    EncState × Option EncErr :=
  match (if e.wroteHeader then (e, none) else writeHeaderM e) with
  | (e1, some err) => (e1, some err)
  | (e1, none) =>
    let e4 :=
      if e1.pcmChunkStarted then e1
      else
        let e2 :=
          if e1.wroteUnknownPre then e1
          else { (writeUnknownChunksEncM e1 true) with wroteUnknownPre := true }
        let e3 := addLEM e2 cidData
        addLEM { e3 with
                 pcmChunkStarted := true
                 pcmChunkSizePos := e3.writtenBytes } (le32N 4294967295)
    addBufferM e4 buf

/-- `Encoder.Close` (nil `Metadata` configuration). A nil encoder or nil
writer returns immediately with no error and no effect. Otherwise: header
if unwritten and unknown chunks are pending, then the unflushed unknown
chunk groups, then seek to offset 4 and `AddLE(uint32(WrittenBytes) - 8)`
(the argument is evaluated before `AddLE` itself adds 4), then — when a
data chunk was started — seek to `pcmChunkSizePos` and write
`uint32((BitDepth / 8) * NumChans * frames)`, then seek back to the end. -/
def closeM (oe : Option EncState) : Option EncState × Option EncErr :=
  match oe with
  | none => (none, none)
  | some e =>
    match e.w with
    | none => (some e, none)
    | some _ =>
      match (if ¬e.wroteHeader ∧ e.unknownChunks ≠ [] then writeHeaderM e
             else (e, none)) with
      | (e1, some err) => (some e1, some err)
      | (e1, none) =>
        let e2 :=
          if e1.wroteUnknownPre then e1
          else { (writeUnknownChunksEncM e1 true) with wroteUnknownPre := true }
        let e3 :=
          if e2.wroteUnknownPost then e2
          else { (writeUnknownChunksEncM e2 false) with wroteUnknownPost := true }
        let e4 := { e3 with w := e3.w.map (fun wr => writerSeekTo wr 4) }
        let e5 := addLEM e4
          (le32N ((e4.writtenBytes % 4294967296 + 4294967296 - 8) % 4294967296))
        let e6 :=
          if 0 < e5.pcmChunkSizePos then
            addLEM { e5 with w := e5.w.map (fun wr => writerSeekTo wr e5.pcmChunkSizePos) }
              (le32N ((e5.bitDepth / 8 * e5.numChans * e5.frames) % 4294967296))
          else e5
        (some { e6 with w := e6.w.map writerSeekEnd }, none)

end Wav

namespace Wav

theorem le32N_length (n : ℕ) : (le32N n).length = 4 := rfl

theorem writeUnknownChunksM_nil (b : Bool) : writeUnknownChunksM [] b = [] := rfl

/-- A zero-length write at the end of the store is a no-op. -/
theorem writerWrite_nil (wr : WriterM) (h : wr.pos = wr.data.length) :
    writerWrite wr [] = wr := by
  obtain ⟨data, pos⟩ := wr
  replace h : pos = data.length := h
  subst h
  unfold writerWrite overwriteAt
  simp

/-- An in-bounds overwrite keeps the store length. -/
theorem overwriteAt_length (data bs : List ℕ) (pos : ℕ)
    (h : pos + bs.length ≤ data.length) :
    (overwriteAt data pos bs).length = data.length := by
  unfold overwriteAt
  simp only [List.length_append, List.length_take, List.length_replicate,
    List.length_drop]
  omega

/-- Bytes strictly before an in-bounds overwrite are untouched. -/
theorem overwriteAt_prefix (data bs : List ℕ) (pos q : ℕ) (hq : q ≤ pos)
    (hp : pos ≤ data.length) :
    (overwriteAt data pos bs).take q = data.take q := by
  unfold overwriteAt
  rw [show pos - data.length = 0 from by omega, List.replicate_zero,
    List.append_nil,
    List.take_append_of_le_length
      (by simp only [List.length_append, List.length_take]; omega),
    List.take_append_of_le_length (by rw [List.length_take]; omega),
    List.take_take, min_eq_left hq]

/-- Reading back the overwritten span yields the written bytes. -/
theorem overwriteAt_slice (data bs : List ℕ) (pos : ℕ) (hp : pos ≤ data.length) :
    ((overwriteAt data pos bs).drop pos).take bs.length = bs := by
  unfold overwriteAt
  rw [show pos - data.length = 0 from by omega, List.replicate_zero,
    List.append_nil, List.drop_append_eq_append_drop,
    List.drop_append_eq_append_drop,
    List.drop_of_length_le (by rw [List.length_take]; omega),
    show pos - (data.take pos).length = 0 from by rw [List.length_take]; omega,
    List.drop_zero, List.nil_append]
  exact List.take_left bs _

/-- A slice that ends before the overwrite position is untouched. -/
theorem overwriteAt_slice_of_le (data bs : List ℕ) (pos q k : ℕ)
    (h : q + k ≤ pos) (hp : pos ≤ data.length) :
    ((overwriteAt data pos bs).drop q).take k = (data.drop q).take k := by
  have e1 : ∀ l : List ℕ, (l.take (q + k)).drop q = (l.drop q).take k := by
    intro l
    rw [List.drop_take]
    congr 1
    omega
  rw [← e1, ← e1, overwriteAt_prefix data bs pos (q + k) h hp]

/-- The writer after `Close`'s patch sequence on a session whose flushes
wrote nothing: seek to 4, write the wrapped `wb - 8` size field, seek to
the data-chunk size position `p`, write the wrapped chunk size `ck`, seek
to the end. -/
def patchedWriter (wr : WriterM) (wb p ck : ℕ) : WriterM :=
  writerSeekEnd (writerWrite (writerSeekTo
    (writerWrite (writerSeekTo wr 4)
      (le32N ((wb % 4294967296 + 4294967296 - 8) % 4294967296)))
    p) (le32N (ck % 4294967296)))

/-- `Close` on a session with no unknown chunks and an append-positioned
writer: both flush steps are no-ops on the bytes, the two patch `AddLE`s
land at offset 4 and at `pcmChunkSizePos`, `WrittenBytes` grows by the 8
patched bytes, and the writer ends seeked to the end. -/
theorem closeM_spec (e : EncState) (wr : WriterM)
    (hw : e.w = some wr) (hnc : e.unknownChunks = [])
    (hend : wr.pos = wr.data.length) (hpos0 : 0 < e.pcmChunkSizePos) :
    closeM (some e) = (some { e with
      w := some (patchedWriter wr e.writtenBytes e.pcmChunkSizePos
        (e.bitDepth / 8 * e.numChans * e.frames)),
      writtenBytes := e.writtenBytes + 4 + 4,
      wroteUnknownPre := true,
      wroteUnknownPost := true }, none) := by
  obtain ⟨w, sr, bd, nc, ft, cks, wb, fr, pst, pcsp, wh, pre, post⟩ := e
  replace hw : w = some wr := hw
  replace hnc : cks = [] := hnc
  replace hpos0 : 0 < pcsp := hpos0
  subst hw
  subst hnc
  cases pre <;> cases post <;>
    simp [closeM, patchedWriter, writeUnknownChunksEncM, addLEM,
      writeUnknownChunksM_nil, writerWrite_nil wr hend, hpos0, le32N_length]

theorem patchedWriter_pos (wr : WriterM) (wb p ck : ℕ) :
    (patchedWriter wr wb p ck).pos = (patchedWriter wr wb p ck).data.length := rfl

theorem patchedWriter_length (wr : WriterM) (wb p ck : ℕ)
    (hpos : 8 ≤ p) (hfit : p + 4 ≤ wr.data.length) :
    (patchedWriter wr wb p ck).data.length = wr.data.length := by
  have h1 : (overwriteAt wr.data 4
      (le32N ((wb % 4294967296 + 4294967296 - 8) % 4294967296))).length
      = wr.data.length :=
    overwriteAt_length _ _ _ (by rw [le32N_length]; omega)
  show (overwriteAt (overwriteAt wr.data 4
      (le32N ((wb % 4294967296 + 4294967296 - 8) % 4294967296))) p (le32N (ck % 4294967296))).length = wr.data.length
  rw [overwriteAt_length _ _ _ (by rw [le32N_length, h1]; omega), h1]

/-- The patched store still holds the container-size field at offset 4. -/
theorem patchedWriter_slice4 (wr : WriterM) (wb p ck : ℕ)
    (hpos : 8 ≤ p) (hfit : p + 4 ≤ wr.data.length) :
    ((patchedWriter wr wb p ck).data.drop 4).take 4 =
      le32N ((wb % 4294967296 + 4294967296 - 8) % 4294967296) := by
  have h1 : (overwriteAt wr.data 4
      (le32N ((wb % 4294967296 + 4294967296 - 8) % 4294967296))).length
      = wr.data.length :=
    overwriteAt_length _ _ _ (by rw [le32N_length]; omega)
  show ((overwriteAt (overwriteAt wr.data 4
      (le32N ((wb % 4294967296 + 4294967296 - 8) % 4294967296))) p (le32N (ck % 4294967296))).drop 4).take 4 = _
  rw [overwriteAt_slice_of_le _ _ p 4 4 (by omega) (by rw [h1]; omega)]
  have hs := overwriteAt_slice wr.data
    (le32N ((wb % 4294967296 + 4294967296 - 8) % 4294967296)) 4 (by omega)
  rw [le32N_length] at hs
  exact hs

/-- The patched store holds the data-chunk size field at `p`. -/
theorem patchedWriter_sliceP (wr : WriterM) (wb p ck : ℕ)
    (hpos : 8 ≤ p) (hfit : p + 4 ≤ wr.data.length) :
    ((patchedWriter wr wb p ck).data.drop p).take 4 = le32N (ck % 4294967296) := by
  have h1 : (overwriteAt wr.data 4
      (le32N ((wb % 4294967296 + 4294967296 - 8) % 4294967296))).length
      = wr.data.length :=
    overwriteAt_length _ _ _ (by rw [le32N_length]; omega)
  show ((overwriteAt (overwriteAt wr.data 4
      (le32N ((wb % 4294967296 + 4294967296 - 8) % 4294967296))) p (le32N (ck % 4294967296))).drop p).take 4 = _
  have hs := overwriteAt_slice
    (overwriteAt wr.data 4
      (le32N ((wb % 4294967296 + 4294967296 - 8) % 4294967296)))
    (le32N (ck % 4294967296)) p (by rw [h1]; omega)
  rw [le32N_length] at hs
  exact hs

/-- `Close` on a nil writer is an error-free no-op. -/
theorem closeM_nilWriter (e : EncState) (hw : e.w = none) :
    closeM (some e) = (some e, none) := by
  simp only [closeM, hw]

/-- Closing twice: the first `Close` patches the size field to `wb - 8`
but its two patch writes inflate `WrittenBytes` to `wb + 8`, so the second
`Close` succeeds yet rewrites the field at offset 4 to `wb` — the output
changes. -/
theorem closeM_twice (e : EncState) (wr : WriterM)
    (hw : e.w = some wr) (hnc : e.unknownChunks = [])
    (hend : wr.pos = wr.data.length)
    (hpos : 8 ≤ e.pcmChunkSizePos)
    (hfit : e.pcmChunkSizePos + 4 ≤ wr.data.length)
    (hwb8 : 8 ≤ e.writtenBytes) (hwb : e.writtenBytes + 8 < 4294967296) :
    ∃ e' wr' e'' wr'',
      closeM (some e) = (some e', none) ∧ e'.w = some wr' ∧
      e'.writtenBytes = e.writtenBytes + 8 ∧
      closeM (some e') = (some e'', none) ∧ e''.w = some wr'' ∧
      (wr'.data.drop 4).take 4 = le32N (e.writtenBytes - 8) ∧
      (wr''.data.drop 4).take 4 = le32N e.writtenBytes ∧
      le32N e.writtenBytes ≠ le32N (e.writtenBytes - 8) := by
  have hm1 := closeM_spec e wr hw hnc hend (by omega)
  have hfit2 : e.pcmChunkSizePos + 4 ≤
      (patchedWriter wr e.writtenBytes e.pcmChunkSizePos
        (e.bitDepth / 8 * e.numChans * e.frames)).data.length := by
    rw [patchedWriter_length wr _ _ _ hpos hfit]
    exact hfit
  have hm2 := closeM_spec
    { e with
      w := some (patchedWriter wr e.writtenBytes e.pcmChunkSizePos
        (e.bitDepth / 8 * e.numChans * e.frames))
      writtenBytes := e.writtenBytes + 4 + 4
      wroteUnknownPre := true
      wroteUnknownPost := true }
    (patchedWriter wr e.writtenBytes e.pcmChunkSizePos
      (e.bitDepth / 8 * e.numChans * e.frames))
    rfl hnc (patchedWriter_pos _ _ _ _) (show 0 < e.pcmChunkSizePos by omega)
  refine ⟨_, _, _, _, hm1, rfl,
    show e.writtenBytes + 4 + 4 = e.writtenBytes + 8 by omega, hm2, rfl, ?_, ?_, ?_⟩
  · rw [patchedWriter_slice4 wr e.writtenBytes e.pcmChunkSizePos
      (e.bitDepth / 8 * e.numChans * e.frames) hpos hfit,
      show (e.writtenBytes % 4294967296 + 4294967296 - 8) % 4294967296 =
        e.writtenBytes - 8 from by omega]
  · show ((patchedWriter
        (patchedWriter wr e.writtenBytes e.pcmChunkSizePos
          (e.bitDepth / 8 * e.numChans * e.frames))
        (e.writtenBytes + 4 + 4) e.pcmChunkSizePos
        (e.bitDepth / 8 * e.numChans * e.frames)).data.drop 4).take 4 =
      le32N e.writtenBytes
    rw [patchedWriter_slice4
      (patchedWriter wr e.writtenBytes e.pcmChunkSizePos
        (e.bitDepth / 8 * e.numChans * e.frames))
      (e.writtenBytes + 4 + 4) e.pcmChunkSizePos
      (e.bitDepth / 8 * e.numChans * e.frames) hpos hfit2,
      show ((e.writtenBytes + 4 + 4) % 4294967296 + 4294967296 - 8) % 4294967296 =
        e.writtenBytes from by omega]
  · intro h
    simp only [le32N, List.cons.injEq, and_true] at h
    omega

end Wav

namespace Wav

/-- A concrete 16-bit mono PCM session directly after `Write` with an
empty buffer: header and data header on the wire, both size fields still
the 0xFFFFFFFF placeholders, append position 44. -/
def encDemoWriter : WriterM :=
  ⟨[82, 73, 70, 70, 255, 255, 255, 255, 87, 65, 86, 69, 102, 109, 116, 32,
    16, 0, 0, 0, 1, 0, 1, 0, 64, 31, 0, 0, 128, 62, 0, 0, 2, 0, 16, 0,
    100, 97, 116, 97, 255, 255, 255, 255], 44⟩

/-- The encoder state owning `encDemoWriter` after that `Write`. -/
def encDemoWritten : EncState :=
  ⟨some encDemoWriter, 8000, 16, 1, 1, [], 44, 0, true, 40, true, true, false⟩

/-- `encDemoWritten` after one `Close`: both size fields patched
(container size 36 at offset 4, data chunk size 0 at offset 40), and
`WrittenBytes` inflated from 44 to 52 by the two patch writes. -/
def encDemoClosed : EncState :=
  ⟨some ⟨[82, 73, 70, 70, 36, 0, 0, 0, 87, 65, 86, 69, 102, 109, 116, 32,
    16, 0, 0, 0, 1, 0, 1, 0, 64, 31, 0, 0, 128, 62, 0, 0, 2, 0, 16, 0,
    100, 97, 116, 97, 0, 0, 0, 0], 44⟩,
   8000, 16, 1, 1, [], 52, 0, true, 40, true, true, true⟩

end Wav

/-- C7: for an encoder session on which the data chunk was started (the
two placeholder offsets 4 and `pcmChunkSizePos` are recorded, the writer
sits at the end of its bytes, no unknown chunks are pending, and the
byte counts are in the `uint32` range), `Close` returns no error, seeks
back and writes the total container size field at offset 4 as
`WrittenBytes - 8`, writes the audio-data chunk size field at
`pcmChunkSizePos` as `(BitDepth / 8) * NumChans * frames`, leaves every
other byte count unchanged, and reseeks to the end. -/
theorem C7_close_patches (e : Wav.EncState) (wr : Wav.WriterM)
    (hw : e.w = some wr) (hnc : e.unknownChunks = [])
    (hend : wr.pos = wr.data.length)
    (hpos : 8 ≤ e.pcmChunkSizePos)
    (hfit : e.pcmChunkSizePos + 4 ≤ wr.data.length)
    (hwb8 : 8 ≤ e.writtenBytes) (hwb : e.writtenBytes < 4294967296)
    (hck : e.bitDepth / 8 * e.numChans * e.frames < 4294967296) :
    ∃ e' wr', Wav.closeM (some e) = (some e', none) ∧ e'.w = some wr' ∧
      (wr'.data.drop 4).take 4 = Wav.le32N (e.writtenBytes - 8) ∧
      (wr'.data.drop e.pcmChunkSizePos).take 4 =
        Wav.le32N (e.bitDepth / 8 * e.numChans * e.frames) ∧
      wr'.pos = wr'.data.length ∧ wr'.data.length = wr.data.length := by
  have hm := Wav.closeM_spec e wr hw hnc hend (by omega)
  refine ⟨_, _, hm, rfl, ?_, ?_, Wav.patchedWriter_pos _ _ _ _,
    Wav.patchedWriter_length wr e.writtenBytes e.pcmChunkSizePos
      (e.bitDepth / 8 * e.numChans * e.frames) hpos hfit⟩
  · rw [Wav.patchedWriter_slice4 wr e.writtenBytes e.pcmChunkSizePos
      (e.bitDepth / 8 * e.numChans * e.frames) hpos hfit,
      show (e.writtenBytes % 4294967296 + 4294967296 - 8) % 4294967296 =
        e.writtenBytes - 8 from by omega]
  · rw [Wav.patchedWriter_sliceP wr e.writtenBytes e.pcmChunkSizePos
      (e.bitDepth / 8 * e.numChans * e.frames) hpos hfit,
      Nat.mod_eq_of_lt hck]

/-- C7 witness: a session reached by `Write` on a fresh 16-bit mono PCM
encoder satisfies every hypothesis, and `Close` patches its two size
fields as claimed. -/
theorem C7_close_patches_witness :
    Wav.writeM (Wav.newEncoderM (some ⟨[], 0⟩) 8000 16 1 1) (some (1, ([] : List ℚ))) =
      (Wav.encDemoWritten, none) ∧
    Wav.encDemoWritten.w = some Wav.encDemoWriter ∧
    Wav.encDemoWritten.unknownChunks = [] ∧
    Wav.encDemoWriter.pos = Wav.encDemoWriter.data.length ∧
    8 ≤ Wav.encDemoWritten.pcmChunkSizePos ∧
    Wav.encDemoWritten.pcmChunkSizePos + 4 ≤ Wav.encDemoWriter.data.length ∧
    8 ≤ Wav.encDemoWritten.writtenBytes ∧
    Wav.encDemoWritten.writtenBytes < 4294967296 ∧
    Wav.encDemoWritten.bitDepth / 8 * Wav.encDemoWritten.numChans *
      Wav.encDemoWritten.frames < 4294967296 ∧
    (∃ e' wr', Wav.closeM (some Wav.encDemoWritten) = (some e', none) ∧
      e'.w = some wr' ∧
      (wr'.data.drop 4).take 4 = Wav.le32N (Wav.encDemoWritten.writtenBytes - 8) ∧
      (wr'.data.drop Wav.encDemoWritten.pcmChunkSizePos).take 4 =
        Wav.le32N (Wav.encDemoWritten.bitDepth / 8 * Wav.encDemoWritten.numChans *
          Wav.encDemoWritten.frames) ∧
      wr'.pos = wr'.data.length ∧ wr'.data.length = Wav.encDemoWriter.data.length) :=
  ⟨rfl, rfl, rfl, rfl, by decide, by decide, by decide, by decide, by decide,
    C7_close_patches Wav.encDemoWritten Wav.encDemoWriter rfl rfl rfl
      (by decide) (by decide) (by decide) (by decide) (by decide)⟩

/-- C8 counterexample: `Close` on an already-closed session is NOT a
no-op on the written output. On the session `encDemoWritten` (reached by
`Write` from a fresh encoder) the first `Close` patches the container
size field at offset 4 to 36; because the two patch writes themselves
inflate `WrittenBytes` from 44 to 52, a second `Close` succeeds but
rewrites that field to 44, changing the already-written output. -/
theorem C8_counterexample :
    Wav.writeM (Wav.newEncoderM (some ⟨[], 0⟩) 8000 16 1 1) (some (1, ([] : List ℚ))) =
      (Wav.encDemoWritten, none) ∧
    Wav.closeM (some Wav.encDemoWritten) = (some Wav.encDemoClosed, none) ∧
    (∃ w1, Wav.encDemoClosed.w = some w1 ∧ (w1.data.drop 4).take 4 = [36, 0, 0, 0]) ∧
    (∃ e2 w2, Wav.closeM (some Wav.encDemoClosed) = (some e2, none) ∧
      e2.w = some w2 ∧ (w2.data.drop 4).take 4 = [44, 0, 0, 0]) :=
  ⟨rfl, by decide, ⟨_, rfl, by decide⟩, ⟨_, _, rfl, rfl, by decide⟩⟩

/-- C8 amended: `Close` on a nil encoder or on an encoder with a nil
writer is a safe no-op (no error, nothing changed); but `Close` on an
already-closed session, while returning no error, rewrites the container
size field at offset 4 — each `Close` inflates `WrittenBytes` by the 8
patch bytes, so the second `Close` stores a value 8 larger than the
first, changing the already-written output. -/
theorem C8_amended :
    Wav.closeM none = (none, none) ∧
    (∀ e : Wav.EncState, e.w = none → Wav.closeM (some e) = (some e, none)) ∧
    (∀ (e : Wav.EncState) (wr : Wav.WriterM),
      e.w = some wr → e.unknownChunks = [] → wr.pos = wr.data.length →
      8 ≤ e.pcmChunkSizePos → e.pcmChunkSizePos + 4 ≤ wr.data.length →
      8 ≤ e.writtenBytes → e.writtenBytes + 8 < 4294967296 →
      ∃ e' wr' e'' wr'',
        Wav.closeM (some e) = (some e', none) ∧ e'.w = some wr' ∧
        e'.writtenBytes = e.writtenBytes + 8 ∧
        Wav.closeM (some e') = (some e'', none) ∧ e''.w = some wr'' ∧
        (wr'.data.drop 4).take 4 = Wav.le32N (e.writtenBytes - 8) ∧
        (wr''.data.drop 4).take 4 = Wav.le32N e.writtenBytes ∧
        Wav.le32N e.writtenBytes ≠ Wav.le32N (e.writtenBytes - 8)) :=
  ⟨rfl, fun e hw => Wav.closeM_nilWriter e hw,
    fun e wr hw hnc hend hpos hfit hwb8 hwb =>
      Wav.closeM_twice e wr hw hnc hend hpos hfit hwb8 hwb⟩
